import Mathlib

/-!
# The two-way linked list of `twl_list.c`

A shallow embedding of the list ADT of `src/twl_list.c` and of the sort
algorithms that run on it.

## Representation

* A `mydata_t *` is an `Option α`: `none` is the NULL pointer, `some a` points
  to the record `a`.
* A list header `twl_list_t` is represented by the fields `ll_count`,
  `ll_is_sorted`, `ll_comp_function` and by `nodes`, the `data_ptr` of every
  node met walking `next` from `ll_front` (so `ll_front == NULL` is
  `nodes = []`, `ll_back` is the last node, `ll_front == ll_back` for one
  node).  The header stands for a chain whose `prev` and `next` links agree.
  `ll_count` is stored apart from the chain, as in the source: the two can
  differ (see `twl_list_remove`).
* `int` is `Int`; the lists are far shorter than `2^31` nodes, no counter
  wraps.
* A call returns `Except Fault _`: `assert` is compiled in, so a failed
  assertion stops the program, and so does the use of a NULL pointer.
* A node pointer inside one chain (`start`, `end`, `current` of the selection
  sorts, which never relink nodes) is the position of the node from
  `ll_front`, `none` for NULL.
-/

/-- How a call stops other than by returning. -/
inductive Fault where
  /-- an `assert` failed -/
  | assertion
  /-- a NULL pointer was dereferenced or called -/
  | null_deref
  /-- the iteration bound the model gives a loop was used up -/
  | out_of_fuel
  deriving DecidableEq, Repr

/-- The header `twl_list_t` with its node chain. -/
structure twl_list_t (α : Type) where
  /-- the `data_ptr` of each node from `ll_front` to `ll_back` -/
  nodes : List (Option α)
  ll_count : Int
  /-- `TRUE` or `FALSE`, the only values the source stores -/
  ll_is_sorted : Bool
  /-- `none` is the NULL function pointer -/
  ll_comp_function : Option (Option α → Option α → Int)

def TWL_LIST_FRONT : Int := -2023

def TWL_LIST_BACK : Int := -914

/-- `twl_list_construct`: an empty list, sorted exactly when a comparison
function is given. -/
def twl_list_construct {α : Type} (compare_function : Option (Option α → Option α → Int)) :
    twl_list_t α :=
  { nodes := [], ll_count := 0, ll_comp_function := compare_function,
    ll_is_sorted := compare_function.isSome }

/-- `twl_list_size`: `assert(list_ptr->ll_count >= 0); return ll_count`. -/
def twl_list_size {α : Type} (L : twl_list_t α) : Except Fault Int :=
  if 0 ≤ L.ll_count then .ok L.ll_count else .error .assertion

/-- The forward loop at the end of `list_debug_validate`: for every node `N`
with a successor, `comp(N->data_ptr, N->next->data_ptr) != -1`. -/
def sorted_walk {α : Type} (comp : Option α → Option α → Int) : List (Option α) → Bool
  | a :: b :: rest => comp a b != -1 && sorted_walk comp (b :: rest)
  | _ => true

/-- The assertions of `list_debug_validate` on ends, count and elements,
`true` when all of them pass.  With `nodes` standing for a well linked chain
they read: an absent end needs `ll_count == 0`; `ll_count == 0` needs both
ends absent; one node needs `ll_count == 1`; `ll_count == 1` needs one node
with a non-NULL `data_ptr`; `1 < ll_count` needs two different ends, a
non-NULL `data_ptr` in every node and `ll_count` nodes on the walk from
`ll_back`. -/
def links_and_count_ok {α : Type} (L : twl_list_t α) : Bool :=
  (!L.nodes.isEmpty || L.ll_count == 0)
  && (L.ll_count != 0 || L.nodes.isEmpty)
  && (L.nodes.length != 1 || L.ll_count == 1)
  && (L.ll_count != 1 || (L.nodes.length == 1 && L.nodes.all Option.isSome))
  && (!(1 < L.ll_count) ||
      (2 ≤ L.nodes.length && L.nodes.all Option.isSome && (L.nodes.length : Int) == L.ll_count))

/-- `list_debug_validate`: the structural assertions, then, for a list marked
sorted, the order of every adjacent pair under `ll_comp_function`. -/
def list_debug_validate {α : Type} (L : twl_list_t α) : Except Fault Unit :=
  if !links_and_count_ok L then .error .assertion
  else if L.ll_is_sorted && 2 ≤ L.nodes.length then
    match L.ll_comp_function with
    | none => .error .null_deref
    | some comp => if sorted_walk comp L.nodes then .ok () else .error .assertion
  else .ok ()

/-- The loop `while (current != NULL && index < pos_index) { current =
current->next; index++; }` started at the head of the given chain: the chain
from the node it stops on, `[]` when it stops on NULL. -/
def walk_to {α : Type} : List (Option α) → Nat → List (Option α)
  | [], _ => []
  | cur :: rest, 0 => cur :: rest
  | _ :: rest, k + 1 => walk_to rest k

/-- `twl_list_access`. -/
def twl_list_access {α : Type} (L : twl_list_t α) (pos_index : Int) :
    Except Fault (Option α) :=
  if L.ll_count = 0 then .ok none
  else if pos_index = TWL_LIST_FRONT ∨ pos_index = 0 then
    match L.nodes.head? with
    | some d => .ok d
    | none => .error .null_deref
  else if pos_index = TWL_LIST_BACK ∨ pos_index = L.ll_count - 1 then
    match L.nodes.getLast? with
    | some d => .ok d
    | none => .error .null_deref
  else if pos_index < 0 ∨ pos_index ≥ L.ll_count then .ok none
  else
    match walk_to L.nodes pos_index.toNat with
    | cur :: _ => .ok cur
    | [] => .ok none

/-- The chain after the branches of `twl_list_insert`, before the count and
the flag are updated.  In the last branch a negative `pos_index` leaves
`current` on the front node: the new node is linked before it and `ll_front`
is not moved, so `ll_front->prev` is no longer NULL and the
`assert(L->ll_front->prev == NULL)` of the closing `list_debug_validate`
fails. -/
def insert_chain {α : Type} (L : twl_list_t α) (elem_ptr : Option α) (pos_index : Int) :
    Except Fault (List (Option α)) :=
  if L.ll_count = 0 then .ok [elem_ptr]
  else if pos_index = TWL_LIST_FRONT ∨ pos_index = 0 then
    match L.nodes with
    | [] => .error .null_deref
    | front :: rest => .ok (elem_ptr :: front :: rest)
  else if pos_index = TWL_LIST_BACK ∨ pos_index ≥ L.ll_count then
    match L.nodes with
    | [] => .error .null_deref
    | front :: rest => .ok ((front :: rest) ++ [elem_ptr])
  else
    match walk_to L.nodes pos_index.toNat with
    | [] => .error .null_deref
    | cur :: rest =>
      if pos_index < 0 then .error .assertion
      else .ok (L.nodes.take pos_index.toNat ++ elem_ptr :: cur :: rest)

/-- `twl_list_insert`: link the new node, `ll_count++`, `ll_is_sorted =
FALSE`, then `list_debug_validate`. -/
def twl_list_insert {α : Type} (L : twl_list_t α) (elem_ptr : Option α) (pos_index : Int) :
    Except Fault (twl_list_t α) :=
  match insert_chain L elem_ptr pos_index with
  | .error f => .error f
  | .ok chain =>
    let L1 : twl_list_t α :=
      { L with nodes := chain, ll_count := L.ll_count + 1, ll_is_sorted := false }
    match list_debug_validate L1 with
    | .error f => .error f
    | .ok _ => .ok L1

/-- The scan and relinking of `twl_list_insert_sorted` on a chain: pass every
node with `comp(elem_ptr, current->data_ptr) < 0`, link the new node before
the node the scan stops on, or after the last node when it stops on NULL. -/
def sorted_place {α : Type} (comp : Option α → Option α → Int) (elem_ptr : Option α) :
    List (Option α) → List (Option α)
  | [] => [elem_ptr]
  | cur :: rest =>
    if comp elem_ptr cur < 0 then cur :: sorted_place comp elem_ptr rest
    else elem_ptr :: cur :: rest

/-- `twl_list_insert_sorted`. -/
def twl_list_insert_sorted {α : Type} (L : twl_list_t α) (elem_ptr : Option α) :
    Except Fault (twl_list_t α) :=
  if L.ll_is_sorted ≠ true then .error .assertion
  else if L.ll_count = 0 then
    .ok { L with nodes := [elem_ptr], ll_count := L.ll_count + 1 }
  else
    match L.nodes, L.ll_comp_function with
    | [], _ => .error .null_deref
    | _ :: _, none => .error .null_deref
    | front :: rest, some comp =>
      let L1 : twl_list_t α :=
        { L with nodes := sorted_place comp elem_ptr (front :: rest),
                 ll_count := L.ll_count + 1 }
      match list_debug_validate L1 with
      | .error f => .error f
      | .ok _ => .ok L1

/-- `twl_list_remove`: the removed `data_ptr` and the list afterwards.  The
count is decremented only when the removed `data_ptr` is not NULL. -/
def twl_list_remove {α : Type} (L : twl_list_t α) (pos_index : Int) :
    Except Fault (Option α × twl_list_t α) :=
  let pos : Int :=
    if pos_index = TWL_LIST_FRONT then 0
    else if pos_index = TWL_LIST_BACK then L.ll_count - 1
    else pos_index
  if L.ll_count = 0 ∨ pos < 0 ∨ pos ≥ L.ll_count then .ok (none, L)
  else
    let done (removed_data : Option α) (chain : List (Option α)) :
        Except Fault (Option α × twl_list_t α) :=
      .ok (removed_data,
        { L with nodes := chain,
                 ll_count := if removed_data.isSome then L.ll_count - 1 else L.ll_count })
    if pos = TWL_LIST_FRONT ∨ pos = 0 then
      match L.nodes with
      | [] => .error .null_deref
      | temp :: rest => done temp rest
    else if pos = TWL_LIST_BACK ∨ pos = L.ll_count - 1 then
      match L.nodes.getLast? with
      | none => .error .null_deref
      | some temp => done temp L.nodes.dropLast
    else
      match walk_to L.nodes pos.toNat with
      | [] => .ok (none, L)
      | cur :: rest => done cur (L.nodes.take pos.toNat ++ rest)

/-! ## The sort algorithms -/

/-- `InsertionSort`: `while (twl_list_size(list_ptr) > 0)` remove the front
element of the source and `twl_list_insert_sorted` it into `sorted_list`.
Returns both lists.  The source does not use its `fcomp` argument. -/
def InsertionSort {α : Type} : Nat → twl_list_t α → twl_list_t α →
    Except Fault (twl_list_t α × twl_list_t α)
  | 0, _, _ => .error .out_of_fuel
  | fuel + 1, list, sorted_list => do
    let n ← twl_list_size list
    if 0 < n then
      let (elem, list1) ← twl_list_remove list 0
      let sorted1 ← twl_list_insert_sorted sorted_list elem
      InsertionSort fuel list1 sorted1
    else pure (list, sorted_list)

/-- `p->next` for the node at position `p` of the chain. -/
def node_next {α : Type} (nodes : List (Option α)) (p : Nat) : Option Nat :=
  if p + 1 < nodes.length then some (p + 1) else none

/-- `p->data_ptr` for the node at position `p` of the chain. -/
def node_data {α : Type} (nodes : List (Option α)) (p : Nat) : Option α :=
  nodes.getD p none

/-- The `do { i = i->next; if (i != NULL && fcomp(i->data_ptr, j->data_ptr) >
0) j = i; } while (i != end && i != NULL);` loop of `FindMax`. -/
def FindMax_loop {α : Type} (nodes : List (Option α)) (end_ : Option Nat)
    (fcomp : Option (Option α → Option α → Int)) : Nat → Nat → Nat → Except Fault Nat
  | 0, _, _ => .error .out_of_fuel
  | fuel + 1, i, j =>
    match node_next nodes i with
    | none => .ok j
    | some i1 =>
      match fcomp with
      | none => .error .null_deref
      | some comp =>
        let j1 := if comp (node_data nodes i1) (node_data nodes j) > 0 then i1 else j
        if some i1 ≠ end_ then FindMax_loop nodes end_ fcomp fuel i1 j1 else .ok j1

/-- `FindMax`: the position of the node the scan from `start` keeps. -/
def FindMax {α : Type} (nodes : List (Option α)) (start end_ : Option Nat)
    (fcomp : Option (Option α → Option α → Int)) : Except Fault Nat :=
  match start with
  | none => .error .null_deref
  | some s => FindMax_loop nodes end_ fcomp (nodes.length + 1) s s

/-- The exchange `temp = a->data_ptr; a->data_ptr = b->data_ptr; b->data_ptr
= temp` of two nodes of the chain. -/
def swap_data {α : Type} (nodes : List (Option α)) (a b : Nat) : List (Option α) :=
  (nodes.set a (node_data nodes b)).set b (node_data nodes a)

/-- `RecursiveSelectionSort` on the chain, from the node `start`. -/
def RecursiveSelectionSort {α : Type} (fcomp : Option (Option α → Option α → Int))
    (end_ : Option Nat) : Nat → List (Option α) → Option Nat → Except Fault (List (Option α))
  | 0, _, _ => .error .out_of_fuel
  | fuel + 1, nodes, start =>
    if start ≠ end_ then
      match FindMax nodes start end_ fcomp, start with
      | .error f, _ => .error f
      | .ok _, none => .error .null_deref
      | .ok MaxPosition, some s =>
        RecursiveSelectionSort fcomp end_ fuel (swap_data nodes s MaxPosition) (node_next nodes s)
    else .ok nodes

/-- `IterativeSelectionSort`: the `do ... while (current != NULL && current
!= end->next)` loop on the chain. -/
def IterativeSelectionSort {α : Type} (fcomp : Option (Option α → Option α → Int))
    (end_ : Option Nat) : Nat → List (Option α) → Option Nat → Except Fault (List (Option α))
  | 0, _, _ => .error .out_of_fuel
  | fuel + 1, nodes, current =>
    match FindMax nodes current end_ fcomp, current with
    | .error f, _ => .error f
    | .ok _, none => .error .null_deref
    | .ok MaxPosition, some c =>
      match node_next (swap_data nodes c MaxPosition) c with
      | none => .ok (swap_data nodes c MaxPosition)
      | some c1 =>
        match end_ with
        | none => .error .null_deref
        | some e =>
          if some c1 ≠ node_next (swap_data nodes c MaxPosition) e then
            IterativeSelectionSort fcomp end_ fuel (swap_data nodes c MaxPosition) (some c1)
          else .ok (swap_data nodes c MaxPosition)

/-- The step `data = twl_list_remove(src, 0); twl_list_insert(dst, data,
twl_list_size(dst));` that `MergeSort` repeats in all of its loops. -/
def move_front {α : Type} (src dst : twl_list_t α) :
    Except Fault (twl_list_t α × twl_list_t α) := do
  let (data, src1) ← twl_list_remove src 0
  let n ← twl_list_size dst
  let dst1 ← twl_list_insert dst data n
  pure (src1, dst1)

/-- `for (int i = 0; i < mid; i++)` around `move_front`. -/
def move_n {α : Type} : Nat → twl_list_t α → twl_list_t α →
    Except Fault (twl_list_t α × twl_list_t α)
  | 0, src, dst => .ok (src, dst)
  | k + 1, src, dst => do
    let (src1, dst1) ← move_front src dst
    move_n k src1 dst1

/-- `while (twl_list_size(src) != 0)` around `move_front`; the two closing
loops of `MergeSort` test `> 0`, the same test on a size that
`twl_list_size` asserts to be `>= 0`. -/
def move_all {α : Type} : Nat → twl_list_t α → twl_list_t α →
    Except Fault (twl_list_t α × twl_list_t α)
  | 0, _, _ => .error .out_of_fuel
  | fuel + 1, src, dst => do
    let n ← twl_list_size src
    if n ≠ 0 then
      let (src1, dst1) ← move_front src dst
      move_all fuel src1 dst1
    else pure (src, dst)

/-- The merge loop of `MergeSort`: while both lists have elements, move the
front of `LeftList` when `fcomp(left_data, right_data) >= 0`, the front of
`RightList` otherwise, to the back of the result. -/
def merge_loop {α : Type} (fcomp : Option (Option α → Option α → Int)) :
    Nat → twl_list_t α → twl_list_t α → twl_list_t α →
    Except Fault (twl_list_t α × twl_list_t α × twl_list_t α)
  | 0, _, _, _ => .error .out_of_fuel
  | fuel + 1, LeftList, RightList, list => do
    let nl ← twl_list_size LeftList
    if nl = 0 then pure (LeftList, RightList, list)
    else
      let nr ← twl_list_size RightList
      if nr = 0 then pure (LeftList, RightList, list)
      else
        let left_data ← twl_list_access LeftList 0
        let right_data ← twl_list_access RightList 0
        match fcomp with
        | none => .error .null_deref
        | some comp =>
          if comp left_data right_data ≥ 0 then
            let (Left1, list1) ← move_front LeftList list
            merge_loop fcomp fuel Left1 RightList list1
          else
            let (Right1, list1) ← move_front RightList list
            merge_loop fcomp fuel LeftList Right1 list1

/-- `MergeSort`.  The two temporary lists are emptied by the closing loops,
so `twl_list_destruct` has no node left to free. -/
def MergeSort {α : Type} (fcomp : Option (Option α → Option α → Int)) :
    Nat → twl_list_t α → Except Fault (twl_list_t α)
  | 0, _ => .error .out_of_fuel
  | fuel + 1, list => do
    let n ← twl_list_size list
    if n ≤ 1 then pure list
    else
      let mid := n / 2
      let (list1, LeftList) ← move_n mid.toNat list (twl_list_construct fcomp)
      let (list2, RightList) ←
        move_all (list1.nodes.length + 1) list1 (twl_list_construct fcomp)
      let LeftSorted ← MergeSort fcomp fuel LeftList
      let RightSorted ← MergeSort fcomp fuel RightList
      let (Left1, Right1, list3) ←
        merge_loop fcomp (LeftSorted.nodes.length + RightSorted.nodes.length + 1)
          LeftSorted RightSorted list2
      let (_, list4) ← move_all (Left1.nodes.length + 1) Left1 list3
      let (_, list5) ← move_all (Right1.nodes.length + 1) Right1 list4
      pure list5

/-- `ll_front` as a node position. -/
def front_node {α : Type} (L : twl_list_t α) : Option Nat :=
  if L.nodes.isEmpty then none else some 0

/-- `ll_back` as a node position. -/
def back_node {α : Type} (L : twl_list_t α) : Option Nat :=
  if L.nodes.isEmpty then none else some (L.nodes.length - 1)

/-- `twl_list_sort`.  The comparison function is stored first; a list of at
most one element returns at once; every other call ends with `ll_is_sorted =
TRUE` and `list_debug_validate`. -/
def twl_list_sort {α : Type} (L : twl_list_t α) (sort_type : Int)
    (fcomp : Option (Option α → Option α → Int)) : Except Fault (twl_list_t α) := do
  let list : twl_list_t α := { L with ll_comp_function := fcomp }
  let start := front_node list
  let end_ := back_node list
  let n ← twl_list_size list
  if n ≤ 1 then pure list
  else
    let sorted_list : twl_list_t α := twl_list_construct fcomp
    let list1 ←
      if sort_type = 1 then do
        let (_, sorted1) ← InsertionSort (list.nodes.length + 1) list sorted_list
        pure sorted1
      else if sort_type = 2 then do
        let chain ← RecursiveSelectionSort fcomp end_ (list.nodes.length + 1) list.nodes start
        pure { list with nodes := chain }
      else if sort_type = 3 then do
        let chain ← IterativeSelectionSort fcomp end_ (list.nodes.length + 1) list.nodes start
        pure { list with nodes := chain }
      else if sort_type = 4 then MergeSort fcomp (list.nodes.length + 1) list
      else pure list
    let list2 : twl_list_t α := { list1 with ll_is_sorted := true }
    list_debug_validate list2
    pure list2

/-! ## Search, marking, and sequences of calls -/

/-- The loop of `twl_list_elem_find_data_ptr` from the node `current` on:
the `data_ptr` of the first node with `compare_function(current->data_ptr,
elem_ptr) == 0`, NULL when the loop reaches the end. -/
def find_data_ptr_loop {α : Type} (compare_function : Option α → Option α → Int)
    (elem_ptr : Option α) : List (Option α) → Option α
  | [] => none
  | current :: rest =>
    if compare_function current elem_ptr = 0 then current
    else find_data_ptr_loop compare_function elem_ptr rest

/-- `twl_list_elem_find_data_ptr`; `assert(compare_function != NULL)` comes
first. -/
def twl_list_elem_find_data_ptr {α : Type} (L : twl_list_t α) (elem_ptr : Option α)
    (compare_function : Option (Option α → Option α → Int)) : Except Fault (Option α) :=
  match compare_function with
  | none => .error .assertion
  | some comp => .ok (find_data_ptr_loop comp elem_ptr L.nodes)

/-- The loop of `twl_list_elem_find_position` from the node `current` on,
with the counter `position`: the counter at the first node that matches, `-1`
when the loop reaches the end. -/
def find_position_loop {α : Type} (compare_function : Option α → Option α → Int)
    (elem_ptr : Option α) : List (Option α) → Int → Int
  | [], _ => -1
  | current :: rest, position =>
    if compare_function current elem_ptr = 0 then position
    else find_position_loop compare_function elem_ptr rest (position + 1)

/-- `twl_list_elem_find_position`; `assert(compare_function != NULL)` comes
first. -/
def twl_list_elem_find_position {α : Type} (L : twl_list_t α) (elem_ptr : Option α)
    (compare_function : Option (Option α → Option α → Int)) : Except Fault Int :=
  match compare_function with
  | none => .error .assertion
  | some comp => .ok (find_position_loop comp elem_ptr L.nodes 0)

/-- `twl_mark_the_list_unsorted` on a list pointer that is not NULL. -/
def twl_mark_the_list_unsorted {α : Type} (L : twl_list_t α) : twl_list_t α :=
  { L with ll_is_sorted := false }

/-- One call a client makes on a list: `twl_list_insert` of an element that
is not NULL, or `twl_list_remove`. -/
inductive list_call (α : Type) where
  | insert (elem : α) (pos_index : Int)
  | remove (pos_index : Int)

/-- The list after one call; the element `twl_list_remove` returns goes to
the caller. -/
def do_call {α : Type} (L : twl_list_t α) : list_call α → Except Fault (twl_list_t α)
  | .insert elem pos_index => twl_list_insert L (some elem) pos_index
  | .remove pos_index =>
    match twl_list_remove L pos_index with
    | .error f => .error f
    | .ok (_, L1) => .ok L1

/-- The list after a sequence of calls, made one after the other. -/
def do_calls {α : Type} (L : twl_list_t α) : List (list_call α) → Except Fault (twl_list_t α)
  | [] => .ok L
  | call :: rest =>
    match do_call L call with
    | .error f => .error f
    | .ok L1 => do_calls L1 rest

/-- The index of a call is an ordinal `>= 0` or one of the two sentinels. -/
def call_index_ok {α : Type} : list_call α → Prop
  | .insert _ pos_index => 0 ≤ pos_index ∨ pos_index = TWL_LIST_FRONT ∨ pos_index = TWL_LIST_BACK
  | .remove pos_index => 0 ≤ pos_index ∨ pos_index = TWL_LIST_FRONT ∨ pos_index = TWL_LIST_BACK

/-- The list a client gets by calling `twl_list_insert_sorted` for the given
elements, one after the other, on the list `L`. -/
def insert_sorted_all {α : Type} (L : twl_list_t α) :
    List (Option α) → Except Fault (twl_list_t α)
  | [] => .ok L
  | elem_ptr :: rest =>
    match twl_list_insert_sorted L elem_ptr with
    | .error f => .error f
    | .ok L1 => insert_sorted_all L1 rest

/-! ## Lists as the operations expect them -/

/-- A list as the invariants of the data model describe it: the stored count
is the number of nodes and every node holds a non-NULL element. -/
def well_formed {α : Type} (L : twl_list_t α) : Prop :=
  L.ll_count = L.nodes.length ∧ ∀ d ∈ L.nodes, d ≠ none

/-- The key of an element of the scenarios: a number that ranks it; the
second component only tells equal-ranked elements apart. -/
def item_key : Option (Int × Nat) → Int
  | some (v, _) => v
  | none => 0

/-- A numeric-descending comparison function: the larger number is closer to
the front. -/
def numeric_desc (a b : Option (Int × Nat)) : Int :=
  if item_key a > item_key b then 1 else if item_key a < item_key b then -1 else 0

/-- The chain `MergeSort` leaves, as a function of the chain it is given:
the front half of `count / 2` nodes and the rest are sorted and merged, the
left element first when `fcomp(left, right) >= 0`. -/
def merge_sort_chain {α : Type} (comp : Option α → Option α → Int) :
    Nat → List (Option α) → List (Option α)
  | 0, xs => xs
  | fuel + 1, xs =>
    if xs.length ≤ 1 then xs
    else
      List.merge (merge_sort_chain comp fuel (xs.take (xs.length / 2)))
        (merge_sort_chain comp fuel (xs.drop (xs.length / 2)))
        (fun a b => decide (0 ≤ comp a b))

/-- The chain `InsertionSort` builds in `sorted_list`, starting from the
chain `acc`: the elements are placed one after the other, front first. -/
def insertion_chain {α : Type} (comp : Option α → Option α → Int) :
    List (Option α) → List (Option α) → List (Option α)
  | acc, [] => acc
  | acc, x :: rest => insertion_chain comp (sorted_place comp x acc) rest

/-- The order checks `list_debug_validate` makes during `InsertionSort`, one
after each `twl_list_insert_sorted`. -/
def insertion_checks {α : Type} (comp : Option α → Option α → Int) :
    List (Option α) → List (Option α) → Bool
  | _, [] => true
  | acc, x :: rest =>
    sorted_walk comp (sorted_place comp x acc) &&
      insertion_checks comp (sorted_place comp x acc) rest

/-- A queue of two records of equal rank, as two `APPENDQ` commands leave
it. -/
def tie_pair : twl_list_t (Int × Nat) :=
  ⟨[some (3, 0), some (3, 1)], 2, false, none⟩

/-- A queue of three records, the first two of equal rank and the third
ranked before them by `numeric_desc`. -/
def tie_triple : twl_list_t (Int × Nat) :=
  ⟨[some (1, 0), some (1, 1), some (2, 2)], 3, false, none⟩

/-- A queue of two records that is out of order under `numeric_desc`. -/
def rising_pair : twl_list_t (Int × Nat) :=
  ⟨[some (1, 0), some (2, 1)], 2, false, none⟩

/-- A queue of two records that is in order under `numeric_desc`. -/
def falling_pair : twl_list_t (Int × Nat) :=
  ⟨[some (2, 0), some (1, 1)], 2, false, none⟩

/-- A sorted list of two records. -/
def leader_pair : twl_list_t (Int × Nat) :=
  ⟨[some (5, 0), some (3, 1)], 2, true, some numeric_desc⟩

/-- A queue of three records. -/
def queue3 : twl_list_t (Int × Nat) :=
  ⟨[some (1, 0), some (2, 1), some (3, 2)], 3, false, none⟩

/-- A numeric-ascending comparison function: the smaller number is closer to
the front (`1` when `a < b`, `-1` when `a > b`, `0` when equal). -/
def numeric_asc (a b : Option (Int × Nat)) : Int :=
  if item_key a < item_key b then 1 else if item_key a > item_key b then -1 else 0

/-- The list `[3, 1, 4, 1, 5]` of the sort scenario, not marked sorted; the
second components tell the two elements `1` apart. -/
def scenario5 : twl_list_t (Int × Nat) :=
  ⟨[some (3, 0), some (1, 1), some (4, 2), some (1, 3), some (5, 4)], 5, false, none⟩

/-! ## The access point lists of `ap_support.c` and the command loop of `wifi.c` -/

/-- Modelled from the spec: the record type `ap_info_t`, declared in
`datatypes.h`, which is not among the source files; the spec leaves the
record an opaque value.  `ap_support.c` compares and changes the two `int`
fields `eth_address` and `mobile_count`; `other` stands for the fields that
`ap_create_info` reads from the input and that no comparison looks at. -/
structure ap_info_t where
  eth_address : Int
  mobile_count : Int
  other : Nat
  deriving DecidableEq, Repr

/-- `ap_rank_aps` on two records, that is on two pointers that pass its
`assert(record_a != NULL && record_b != NULL)`. -/
def ap_rank_aps (record_a record_b : ap_info_t) : Int :=
  if record_a.mobile_count > record_b.mobile_count then 1
  else if record_a.mobile_count < record_b.mobile_count then -1
  else if record_a.eth_address < record_b.eth_address then 1
  else if record_a.eth_address > record_b.eth_address then -1
  else 0

/-- `ap_match_eth` on two records, behind the same assertion. -/
def ap_match_eth (record_a record_b : ap_info_t) : Int :=
  if record_a.eth_address = record_b.eth_address then 0 else -1

/-- A comparison function of `ap_support.c` as the list calls it, on two
`data_ptr`.  The functions stop on a NULL argument
(`assert(record_a != NULL && record_b != NULL)`); a comparison function of
the list model returns a number, so a NULL argument gets a value here: it
ranks behind every record.  No list of `ap_support.c` holds a NULL
`data_ptr`, and the theorems compare records only. -/
def on_data_ptr {α : Type} (f : α → α → Int) : Option α → Option α → Int
  | some a, some b => f a b
  | some _, none => 1
  | none, some _ => -1
  | none, none => 0

/-- The `int` a 32-bit two's complement machine stores for a number. -/
def to_int32 (x : Int) : Int :=
  (x + 2147483648) % 4294967296 - 2147483648

/-- `ap_create_info`: a zeroed record (`calloc`) with `eth_address = sta_id`;
the fields read from the input stand in `other`, `mobile_count` stays 0. -/
def ap_create_info (sta_id : Int) (input : Nat) : ap_info_t :=
  { eth_address := sta_id, mobile_count := 0, other := input }

/-- `ap_create_leaderboard`. -/
def ap_create_leaderboard : twl_list_t ap_info_t :=
  twl_list_construct (some (on_data_ptr ap_rank_aps))

/-- `ap_add`: the outcome the call prints (0 inserted, 1 list full, 2 already
in the list) and the list afterwards. -/
def ap_add (list_ptr : twl_list_t ap_info_t) (ap_id max_list_size : Int) (input : Nat) :
    Except Fault (Int × twl_list_t ap_info_t) := do
  let new_record := ap_create_info ap_id input
  let n ← twl_list_size list_ptr
  if n ≥ max_list_size then pure (1, list_ptr)
  else
    let existing_record ←
      twl_list_elem_find_data_ptr list_ptr (some new_record) (some (on_data_ptr ap_match_eth))
    if existing_record ≠ none then pure (2, list_ptr)
    else
      let list1 ← twl_list_insert_sorted list_ptr (some new_record)
      pure (0, list1)

/-- `ap_remove`.  The search record has only its `eth_address` set; the
other fields, which `ap_match_eth` does not read, are given as 0.
`assert(removed_record == rec_ptr)` compares the record removed with the one
found. -/
def ap_remove (list_ptr : twl_list_t ap_info_t) (ap_id : Int) :
    Except Fault (twl_list_t ap_info_t) := do
  let search_record : ap_info_t := { eth_address := ap_id, mobile_count := 0, other := 0 }
  let rec_ptr ←
    twl_list_elem_find_data_ptr list_ptr (some search_record) (some (on_data_ptr ap_match_eth))
  if rec_ptr = none then pure list_ptr
  else
    let position ←
      twl_list_elem_find_position list_ptr rec_ptr (some (on_data_ptr ap_match_eth))
    let (removed_record, list1) ← twl_list_remove list_ptr position
    if removed_record = rec_ptr then pure list1 else .error .assertion

/-- The chain after a write through the pointer that
`twl_list_elem_find_data_ptr` returned: the record of the first node that
matches is the one changed. -/
def store_at_match {α : Type} (compare_function : Option α → Option α → Int)
    (elem_ptr new_data : Option α) : List (Option α) → List (Option α)
  | [] => []
  | current :: rest =>
    if compare_function current elem_ptr = 0 then new_data :: rest
    else current :: store_at_match compare_function elem_ptr new_data rest

/-- `ap_inc`: `inc_result` (-2 when no record is found) and the list
afterwards.  `rec_ptr->mobile_count++` changes the record while it is in the
list; then the record is removed at the position found and inserted again. -/
def ap_inc (list_ptr : twl_list_t ap_info_t) (ap_id : Int) :
    Except Fault (Int × twl_list_t ap_info_t) := do
  let comparison_ap : ap_info_t := { eth_address := ap_id, mobile_count := 0, other := 0 }
  let rec_ptr ←
    twl_list_elem_find_data_ptr list_ptr (some comparison_ap) (some (on_data_ptr ap_match_eth))
  match rec_ptr with
  | none => pure (-2, list_ptr)
  | some r =>
    let r1 : ap_info_t := { r with mobile_count := to_int32 (r.mobile_count + 1) }
    let list1 : twl_list_t ap_info_t :=
      { list_ptr with
        nodes := store_at_match (on_data_ptr ap_match_eth) (some comparison_ap) (some r1)
          list_ptr.nodes }
    let position_to_remove ←
      twl_list_elem_find_position list1 (some comparison_ap) (some (on_data_ptr ap_match_eth))
    let (_, list2) ← twl_list_remove list1 position_to_remove
    let list3 ← twl_list_insert_sorted list2 (some r1)
    pure (r1.mobile_count, list3)

/-- `ap_dec`: `dec_result` (-2 when no record is found, -1 when the count is
not above zero) and the list afterwards. -/
def ap_dec (list_ptr : twl_list_t ap_info_t) (ap_id : Int) :
    Except Fault (Int × twl_list_t ap_info_t) := do
  let comparison_ap : ap_info_t := { eth_address := ap_id, mobile_count := 0, other := 0 }
  let rec_ptr ←
    twl_list_elem_find_data_ptr list_ptr (some comparison_ap) (some (on_data_ptr ap_match_eth))
  match rec_ptr with
  | none => pure (-2, list_ptr)
  | some r =>
    if r.mobile_count > 0 then
      let r1 : ap_info_t := { r with mobile_count := r.mobile_count - 1 }
      let list1 : twl_list_t ap_info_t :=
        { list_ptr with
          nodes := store_at_match (on_data_ptr ap_match_eth) (some comparison_ap) (some r1)
            list_ptr.nodes }
      let position_to_remove ←
        twl_list_elem_find_position list1 (some comparison_ap) (some (on_data_ptr ap_match_eth))
      let (_, list2) ← twl_list_remove list1 position_to_remove
      let list3 ← twl_list_insert_sorted list2 (some r1)
      pure (r1.mobile_count, list3)
    else pure (-1, list_ptr)

/-- The loop of `ap_removeall`: `while (twl_list_size(leaderboard) > 0)`
remove the front record; `found` counts the records removed. -/
def ap_removeall_loop : Nat → twl_list_t ap_info_t → Nat →
    Except Fault (Nat × twl_list_t ap_info_t)
  | 0, _, _ => .error .out_of_fuel
  | fuel + 1, leaderboard, found => do
    let n ← twl_list_size leaderboard
    if n > 0 then
      let (record, leaderboard1) ← twl_list_remove leaderboard TWL_LIST_FRONT
      ap_removeall_loop fuel leaderboard1 (if record ≠ none then found + 1 else found)
    else pure (found, leaderboard)

/-- `ap_removeall`: the number of records removed and the list afterwards. -/
def ap_removeall (leaderboard : twl_list_t ap_info_t) :
    Except Fault (Nat × twl_list_t ap_info_t) :=
  ap_removeall_loop (leaderboard.nodes.length + 1) leaderboard 0

/-- `ap_dequeue`: the outcome the call prints (0 queue empty, 1 moved, 2
leaderboard full, 3 already in the leaderboard), the queue and the
leaderboard afterwards.  A NULL `rec_ptr` ends in the assertion of
`ap_match_eth` when the search compares it with a record, otherwise in
`rec_ptr->eth_address` of the closing `printf`. -/
def ap_dequeue (queue leaderboard : twl_list_t ap_info_t) (max_list_size : Int) :
    Except Fault (Int × twl_list_t ap_info_t × twl_list_t ap_info_t) := do
  let nq ← twl_list_size queue
  if nq = 0 then pure (0, queue, leaderboard)
  else
    let (rec_ptr, queue1) ← twl_list_remove queue 0
    let nl ← twl_list_size leaderboard
    if nl ≥ max_list_size then
      match rec_ptr with
      | none => .error .null_deref
      | some _ => pure (2, queue1, leaderboard)
    else
      match rec_ptr with
      | none => if leaderboard.nodes.isEmpty then .error .null_deref else .error .assertion
      | some _ =>
        let position_in_leaderboard ←
          twl_list_elem_find_position leaderboard rec_ptr (some (on_data_ptr ap_match_eth))
        if position_in_leaderboard ≠ -1 then pure (3, queue1, leaderboard)
        else
          let leaderboard1 ← twl_list_insert_sorted leaderboard rec_ptr
          pure (1, queue1, leaderboard1)

/-- `ap_enqueue`. -/
def ap_enqueue (queue : twl_list_t ap_info_t) (ap_id : Int) (input : Nat) :
    Except Fault (twl_list_t ap_info_t) :=
  twl_list_insert queue (some (ap_create_info ap_id input)) TWL_LIST_BACK

/-- `ap_appendq`, with a `calloc` that succeeds. -/
def ap_appendq (queue : twl_list_t ap_info_t) (eth_id mobile_cnt : Int) :
    Except Fault (twl_list_t ap_info_t) := do
  let new_ap : ap_info_t := { eth_address := eth_id, mobile_count := mobile_cnt, other := 0 }
  let n ← twl_list_size queue
  let queue1 ← twl_list_insert queue (some new_ap) n
  pure (twl_mark_the_list_unsorted queue1)

/-- The two lists of `main` in `wifi.c`. -/
structure wifi_lists where
  ap_leaderboard : twl_list_t ap_info_t
  ap_queue : twl_list_t ap_info_t

/-- The commands of `wifi.c` that change a list through `ap_support.c`
without sorting the queue; `input` is what `ap_create_info` reads. -/
inductive wifi_command where
  | ADD (ap_id : Int) (input : Nat)
  | REMOVE (ap_id : Int)
  | INC (ap_id : Int)
  | DEC (ap_id : Int)
  | REMOVEALL
  | JOINQ (ap_id : Int) (input : Nat)
  | MOVEQTOL
  | APPENDQ (ap_id mob_cnt : Int)

/-- The lists `main` starts its loop with. -/
def wifi_start : wifi_lists :=
  { ap_leaderboard := ap_create_leaderboard, ap_queue := twl_list_construct none }

/-- One pass of the loop of `main` for the command read. -/
def wifi_step (lb_listsize : Int) (s : wifi_lists) : wifi_command → Except Fault wifi_lists
  | .ADD ap_id input => do
    let (_, lb) ← ap_add s.ap_leaderboard ap_id lb_listsize input
    pure { s with ap_leaderboard := lb }
  | .REMOVE ap_id => do
    let lb ← ap_remove s.ap_leaderboard ap_id
    pure { s with ap_leaderboard := lb }
  | .INC ap_id => do
    let (_, lb) ← ap_inc s.ap_leaderboard ap_id
    pure { s with ap_leaderboard := lb }
  | .DEC ap_id => do
    let (_, lb) ← ap_dec s.ap_leaderboard ap_id
    pure { s with ap_leaderboard := lb }
  | .REMOVEALL => do
    let (_, lb) ← ap_removeall s.ap_leaderboard
    pure { s with ap_leaderboard := lb }
  | .JOINQ ap_id input => do
    let q ← ap_enqueue s.ap_queue ap_id input
    pure { s with ap_queue := q }
  | .MOVEQTOL => do
    let (_, q, lb) ← ap_dequeue s.ap_queue s.ap_leaderboard lb_listsize
    pure { ap_leaderboard := lb, ap_queue := q }
  | .APPENDQ ap_id mob_cnt => do
    let q ← ap_appendq s.ap_queue ap_id mob_cnt
    pure { s with ap_queue := q }

/-- The loop of `main` over the commands read, one after the other. -/
def wifi_run (lb_listsize : Int) (s : wifi_lists) : List wifi_command → Except Fault wifi_lists
  | [] => .ok s
  | c :: rest =>
    match wifi_step lb_listsize s c with
    | .error f => .error f
    | .ok s1 => wifi_run lb_listsize s1 rest

/-- The records of a list, from the front to the back. -/
def records {α : Type} (L : twl_list_t α) : List α :=
  L.nodes.filterMap id

/-- The list that holds the given records, one node each, from the front to
the back. -/
def list_of_records {α : Type} (recs : List α) (s : Bool)
    (c : Option (Option α → Option α → Int)) : twl_list_t α :=
  { nodes := recs.map some, ll_count := (recs.length : Int), ll_is_sorted := s,
    ll_comp_function := c }

/-- A leaderboard as the calls of `ap_support.c` keep it: well formed, marked
sorted, with `ap_rank_aps` as its comparison function, every record ranked
at or before every record behind it, and no `eth_address` twice. -/
def leaderboard_ok (L : twl_list_t ap_info_t) : Prop :=
  well_formed L ∧ L.ll_is_sorted = true ∧
    L.ll_comp_function = some (on_data_ptr ap_rank_aps) ∧
    (records L).Pairwise (fun a b => 0 ≤ ap_rank_aps a b) ∧
    ((records L).map (fun r => r.eth_address)).Nodup

/-- The two lists as the loop of `main` keeps them for the leaderboard size
`lb_listsize`: the leaderboard in order, without an `eth_address` twice and
with at most `lb_listsize` records (none when `lb_listsize` is negative), and
a well formed queue. -/
def wifi_lists_ok (lb_listsize : Int) (s : wifi_lists) : Prop :=
  leaderboard_ok s.ap_leaderboard ∧ well_formed s.ap_queue ∧
    ((records s.ap_leaderboard).length : Int) ≤ max lb_listsize 0

/-- A queue of two records, as `APPENDQ 5 4` and `APPENDQ 3 9` leave it. -/
def ap_queue_two : twl_list_t ap_info_t :=
  list_of_records [⟨5, 4, 0⟩, ⟨3, 9, 0⟩] false none

/-- A leaderboard with one record. -/
def ap_leaderboard_one : twl_list_t ap_info_t :=
  list_of_records [⟨7, 1, 0⟩] true (some (on_data_ptr ap_rank_aps))

/-! ## Theorems -/

theorem all_isSome_of {α : Type} {xs : List (Option α)} (h : ∀ d ∈ xs, d ≠ none) :
    xs.all Option.isSome = true := by
  rw [List.all_eq_true]
  intro d hd
  cases d with
  | none => exact absurd rfl (h none hd)
  | some a => rfl

theorem links_ok_of {α : Type} (xs : List (Option α)) (s : Bool)
    (c : Option (Option α → Option α → Int)) (h : ∀ d ∈ xs, d ≠ none) :
    links_and_count_ok (⟨xs, xs.length, s, c⟩ : twl_list_t α) = true := by
  have hall := all_isSome_of h
  cases xs with
  | nil => simp [links_and_count_ok]
  | cons a t =>
    cases t with
    | nil => simp [links_and_count_ok] at hall ⊢; exact hall
    | cons b u =>
      simp only [links_and_count_ok, hall]
      simp
      omega

theorem size_eq {α : Type} (xs : List (Option α)) (s : Bool)
    (c : Option (Option α → Option α → Int)) :
    twl_list_size (⟨xs, xs.length, s, c⟩ : twl_list_t α) = .ok (xs.length : Int) := by
  simp [twl_list_size]

theorem validate_unsorted {α : Type} (xs : List (Option α))
    (c : Option (Option α → Option α → Int)) (h : ∀ d ∈ xs, d ≠ none) :
    list_debug_validate (⟨xs, xs.length, false, c⟩ : twl_list_t α) = .ok () := by
  simp [list_debug_validate, links_ok_of xs false c h]

theorem validate_sorted {α : Type} (xs : List (Option α))
    (comp : Option α → Option α → Int) (h : ∀ d ∈ xs, d ≠ none) :
    list_debug_validate (⟨xs, xs.length, true, some comp⟩ : twl_list_t α) =
      if sorted_walk comp xs then .ok () else .error .assertion := by
  simp only [list_debug_validate, links_ok_of xs true (some comp) h]
  by_cases h2 : 2 ≤ xs.length
  · simp [h2]
  · have : sorted_walk comp xs = true := by
      match xs, h2 with
      | [], _ => rfl
      | [_], _ => rfl
      | _ :: _ :: _, h2 => simp at h2
    simp [h2, this]

theorem walk_to_eq_drop {α : Type} (xs : List (Option α)) (k : Nat) :
    walk_to xs k = xs.drop k := by
  induction xs generalizing k with
  | nil => simp [walk_to]
  | cons a t ih =>
    cases k with
    | zero => simp [walk_to]
    | succ k => simp [walk_to, ih]

theorem insert_of_chain {α : Type} (L : twl_list_t α) (d : Option α) (i : Int)
    (chain : List (Option α)) (hc : insert_chain L d i = .ok chain)
    (hlen : (chain.length : Int) = L.ll_count + 1) (hall : ∀ x ∈ chain, x ≠ none) :
    twl_list_insert L d i = .ok ⟨chain, L.ll_count + 1, false, L.ll_comp_function⟩ := by
  have hv := validate_unsorted chain L.ll_comp_function hall
  rw [hlen] at hv
  simp [twl_list_insert, hc, hv]

theorem insert_chain_spec {α : Type} (xs : List (Option α)) (s : Bool)
    (c : Option (Option α → Option α → Int)) (d : Option α) (i : Int) :
    (0 ≤ i → i ≤ xs.length →
      insert_chain ⟨xs, xs.length, s, c⟩ d i = .ok (xs.take i.toNat ++ d :: xs.drop i.toNat)) ∧
    (i = TWL_LIST_FRONT → insert_chain ⟨xs, xs.length, s, c⟩ d i = .ok (d :: xs)) ∧
    (i = TWL_LIST_BACK ∨ (xs.length : Int) < i →
      insert_chain ⟨xs, xs.length, s, c⟩ d i = .ok (xs ++ [d])) := by
  cases xs with
  | nil =>
    refine ⟨?_, ?_, ?_⟩ <;> intros <;> simp [insert_chain]
  | cons a t =>
    have hne : ((a :: t).length : Int) ≠ 0 := by simp; omega
    have hne2 : ¬ ((t.length : Int) + 1 = 0) := by omega
    refine ⟨?_, ?_, ?_⟩
    · intro h0 hn
      have hF : i ≠ TWL_LIST_FRONT := by unfold TWL_LIST_FRONT; omega
      have hB : i ≠ TWL_LIST_BACK := by unfold TWL_LIST_BACK; omega
      by_cases hz : i = 0
      · subst hz; simp [insert_chain, hne2]
      · by_cases hlast : i = ((a :: t).length : Int)
        · have : i.toNat = (a :: t).length := by omega
          simp only [insert_chain, hne, hF, hz, hB, if_false, or_self, false_or]
          rw [if_pos (by omega)]
          simp [this]
        · have hlt : ¬ (i ≥ ((a :: t).length : Int)) := by omega
          simp only [insert_chain, hne, hF, hz, hB, hlt, if_false, or_self]
          rw [walk_to_eq_drop]
          have hk : i.toNat < (a :: t).length := by omega
          obtain ⟨cur, rest, hcr⟩ : ∃ cur rest, (a :: t).drop i.toNat = cur :: rest := by
            cases hd : (a :: t).drop i.toNat with
            | nil => rw [List.drop_eq_nil_iff] at hd; omega
            | cons cur rest => exact ⟨cur, rest, rfl⟩
          rw [hcr]
          have : ¬ i < 0 := by omega
          simp [this]
    · intro hF
      simp [insert_chain, hne2, hF]
    · intro h
      have hF : i ≠ TWL_LIST_FRONT := by
        rcases h with h | h
        · rw [h]; decide
        · unfold TWL_LIST_FRONT; omega
      have hz : i ≠ 0 := by
        rcases h with h | h
        · rw [h]; decide
        · omega
      have hb : i = TWL_LIST_BACK ∨ i ≥ ((a :: t).length : Int) := by
        rcases h with h | h
        · exact Or.inl h
        · exact Or.inr (by omega)
      simp only [insert_chain, hne, hF, hz, if_false, or_self]
      rw [if_pos hb]

/-- C8: on a list of `n` elements `twl_list_insert` puts the element at
position `i` for `0 <= i <= n`, at the front for `TWL_LIST_FRONT`, at the
back (position `n`) for `TWL_LIST_BACK` and for every `i > n`; the other
elements keep their order and the count becomes `n + 1`. -/
theorem twl_list_insert_positions {α : Type} (L : twl_list_t α) (e : α) (i : Int)
    (hwf : well_formed L) :
    (0 ≤ i → i ≤ L.nodes.length → ∃ L1, twl_list_insert L (some e) i = .ok L1 ∧
      L1.nodes = L.nodes.take i.toNat ++ some e :: L.nodes.drop i.toNat ∧
      L1.ll_count = L.nodes.length + 1) ∧
    (i = TWL_LIST_FRONT → ∃ L1, twl_list_insert L (some e) i = .ok L1 ∧
      L1.nodes = some e :: L.nodes ∧ L1.ll_count = L.nodes.length + 1) ∧
    (i = TWL_LIST_BACK ∨ (L.nodes.length : Int) < i → ∃ L1,
      twl_list_insert L (some e) i = .ok L1 ∧
      L1.nodes = L.nodes ++ [some e] ∧ L1.ll_count = L.nodes.length + 1) := by
  obtain ⟨xs, cnt, s, c⟩ := L
  obtain ⟨hcount, hdata⟩ := hwf
  simp only at hcount hdata
  subst hcount
  simp only
  obtain ⟨h1, h2, h3⟩ := insert_chain_spec xs s c (some e) i
  refine ⟨fun h0 hn => ?_, fun hF => ?_, fun hB => ?_⟩
  · refine ⟨_, insert_of_chain _ (some e) i _ (h1 h0 hn) ?_ ?_, rfl, rfl⟩
    · simp; omega
    · intro x hx
      simp only [List.mem_append, List.mem_cons] at hx
      rcases hx with hx | hx | hx
      · exact hdata x (List.mem_of_mem_take hx)
      · simp [hx]
      · exact hdata x (List.mem_of_mem_drop hx)
  · refine ⟨_, insert_of_chain _ (some e) i _ (h2 hF) ?_ ?_, rfl, rfl⟩
    · simp
    · intro x hx
      simp only [List.mem_cons] at hx
      rcases hx with hx | hx
      · simp [hx]
      · exact hdata x hx
  · refine ⟨_, insert_of_chain _ (some e) i _ (h3 hB) ?_ ?_, rfl, rfl⟩
    · simp
    · intro x hx
      simp only [List.mem_append, List.mem_singleton] at hx
      rcases hx with hx | hx
      · exact hdata x hx
      · simp [hx]

theorem remove_at {α : Type} (xs : List (Option α)) (s : Bool)
    (c : Option (Option α → Option α → Int)) (h : ∀ d ∈ xs, d ≠ none)
    (i : Int) (p : Nat) (hp : p < xs.length)
    (hi : i = p ∨ (i = TWL_LIST_FRONT ∧ p = 0) ∨ (i = TWL_LIST_BACK ∧ p = xs.length - 1)) :
    twl_list_remove ⟨xs, xs.length, s, c⟩ i =
      .ok (xs.getD p none, ⟨xs.eraseIdx p, (xs.length : Int) - 1, s, c⟩) := by
  -- the normalised index
  have hpos : (if i = TWL_LIST_FRONT then (0 : Int)
      else if i = TWL_LIST_BACK then (xs.length : Int) - 1 else i) = (p : Int) := by
    rcases hi with hi | ⟨hi, hp0⟩ | ⟨hi, hpl⟩
    · have h1 : i ≠ TWL_LIST_FRONT := by unfold TWL_LIST_FRONT; omega
      have h2 : i ≠ TWL_LIST_BACK := by unfold TWL_LIST_BACK; omega
      rw [if_neg h1, if_neg h2, hi]
    · simp [hi, hp0]
    · have h1 : i ≠ TWL_LIST_FRONT := by rw [hi]; decide
      simp only [h1, hi, if_true, if_false]
      omega
  have hpF : (p : Int) ≠ TWL_LIST_FRONT := by unfold TWL_LIST_FRONT; omega
  have hpB : (p : Int) ≠ TWL_LIST_BACK := by unfold TWL_LIST_BACK; omega
  have hrange : ¬ ((xs.length : Int) = 0 ∨ (p : Int) < 0 ∨ (p : Int) ≥ xs.length) := by omega
  have hsome : ∀ d ∈ xs, Option.isSome d = true := by
    intro d hd
    cases d with
    | none => exact absurd rfl (h none hd)
    | some a => rfl
  unfold twl_list_remove
  simp only [hpos, hrange, if_false, hpF, hpB, false_or, Int.toNat_ofNat]
  by_cases hp0 : p = 0
  · subst hp0
    cases xs with
    | nil => simp at hp
    | cons a t => simp [hsome a (List.mem_cons_self a t)]
  · have hp0i : ¬ ((p : Int) = 0) := by omega
    simp only [hp0i, if_false]
    by_cases hpl : p = xs.length - 1
    · have hpli : (p : Int) = (xs.length : Int) - 1 := by omega
      have hne : xs ≠ [] := by intro h0; simp [h0] at hp
      have hlast : xs.getLast? = some (xs.getD p none) := by
        rw [List.getLast?_eq_getElem?, ← hpl, List.getD_eq_getElem?_getD,
          List.getElem?_eq_getElem hp]
        rfl
      have hmem : xs.getD p none ∈ xs := by
        rw [List.getD_eq_getElem?_getD, List.getElem?_eq_getElem hp]
        exact List.getElem_mem hp
      simp only [hpli, if_true, hlast]
      rw [← hpli]
      simp only [hsome _ hmem, if_true]
      rw [List.dropLast_eq_eraseIdx (by omega : p + 1 = xs.length)]
    · have hpli : ¬ ((p : Int) = (xs.length : Int) - 1) := by omega
      simp only [hpli, if_false]
      rw [walk_to_eq_drop]
      have hd : xs.drop p = xs.getD p none :: xs.drop (p + 1) := by
        rw [List.getD_eq_getElem?_getD, List.getElem?_eq_getElem hp]
        exact List.drop_eq_getElem_cons hp
      have hmem : xs.getD p none ∈ xs := by
        rw [List.getD_eq_getElem?_getD, List.getElem?_eq_getElem hp]
        exact List.getElem_mem hp
      rw [hd]
      simp only [hsome _ hmem, if_true]
      rw [List.eraseIdx_eq_take_drop_succ]


/-- C9: on a list of non-NULL elements `twl_list_remove` at an index `i`
that stands for the position `p` (`i = p`, or `TWL_LIST_FRONT` for `p = 0`, or
`TWL_LIST_BACK` for `p = n - 1`) returns the element at `p` and leaves the list
without that one position, with count `n - 1` and the same flag and
comparison function. -/
theorem twl_list_remove_in_range {α : Type} (L : twl_list_t α) (i : Int) (p : Nat)
    (hwf : well_formed L) (hp : p < L.nodes.length)
    (hi : i = p ∨ (i = TWL_LIST_FRONT ∧ p = 0) ∨
      (i = TWL_LIST_BACK ∧ p = L.nodes.length - 1)) :
    ∃ d L1, twl_list_remove L i = .ok (some d, L1) ∧ L.nodes[p]? = some (some d) ∧
      L1.nodes = L.nodes.eraseIdx p ∧ L1.ll_count = (L.nodes.length : Int) - 1 ∧
      L1.ll_is_sorted = L.ll_is_sorted ∧ L1.ll_comp_function = L.ll_comp_function := by
  obtain ⟨xs, cnt, s, c⟩ := L
  obtain ⟨hcount, hdata⟩ := hwf
  simp only at hcount hdata hp hi
  subst hcount
  have hrem := remove_at xs s c hdata i p hp hi
  have hget : xs[p]? = some (xs.getD p none) := by
    rw [List.getD_eq_getElem?_getD, List.getElem?_eq_getElem hp]
    rfl
  cases hd : xs.getD p none with
  | none =>
    have hmem : xs.getD p none ∈ xs := by
      rw [List.getD_eq_getElem?_getD, List.getElem?_eq_getElem hp]
      exact List.getElem_mem hp
    exact absurd hd (hdata _ hmem)
  | some d =>
    rw [hd] at hrem hget
    exact ⟨d, _, hrem, hget, rfl, rfl, rfl, rfl⟩

/-- C10: `twl_list_remove` at an index that is neither a sentinel nor in
`[0, n)`, and at every index when the list is empty, returns NULL and leaves
the list as it was. -/
theorem twl_list_remove_out_of_range {α : Type} (L : twl_list_t α) (i : Int)
    (hcount : L.ll_count = L.nodes.length)
    (hi : (i ≠ TWL_LIST_FRONT ∧ i ≠ TWL_LIST_BACK ∧ (i < 0 ∨ (L.nodes.length : Int) ≤ i)) ∨
      L.nodes.length = 0) :
    twl_list_remove L i = .ok (none, L) := by
  unfold twl_list_remove
  rw [if_pos]
  rcases hi with ⟨hF, hB, hr⟩ | h0
  · rw [if_neg hF, if_neg hB, hcount]
    omega
  · left
    rw [hcount, h0]
    rfl

theorem sorted_walk_iff {α : Type} (comp : Option α → Option α → Int) (xs : List (Option α)) :
    sorted_walk comp xs = true ↔ List.Chain' (fun a b => comp a b ≠ -1) xs := by
  induction xs with
  | nil => simp [sorted_walk]
  | cons a t ih =>
    cases t with
    | nil => simp [sorted_walk]
    | cons b u =>
      simp only [sorted_walk, Bool.and_eq_true, ih, List.chain'_cons, bne_iff_ne]

theorem sorted_place_chain {α : Type} (comp : Option α → Option α → Int)
    (hanti : ∀ a b, comp a b = -comp b a) (e : Option α) (xs : List (Option α)) (p : Option α)
    (hp : comp p e ≠ -1) (h : List.Chain (fun a b => comp a b ≠ -1) p xs) :
    List.Chain (fun a b => comp a b ≠ -1) p (sorted_place comp e xs) := by
  induction xs generalizing p with
  | nil => simpa [sorted_place] using hp
  | cons c rest ih =>
    rw [List.chain_cons] at h
    unfold sorted_place
    split
    · rename_i hlt
      refine List.Chain.cons h.1 (ih c ?_ h.2)
      have := hanti c e
      omega
    · rename_i hge
      refine List.Chain.cons hp (List.Chain.cons ?_ h.2)
      omega

theorem sorted_place_chain' {α : Type} (comp : Option α → Option α → Int)
    (hanti : ∀ a b, comp a b = -comp b a) (e : Option α) (xs : List (Option α))
    (h : List.Chain' (fun a b => comp a b ≠ -1) xs) :
    List.Chain' (fun a b => comp a b ≠ -1) (sorted_place comp e xs) := by
  cases xs with
  | nil => simp [sorted_place]
  | cons c rest =>
    unfold sorted_place
    split
    · rename_i hlt
      refine sorted_place_chain comp hanti e rest c ?_ h
      have := hanti c e
      omega
    · rename_i hge
      refine List.Chain.cons ?_ h
      omega

theorem sorted_place_perm {α : Type} (comp : Option α → Option α → Int) (e : Option α)
    (xs : List (Option α)) : (sorted_place comp e xs).Perm (e :: xs) := by
  induction xs with
  | nil => simp [sorted_place]
  | cons c rest ih =>
    unfold sorted_place
    split
    · exact (List.Perm.cons c ih).trans (List.Perm.swap e c rest)
    · exact List.Perm.refl _

theorem sorted_place_length {α : Type} (comp : Option α → Option α → Int) (e : Option α)
    (xs : List (Option α)) : (sorted_place comp e xs).length = xs.length + 1 := by
  simpa using (sorted_place_perm comp e xs).length_eq

theorem sorted_place_data {α : Type} (comp : Option α → Option α → Int) (e : Option α)
    (xs : List (Option α)) (he : e ≠ none) (h : ∀ d ∈ xs, d ≠ none) :
    ∀ d ∈ sorted_place comp e xs, d ≠ none := by
  intro d hd
  have := (sorted_place_perm comp e xs).mem_iff.mp hd
  rcases List.mem_cons.mp this with h1 | h1
  · rw [h1]; exact he
  · exact h d h1

/-- What `twl_list_insert_sorted` returns on a well formed sorted list. -/
theorem insert_sorted_eq {α : Type} (xs : List (Option α)) (comp : Option α → Option α → Int)
    (e : Option α) (he : e ≠ none) (h : ∀ d ∈ xs, d ≠ none) :
    twl_list_insert_sorted ⟨xs, xs.length, true, some comp⟩ e =
      if sorted_walk comp (sorted_place comp e xs) then
        .ok ⟨sorted_place comp e xs, (xs.length : Int) + 1, true, some comp⟩
      else .error .assertion := by
  cases xs with
  | nil => simp [twl_list_insert_sorted, sorted_place, sorted_walk]
  | cons a t =>
    have hne : ¬ (((t.length : Int) + 1) = 0) := by omega
    have hv := validate_sorted (sorted_place comp e (a :: t)) comp
      (sorted_place_data comp e (a :: t) he h)
    rw [sorted_place_length] at hv
    simp only [List.length_cons, Nat.cast_add, Nat.cast_one] at hv ⊢
    simp only [twl_list_insert_sorted, hne, if_false, ne_eq, not_true_eq_false, hv]
    by_cases hs : sorted_walk comp (sorted_place comp e (a :: t)) = true
    · simp [hs]
    · simp [hs]

/-- C1: on a list marked sorted whose adjacent pairs are in order,
`twl_list_insert_sorted` with an antisymmetric comparison function returns a
list whose adjacent pairs are in order (`comp(left, right) != -1`), which
`list_debug_validate` accepts. -/
theorem twl_list_insert_sorted_keeps_order {α : Type} (L : twl_list_t α)
    (comp : Option α → Option α → Int) (e : α)
    (hwf : well_formed L) (hflag : L.ll_is_sorted = true)
    (hcomp : L.ll_comp_function = some comp)
    (hanti : ∀ a b, comp a b = -comp b a)
    (hord : List.Chain' (fun a b => comp a b ≠ -1) L.nodes) :
    ∃ L1, twl_list_insert_sorted L (some e) = .ok L1 ∧
      List.Chain' (fun a b => comp a b ≠ -1) L1.nodes ∧
      L1.ll_is_sorted = true ∧ list_debug_validate L1 = .ok () := by
  obtain ⟨xs, cnt, s, c⟩ := L
  obtain ⟨hcount, hdata⟩ := hwf
  simp only at hcount hdata hflag hcomp hord
  subst hcount hflag hcomp
  have hch := sorted_place_chain' comp hanti (some e) xs hord
  have hsw := (sorted_walk_iff comp _).mpr hch
  refine ⟨⟨sorted_place comp (some e) xs, (xs.length : Int) + 1, true, some comp⟩,
    ?_, hch, rfl, ?_⟩
  · rw [insert_sorted_eq xs comp (some e) (by simp) hdata, if_pos hsw]
  · have hv := validate_sorted (sorted_place comp (some e) xs) comp
      (sorted_place_data comp (some e) xs (by simp) hdata)
    rw [sorted_place_length, if_pos hsw] at hv
    simpa using hv

theorem remove_front_eq {α : Type} (a : Option α) (t : List (Option α)) (s : Bool)
    (c : Option (Option α → Option α → Int)) (ha : a ≠ none) :
    twl_list_remove ⟨a :: t, ((a :: t).length : Nat), s, c⟩ 0 = .ok (a, ⟨t, t.length, s, c⟩) := by
  have hF : (0 : Int) ≠ TWL_LIST_FRONT := by decide
  have hB : (0 : Int) ≠ TWL_LIST_BACK := by decide
  have hsome : a.isSome = true := by
    cases a with
    | none => exact absurd rfl ha
    | some _ => rfl
  have hne : ¬ (((t.length : Int) + 1 = 0) ∨ (t.length : Int) + 1 ≤ 0) := by omega
  simp [twl_list_remove, hF, hB, hsome, hne]

theorem insert_back_eq {α : Type} (xs : List (Option α)) (s : Bool)
    (c : Option (Option α → Option α → Int)) (d : Option α)
    (h : ∀ x ∈ xs, x ≠ none) (hd : d ≠ none) :
    twl_list_insert ⟨xs, xs.length, s, c⟩ d (xs.length : Int) =
      .ok ⟨xs ++ [d], ((xs ++ [d]).length : Nat), false, c⟩ := by
  have hc := (insert_chain_spec xs s c d (xs.length : Int)).1 (by omega) (by omega)
  simp only [Int.toNat_ofNat, List.take_length, List.drop_length] at hc
  have := insert_of_chain ⟨xs, xs.length, s, c⟩ d (xs.length : Int) (xs ++ [d]) hc
    (by simp) (by
      intro x hx
      rcases List.mem_append.mp hx with hx | hx
      · exact h x hx
      · rw [List.mem_singleton.mp hx]; exact hd)
  rw [this]
  simp

theorem move_front_eq {α : Type} (a : Option α) (t ys : List (Option α)) (s s2 : Bool)
    (c c2 : Option (Option α → Option α → Int)) (ha : a ≠ none) (hys : ∀ x ∈ ys, x ≠ none) :
    move_front ⟨a :: t, ((a :: t).length : Nat), s, c⟩ ⟨ys, ys.length, s2, c2⟩ =
      .ok (⟨t, t.length, s, c⟩, ⟨ys ++ [a], ((ys ++ [a]).length : Nat), false, c2⟩) := by
  unfold move_front
  rw [remove_front_eq a t s c ha]
  simp only [bind, Except.bind, size_eq, insert_back_eq ys s2 c2 a hys ha]
  rfl

theorem move_n_eq {α : Type} (k : Nat) (xs ys : List (Option α)) (s s2 : Bool)
    (c c2 : Option (Option α → Option α → Int)) (hk : k ≤ xs.length)
    (hxs : ∀ x ∈ xs, x ≠ none) (hys : ∀ x ∈ ys, x ≠ none) :
    move_n k ⟨xs, xs.length, s, c⟩ ⟨ys, ys.length, s2, c2⟩ =
      .ok (⟨xs.drop k, ((xs.drop k).length : Nat), s, c⟩,
        ⟨ys ++ xs.take k, ((ys ++ xs.take k).length : Nat), s2 && decide (k = 0), c2⟩) := by
  induction k generalizing xs ys s2 with
  | zero => simp [move_n]
  | succ k ih =>
    cases xs with
    | nil => simp at hk
    | cons a t =>
      have ha : a ≠ none := hxs a (List.mem_cons_self a t)
      have ht : ∀ x ∈ t, x ≠ none := fun x hx => hxs x (List.mem_cons_of_mem a hx)
      have hys2 : ∀ x ∈ ys ++ [a], x ≠ none := by
        intro x hx
        rcases List.mem_append.mp hx with hx | hx
        · exact hys x hx
        · rw [List.mem_singleton.mp hx]; exact ha
      unfold move_n
      rw [move_front_eq a t ys s s2 c c2 ha hys]
      simp only [bind, Except.bind]
      rw [ih t (ys ++ [a]) false (by simpa using hk) ht hys2]
      simp

theorem move_all_eq {α : Type} (fuel : Nat) (xs ys : List (Option α)) (s s2 : Bool)
    (c c2 : Option (Option α → Option α → Int)) (hk : xs.length < fuel)
    (hxs : ∀ x ∈ xs, x ≠ none) (hys : ∀ x ∈ ys, x ≠ none) :
    move_all fuel ⟨xs, xs.length, s, c⟩ ⟨ys, ys.length, s2, c2⟩ =
      .ok (⟨[], (([] : List (Option α)).length : Nat), s, c⟩,
        ⟨ys ++ xs, ((ys ++ xs).length : Nat), s2 && xs.isEmpty, c2⟩) := by
  induction fuel generalizing xs ys s2 with
  | zero => simp at hk
  | succ fuel ih =>
    cases xs with
    | nil => simp [move_all, twl_list_size, bind, Except.bind, pure, Except.pure]
    | cons a t =>
      have ha : a ≠ none := hxs a (List.mem_cons_self a t)
      have ht : ∀ x ∈ t, x ≠ none := fun x hx => hxs x (List.mem_cons_of_mem a hx)
      have hys2 : ∀ x ∈ ys ++ [a], x ≠ none := by
        intro x hx
        rcases List.mem_append.mp hx with hx | hx
        · exact hys x hx
        · rw [List.mem_singleton.mp hx]; exact ha
      have hne : ((a :: t).length : Int) ≠ 0 := by simp; omega
      unfold move_all
      rw [size_eq, move_front_eq a t ys s s2 c c2 ha hys]
      simp only [bind, Except.bind, hne, ne_eq, not_false_eq_true, if_true]
      rw [ih t (ys ++ [a]) false (by simpa using hk) ht hys2]
      simp

theorem access_front_eq {α : Type} (a : Option α) (t : List (Option α)) (s : Bool)
    (c : Option (Option α → Option α → Int)) :
    twl_list_access ⟨a :: t, ((a :: t).length : Nat), s, c⟩ 0 = .ok a := by
  have hne : ¬ ((t.length : Int) + 1 = 0) := by omega
  simp [twl_list_access, hne]

theorem merge_loop_eq {α : Type} (comp : Option α → Option α → Int) (fuel : Nat)
    (l r out : List (Option α)) (sl sr so : Bool)
    (cl cr co : Option (Option α → Option α → Int)) (hfuel : l.length + r.length < fuel)
    (hl : ∀ x ∈ l, x ≠ none) (hr : ∀ x ∈ r, x ≠ none) (hout : ∀ x ∈ out, x ≠ none) :
    ∃ l1 r1 m, merge_loop (some comp) fuel ⟨l, l.length, sl, cl⟩ ⟨r, r.length, sr, cr⟩
        ⟨out, out.length, so, co⟩ =
        .ok (⟨l1, l1.length, sl, cl⟩, ⟨r1, r1.length, sr, cr⟩,
          ⟨out ++ m, ((out ++ m).length : Nat), so && (l.isEmpty || r.isEmpty), co⟩) ∧
      (l1 = [] ∨ r1 = []) ∧
      m ++ l1 ++ r1 = List.merge l r (fun a b => decide (0 ≤ comp a b)) ∧
      (∀ x ∈ l1, x ≠ none) ∧ (∀ x ∈ r1, x ≠ none) := by
  induction fuel generalizing l r out so with
  | zero => simp at hfuel
  | succ fuel ih =>
    cases l with
    | nil =>
      refine ⟨[], r, [], ?_, Or.inl rfl, by simp [List.merge], by simp, hr⟩
      simp [merge_loop, twl_list_size, bind, Except.bind, pure, Except.pure]
    | cons a t =>
      have ha : a ≠ none := hl a (List.mem_cons_self a t)
      have ht : ∀ x ∈ t, x ≠ none := fun x hx => hl x (List.mem_cons_of_mem a hx)
      have hnel : ((a :: t).length : Int) ≠ 0 := by simp; omega
      cases r with
      | nil =>
        refine ⟨a :: t, [], [], ?_, Or.inr rfl, by simp [List.merge], hl, by simp⟩
        unfold merge_loop
        rw [size_eq, size_eq]
        simp [bind, Except.bind, pure, Except.pure]
      | cons b u =>
        have hb : b ≠ none := hr b (List.mem_cons_self b u)
        have hu : ∀ x ∈ u, x ≠ none := fun x hx => hr x (List.mem_cons_of_mem b hx)
        have hner : ((b :: u).length : Int) ≠ 0 := by simp; omega
        by_cases hab : 0 ≤ comp a b
        · have hout2 : ∀ x ∈ out ++ [a], x ≠ none := by
            intro x hx
            rcases List.mem_append.mp hx with hx | hx
            · exact hout x hx
            · rw [List.mem_singleton.mp hx]; exact ha
          obtain ⟨l1, r1, m, heq, hemp, hm, hl1, hr1⟩ :=
            ih t (b :: u) (out ++ [a]) false (by simp at hfuel ⊢; omega) ht hr hout2
          refine ⟨l1, r1, a :: m, ?_, hemp, ?_, hl1, hr1⟩
          · unfold merge_loop
            rw [size_eq, size_eq, access_front_eq, access_front_eq,
              move_front_eq a t out sl so cl co ha hout]
            simp only [bind, Except.bind, hnel, hner, if_false, ge_iff_le, hab, if_true]
            rw [heq]
            simp
          · rw [List.merge]
            simp [hab, ← hm]
        · have hout2 : ∀ x ∈ out ++ [b], x ≠ none := by
            intro x hx
            rcases List.mem_append.mp hx with hx | hx
            · exact hout x hx
            · rw [List.mem_singleton.mp hx]; exact hb
          obtain ⟨l1, r1, m, heq, hemp, hm, hl1, hr1⟩ :=
            ih (a :: t) u (out ++ [b]) false (by simp at hfuel ⊢; omega) hl hu hout2
          refine ⟨l1, r1, b :: m, ?_, hemp, ?_, hl1, hr1⟩
          · unfold merge_loop
            rw [size_eq, size_eq, access_front_eq, access_front_eq,
              move_front_eq b u out sr so cr co hb hout]
            simp only [bind, Except.bind, hnel, hner, if_false, ge_iff_le, hab]
            rw [heq]
            simp
          · rw [List.merge]
            simp [hab, ← hm]

theorem merge_sort_chain_perm {α : Type} (comp : Option α → Option α → Int) (fuel : Nat)
    (xs : List (Option α)) : (merge_sort_chain comp fuel xs).Perm xs := by
  induction fuel generalizing xs with
  | zero => exact List.Perm.refl _
  | succ fuel ih =>
    unfold merge_sort_chain
    split
    · exact List.Perm.refl _
    · refine (List.merge_perm_append _).trans ?_
      refine ((ih _).append (ih _)).trans ?_
      rw [List.take_append_drop]

theorem merge_sort_chain_data {α : Type} (comp : Option α → Option α → Int) (fuel : Nat)
    (xs : List (Option α)) (h : ∀ x ∈ xs, x ≠ none) :
    ∀ x ∈ merge_sort_chain comp fuel xs, x ≠ none :=
  fun x hx => h x ((merge_sort_chain_perm comp fuel xs).mem_iff.mp hx)

theorem construct_eq {α : Type} (c : Option (Option α → Option α → Int)) :
    twl_list_construct c = ⟨[], (([] : List (Option α)).length : Nat), c.isSome, c⟩ := rfl

theorem MergeSort_eq {α : Type} (comp : Option α → Option α → Int) (fuel : Nat)
    (xs : List (Option α)) (s : Bool) (c : Option (Option α → Option α → Int))
    (hfuel : xs.length < fuel) (hxs : ∀ x ∈ xs, x ≠ none) :
    MergeSort (some comp) fuel ⟨xs, xs.length, s, c⟩ =
      .ok ⟨merge_sort_chain comp fuel xs, ((merge_sort_chain comp fuel xs).length : Nat),
        s && decide (xs.length ≤ 1), c⟩ := by
  induction fuel generalizing xs s c with
  | zero => simp at hfuel
  | succ fuel ih =>
    unfold MergeSort merge_sort_chain
    rw [size_eq]
    by_cases hle : xs.length ≤ 1
    · have hle2 : (xs.length : Int) ≤ 1 := by omega
      simp [bind, Except.bind, pure, Except.pure, hle, hle2]
    · have hle2 : ¬ (xs.length : Int) ≤ 1 := by omega
      have hmid : ((xs.length : Int) / 2).toNat = xs.length / 2 := by omega
      have hk : xs.length / 2 ≤ xs.length := by omega
      have htake : ∀ x ∈ xs.take (xs.length / 2), x ≠ none :=
        fun x hx => hxs x (List.mem_of_mem_take hx)
      have hdrop : ∀ x ∈ xs.drop (xs.length / 2), x ≠ none :=
        fun x hx => hxs x (List.mem_of_mem_drop hx)
      have hL := ih (xs.take (xs.length / 2)) false (some comp)
        (by rw [List.length_take]; omega) htake
      have hR := ih (xs.drop (xs.length / 2)) false (some comp)
        (by rw [List.length_drop]; omega) hdrop
      have h1 := move_n_eq (xs.length / 2) xs [] s true c (some comp) hk hxs (by simp)
      have h2 := move_all_eq ((xs.drop (xs.length / 2)).length + 1) (xs.drop (xs.length / 2)) []
        s true c (some comp) (by omega) hdrop (by simp)
      simp only [List.nil_append] at h1 h2
      have hdne : (xs.drop (xs.length / 2)).isEmpty = false := by
        cases hd : xs.drop (xs.length / 2) with
        | nil => rw [List.drop_eq_nil_iff] at hd; omega
        | cons _ _ => rfl
      have hkne : decide (xs.length / 2 = 0) = false := by
        rw [decide_eq_false_iff_not]; omega
      rw [hdne] at h2
      rw [hkne] at h1
      simp only [Bool.and_false] at h1 h2
      obtain ⟨l1, r1, m, heq, hemp, hm, hl1, hr1⟩ :=
        merge_loop_eq comp
          ((merge_sort_chain comp fuel (xs.take (xs.length / 2))).length +
            (merge_sort_chain comp fuel (xs.drop (xs.length / 2))).length + 1)
          (merge_sort_chain comp fuel (xs.take (xs.length / 2)))
          (merge_sort_chain comp fuel (xs.drop (xs.length / 2))) []
          (false && decide ((xs.take (xs.length / 2)).length ≤ 1))
          (false && decide ((xs.drop (xs.length / 2)).length ≤ 1)) s
          (some comp) (some comp) c (by omega)
          (merge_sort_chain_data comp fuel _ htake) (merge_sort_chain_data comp fuel _ hdrop)
          (by simp)
      simp only [List.nil_append] at heq
      have hm1 : ∀ x ∈ m, x ≠ none := by
        intro x hx
        have : x ∈ m ++ l1 ++ r1 := by simp [hx]
        rw [hm] at this
        rcases List.mem_merge.mp this with h | h
        · exact merge_sort_chain_data comp fuel _ htake x h
        · exact merge_sort_chain_data comp fuel _ hdrop x h
      have h3 := move_all_eq (l1.length + 1) l1 m
        (false && decide ((xs.take (xs.length / 2)).length ≤ 1))
        (s && ((merge_sort_chain comp fuel (xs.take (xs.length / 2))).isEmpty ||
          (merge_sort_chain comp fuel (xs.drop (xs.length / 2))).isEmpty))
        (some comp) c (by omega) hl1 hm1
      have hml : ∀ x ∈ m ++ l1, x ≠ none := by
        intro x hx
        rcases List.mem_append.mp hx with h | h
        · exact hm1 x h
        · exact hl1 x h
      have h4 := move_all_eq (r1.length + 1) r1 (m ++ l1)
        (false && decide ((xs.drop (xs.length / 2)).length ≤ 1))
        (s && ((merge_sort_chain comp fuel (xs.take (xs.length / 2))).isEmpty ||
          (merge_sort_chain comp fuel (xs.drop (xs.length / 2))).isEmpty) && l1.isEmpty)
        (some comp) c (by omega) hr1 hml
      simp only [bind, Except.bind, pure, Except.pure, hle2, if_false, hmid, construct_eq,
        Option.isSome_some]
      rw [h1]
      dsimp only
      rw [h2]
      dsimp only
      rw [hL, hR]
      dsimp only
      rw [heq]
      dsimp only
      rw [h3]
      dsimp only
      rw [h4]
      dsimp only
      rw [List.append_assoc, ← List.append_assoc, hm]
      simp only [hle, if_false]
      have hnotempty : (merge_sort_chain comp fuel (xs.take (xs.length / 2))).isEmpty = false := by
        have := (merge_sort_chain_perm comp fuel (xs.take (xs.length / 2))).length_eq
        rw [List.length_take] at this
        cases hh : merge_sort_chain comp fuel (xs.take (xs.length / 2)) with
        | nil => rw [hh] at this; simp at this; omega
        | cons _ _ => rfl
      have hnotempty2 : (merge_sort_chain comp fuel (xs.drop (xs.length / 2))).isEmpty = false := by
        have := (merge_sort_chain_perm comp fuel (xs.drop (xs.length / 2))).length_eq
        rw [List.length_drop] at this
        cases hh : merge_sort_chain comp fuel (xs.drop (xs.length / 2)) with
        | nil => rw [hh] at this; simp at this; omega
        | cons _ _ => rfl
      simp [hnotempty, hnotempty2, hle]

theorem node_next_lt {α : Type} (nodes : List (Option α)) (i : Nat) (h : i + 1 < nodes.length) :
    node_next nodes i = some (i + 1) := by
  simp [node_next, h]

theorem node_next_last {α : Type} (nodes : List (Option α)) (i : Nat)
    (h : ¬ i + 1 < nodes.length) : node_next nodes i = none := by
  simp [node_next, h]

/-- `FindMax` returns, with a node of the range `start..end`, when `end` is the last node. -/
theorem FindMax_loop_ok {α : Type} (nodes : List (Option α)) (comp : Option α → Option α → Int)
    (s : Nat) (fuel i j : Nat) (hsj : s ≤ j) (hji : j ≤ i) (hi : i < nodes.length)
    (hfuel : nodes.length - i ≤ fuel) :
    ∃ m, FindMax_loop nodes (some (nodes.length - 1)) (some comp) fuel i j = .ok m ∧
      s ≤ m ∧ m < nodes.length := by
  induction fuel generalizing i j with
  | zero => omega
  | succ fuel ih =>
    unfold FindMax_loop
    by_cases hnext : i + 1 < nodes.length
    · rw [node_next_lt nodes i hnext]
      simp only
      by_cases hend : i + 1 = nodes.length - 1
      · rw [if_neg (by simp [hend])]
        split
        · exact ⟨i + 1, rfl, by omega, by omega⟩
        · exact ⟨j, rfl, hsj, by omega⟩
      · rw [if_pos (by simpa using hend)]
        split
        · exact ih (i + 1) (i + 1) (by omega) (by omega) hnext (by omega)
        · exact ih (i + 1) j hsj (by omega) hnext (by omega)
    · rw [node_next_last nodes i hnext]
      exact ⟨j, rfl, hsj, by omega⟩

/-- Under a transitive, antisymmetric comparison function the node `FindMax`
returns ranks at least as high as every node of the range. -/
theorem FindMax_loop_max {α : Type} (nodes : List (Option α)) (comp : Option α → Option α → Int)
    (hanti : ∀ a b, comp a b = -comp b a)
    (htrans : ∀ a b c, 0 ≤ comp a b → 0 ≤ comp b c → 0 ≤ comp a c)
    (s : Nat) (fuel i j m : Nat) (hi : i < nodes.length)
    (hinv : ∀ k, s ≤ k → k ≤ i → 0 ≤ comp (node_data nodes j) (node_data nodes k))
    (hm : FindMax_loop nodes (some (nodes.length - 1)) (some comp) fuel i j = .ok m) :
    ∀ k, s ≤ k → k < nodes.length → 0 ≤ comp (node_data nodes m) (node_data nodes k) := by
  induction fuel generalizing i j with
  | zero => simp [FindMax_loop] at hm
  | succ fuel ih =>
    unfold FindMax_loop at hm
    by_cases hnext : i + 1 < nodes.length
    · rw [node_next_lt nodes i hnext] at hm
      simp only at hm
      -- the running maximum after the comparison dominates the nodes up to `i + 1`
      have hstep : ∀ k, s ≤ k → k ≤ i + 1 →
          0 ≤ comp (node_data nodes (if comp (node_data nodes (i + 1)) (node_data nodes j) > 0
            then i + 1 else j)) (node_data nodes k) := by
        intro k hsk hk
        split
        · rename_i hgt
          by_cases hk1 : k = i + 1
          · rw [hk1]
            have := hanti (node_data nodes (i + 1)) (node_data nodes (i + 1))
            omega
          · exact htrans _ _ _ (by omega) (hinv k hsk (by omega))
        · rename_i hgt
          by_cases hk1 : k = i + 1
          · rw [hk1]
            have := hanti (node_data nodes (i + 1)) (node_data nodes j)
            omega
          · exact hinv k hsk (by omega)
      by_cases hend : i + 1 = nodes.length - 1
      · rw [if_neg (by simp [hend])] at hm
        injection hm with hm
        intro k hsk hk
        rw [← hm]
        exact hstep k hsk (by omega)
      · rw [if_pos (by simpa using hend)] at hm
        exact ih (i + 1) _ hnext hstep hm
    · rw [node_next_last nodes i hnext] at hm
      injection hm with hm
      intro k hsk hk
      rw [← hm]
      exact hinv k hsk (by omega)

theorem FindMax_ok {α : Type} (nodes : List (Option α)) (comp : Option α → Option α → Int)
    (s : Nat) (hs : s < nodes.length) :
    ∃ m, FindMax nodes (some s) (some (nodes.length - 1)) (some comp) = .ok m ∧
      s ≤ m ∧ m < nodes.length :=
  FindMax_loop_ok nodes comp s (nodes.length + 1) s s (le_refl s) (le_refl s) hs (by omega)

theorem FindMax_max {α : Type} (nodes : List (Option α)) (comp : Option α → Option α → Int)
    (hanti : ∀ a b, comp a b = -comp b a)
    (htrans : ∀ a b c, 0 ≤ comp a b → 0 ≤ comp b c → 0 ≤ comp a c)
    (s m : Nat) (hs : s < nodes.length)
    (hm : FindMax nodes (some s) (some (nodes.length - 1)) (some comp) = .ok m) :
    ∀ k, s ≤ k → k < nodes.length → 0 ≤ comp (node_data nodes m) (node_data nodes k) := by
  refine FindMax_loop_max nodes comp hanti htrans s (nodes.length + 1) s s m hs ?_ hm
  intro k hsk hks
  have hk : k = s := by omega
  rw [hk]
  have := hanti (node_data nodes s) (node_data nodes s)
  omega

theorem node_data_swap {α : Type} (nodes : List (Option α)) (a b k : Nat)
    (ha : a < nodes.length) (hb : b < nodes.length) :
    node_data (swap_data nodes a b) k =
      if k = b then node_data nodes a else if k = a then node_data nodes b
      else node_data nodes k := by
  unfold swap_data node_data
  simp only [List.getD_eq_getElem?_getD, List.getElem?_set, List.length_set]
  by_cases hkb : k = b
  · subst hkb
    simp [hb]
  · by_cases hka : k = a
    · subst hka
      have : ¬ b = k := fun h => hkb h.symm
      simp [this, ha, hkb]
    · have h1 : ¬ b = k := fun h => hkb h.symm
      have h2 : ¬ a = k := fun h => hka h.symm
      simp [h1, h2, hkb, hka]

theorem swap_data_length {α : Type} (nodes : List (Option α)) (a b : Nat) :
    (swap_data nodes a b).length = nodes.length := by
  simp [swap_data]

theorem set_perm_cons {α : Type} (t : List (Option α)) (k : Nat) (a : Option α)
    (hk : k < t.length) : (node_data t k :: t.set k a).Perm (a :: t) := by
  induction t generalizing k with
  | nil => simp at hk
  | cons b u ih =>
    cases k with
    | zero => simpa [node_data] using List.Perm.swap a b u
    | succ k =>
      have h := ih k (by simpa using hk)
      have h1 : (node_data (b :: u) (k + 1) :: (b :: u).set (k + 1) a).Perm
          (b :: node_data u k :: u.set k a) := by
        simpa [node_data] using List.Perm.swap b (u.getD k none) (u.set k a)
      exact h1.trans ((List.Perm.cons b h).trans (List.Perm.swap a b u))

theorem swap_data_perm {α : Type} (nodes : List (Option α)) (a b : Nat) (hab : a ≤ b)
    (hb : b < nodes.length) : (swap_data nodes a b).Perm nodes := by
  induction nodes generalizing a b with
  | nil => simp at hb
  | cons x t ih =>
    cases a with
    | zero =>
      cases b with
      | zero => simp [swap_data, node_data]
      | succ b =>
        have := set_perm_cons t b x (by simpa using hb)
        simpa [swap_data, node_data] using this
    | succ a =>
      cases b with
      | zero => omega
      | succ b =>
        have := ih a b (by omega) (by simpa using hb)
        simpa [swap_data, node_data] using this

/-- `RecursiveSelectionSort` from the node `s` to the last node returns a
rearrangement of the chain that leaves the nodes before `s` alone and, under a
transitive antisymmetric comparison function, is in order from `s` on. -/
theorem RecursiveSelectionSort_spec {α : Type} (comp : Option α → Option α → Int)
    (n fuel : Nat) (nodes : List (Option α)) (s : Nat) (hn : nodes.length = n) (hs : s < n)
    (hfuel : n - s ≤ fuel) :
    ∃ out, RecursiveSelectionSort (some comp) (some (n - 1)) fuel nodes (some s) = .ok out ∧
      out.length = n ∧ out.Perm nodes ∧
      (∀ k, k < s → node_data out k = node_data nodes k) ∧
      (∀ k, s ≤ k → k < n → ∃ k1, s ≤ k1 ∧ k1 < n ∧ node_data out k = node_data nodes k1) ∧
      ((∀ a b, comp a b = -comp b a) →
        (∀ a b c, 0 ≤ comp a b → 0 ≤ comp b c → 0 ≤ comp a c) →
        ∀ i j, s ≤ i → i < j → j < n → 0 ≤ comp (node_data out i) (node_data out j)) := by
  induction fuel generalizing nodes s with
  | zero => omega
  | succ fuel ih =>
    unfold RecursiveSelectionSort
    by_cases hend : s = n - 1
    · rw [if_neg (by simp [hend])]
      refine ⟨nodes, rfl, hn, List.Perm.refl _, fun _ _ => rfl, fun k h1 h2 => ⟨k, h1, h2, rfl⟩, ?_⟩
      intro _ _ i j h1 h2 h3
      omega
    · rw [if_pos (by simpa using hend)]
      obtain ⟨m, hm, hsm, hmn⟩ := FindMax_ok nodes comp s (by omega)
      have hmax := fun ha ht => FindMax_max nodes comp ha ht s m (by omega) hm
      rw [hn] at hm hmn hmax
      rw [hm]
      simp only
      rw [node_next_lt nodes s (by omega)]
      have hlen1 : (swap_data nodes s m).length = n := by rw [swap_data_length, hn]
      obtain ⟨out, hout, holen, hperm, hpre, hsuf, hsorted⟩ :=
        ih (swap_data nodes s m) (s + 1) hlen1 (by omega) (by omega)
      have hsw := fun k => node_data_swap nodes s m k (by omega) (by omega)
      refine ⟨out, hout, holen,
        hperm.trans (swap_data_perm nodes s m hsm (by omega)), ?_, ?_, ?_⟩
      · intro k hk
        rw [hpre k (by omega), hsw k, if_neg (by omega), if_neg (by omega)]
      · intro k hsk hkn
        by_cases hks : k = s
        · refine ⟨m, hsm, hmn, ?_⟩
          rw [hks, hpre s (by omega), hsw s]
          by_cases hsm2 : s = m
          · rw [if_pos hsm2, hsm2]
          · rw [if_neg hsm2, if_pos rfl]
        · obtain ⟨k1, h1, h2, h3⟩ := hsuf k (by omega) hkn
          rw [h3, hsw k1]
          by_cases hk1m : k1 = m
          · exact ⟨s, le_refl s, hs, by rw [if_pos hk1m]⟩
          · exact ⟨k1, by omega, h2, by rw [if_neg hk1m, if_neg (by omega)]⟩
      · intro ha ht i j hsi hij hjn
        by_cases his : i = s
        · have hi : node_data out i = node_data nodes m := by
            rw [his, hpre s (by omega), hsw s]
            by_cases hsm2 : s = m
            · rw [if_pos hsm2, hsm2]
            · rw [if_neg hsm2, if_pos rfl]
          obtain ⟨k1, h1, h2, h3⟩ := hsuf j (by omega) hjn
          rw [hi, h3, hsw k1]
          by_cases hk1m : k1 = m
          · rw [if_pos hk1m]
            exact hmax ha ht s (le_refl s) hs
          · rw [if_neg hk1m, if_neg (by omega)]
            exact hmax ha ht k1 (by omega) h2
        · exact hsorted ha ht i j (by omega) hij hjn

theorem swap_data_self {α : Type} (nodes : List (Option α)) (a : Nat) (ha : a < nodes.length) :
    swap_data nodes a a = nodes := by
  apply List.ext_getElem?
  intro k
  have h := node_data_swap nodes a a k ha ha
  simp only [node_data, List.getD_eq_getElem?_getD] at h
  by_cases hk : k < nodes.length
  · have hk2 : k < (swap_data nodes a a).length := by rw [swap_data_length]; exact hk
    rw [List.getElem?_eq_getElem hk, List.getElem?_eq_getElem hk2] at h ⊢
    simp only [Option.getD_some] at h
    rw [h]
    by_cases hka : k = a
    · subst hka
      simp [List.getElem?_eq_getElem hk]
    · simp [hka]
  · have hk2 : ¬ k < (swap_data nodes a a).length := by rw [swap_data_length]; exact hk
    rw [List.getElem?_eq_none (by omega), List.getElem?_eq_none (by omega)]

/-- The two selection sorts return the same chain. -/
theorem IterativeSelectionSort_eq_Recursive {α : Type} (comp : Option α → Option α → Int)
    (n fuel : Nat) (nodes : List (Option α)) (s : Nat) (hn : nodes.length = n) (hs : s < n)
    (hfuel : n - s ≤ fuel) :
    IterativeSelectionSort (some comp) (some (n - 1)) fuel nodes (some s) =
      RecursiveSelectionSort (some comp) (some (n - 1)) fuel nodes (some s) := by
  induction fuel generalizing nodes s with
  | zero => omega
  | succ fuel ih =>
    unfold IterativeSelectionSort RecursiveSelectionSort
    obtain ⟨m, hm, hsm, hmn⟩ := FindMax_ok nodes comp s (by omega)
    rw [hn] at hm hmn
    rw [hm]
    simp only
    have hlen1 : (swap_data nodes s m).length = n := by rw [swap_data_length, hn]
    by_cases hend : s = n - 1
    · rw [if_neg (by simp [hend])]
      have hms : m = s := by omega
      rw [node_next_last _ s (by omega), hms, swap_data_self nodes s (by omega)]
    · rw [if_pos (by simpa using hend)]
      rw [node_next_lt _ s (by omega), node_next_lt nodes s (by omega)]
      simp only
      rw [node_next_last _ (n - 1) (by omega)]
      simp only [ne_eq, not_false_eq_true, if_true, reduceCtorEq]
      exact ih (swap_data nodes s m) (s + 1) hlen1 (by omega) (by omega)

theorem insert_sorted_eq2 {α : Type} (xs : List (Option α)) (comp : Option α → Option α → Int)
    (e : Option α) (he : e ≠ none) (h : ∀ d ∈ xs, d ≠ none) :
    twl_list_insert_sorted ⟨xs, xs.length, true, some comp⟩ e =
      if sorted_walk comp (sorted_place comp e xs) then
        .ok ⟨sorted_place comp e xs, ((sorted_place comp e xs).length : Nat), true, some comp⟩
      else .error .assertion := by
  rw [insert_sorted_eq xs comp e he h, sorted_place_length]
  simp

theorem InsertionSort_eq {α : Type} (comp : Option α → Option α → Int) (fuel : Nat)
    (xs acc : List (Option α)) (s : Bool) (c : Option (Option α → Option α → Int))
    (hfuel : xs.length < fuel) (hxs : ∀ x ∈ xs, x ≠ none) (hacc : ∀ x ∈ acc, x ≠ none) :
    InsertionSort fuel ⟨xs, xs.length, s, c⟩ ⟨acc, acc.length, true, some comp⟩ =
      if insertion_checks comp acc xs then
        .ok (⟨[], (([] : List (Option α)).length : Nat), s, c⟩,
          ⟨insertion_chain comp acc xs, ((insertion_chain comp acc xs).length : Nat), true,
            some comp⟩)
      else .error .assertion := by
  induction fuel generalizing xs acc with
  | zero => simp at hfuel
  | succ fuel ih =>
    cases xs with
    | nil =>
      simp [InsertionSort, twl_list_size, insertion_checks, insertion_chain, bind, Except.bind,
        pure, Except.pure]
    | cons a t =>
      have ha : a ≠ none := hxs a (List.mem_cons_self a t)
      have ht : ∀ x ∈ t, x ≠ none := fun x hx => hxs x (List.mem_cons_of_mem a hx)
      have hpos : (0 : Int) < ((a :: t).length : Nat) := by
        rw [List.length_cons]; omega
      unfold InsertionSort
      rw [size_eq, remove_front_eq a t s c ha]
      simp only [bind, Except.bind, hpos, if_true, insertion_checks, insertion_chain]
      rw [insert_sorted_eq2 acc comp a ha hacc]
      by_cases hw : sorted_walk comp (sorted_place comp a acc) = true
      · simp only [hw, if_true, Bool.true_and]
        exact ih t (sorted_place comp a acc) (by simpa using hfuel) ht
          (sorted_place_data comp a acc ha hacc)
      · simp [hw]

theorem insertion_chain_perm {α : Type} (comp : Option α → Option α → Int)
    (acc xs : List (Option α)) : (insertion_chain comp acc xs).Perm (acc ++ xs) := by
  induction xs generalizing acc with
  | nil => simp [insertion_chain]
  | cons a t ih =>
    unfold insertion_chain
    refine (ih _).trans ?_
    refine ((sorted_place_perm comp a acc).append_right t).trans ?_
    simpa using (@List.perm_middle _ a acc t).symm

theorem sorted_place_pairwise {α : Type} (comp : Option α → Option α → Int)
    (hanti : ∀ a b, comp a b = -comp b a)
    (htrans : ∀ a b c, 0 ≤ comp a b → 0 ≤ comp b c → 0 ≤ comp a c)
    (e : Option α) (xs : List (Option α)) (h : xs.Pairwise (fun a b => 0 ≤ comp a b)) :
    (sorted_place comp e xs).Pairwise (fun a b => 0 ≤ comp a b) := by
  induction xs with
  | nil => simp [sorted_place]
  | cons c rest ih =>
    rw [List.pairwise_cons] at h
    unfold sorted_place
    split
    · rename_i hlt
      rw [List.pairwise_cons]
      refine ⟨?_, ih h.2⟩
      intro y hy
      rcases List.mem_cons.mp ((sorted_place_perm comp e rest).mem_iff.mp hy) with h1 | h1
      · rw [h1]
        have := hanti c e
        omega
      · exact h.1 y h1
    · rename_i hge
      rw [List.pairwise_cons]
      refine ⟨?_, List.pairwise_cons.mpr h⟩
      intro y hy
      rcases List.mem_cons.mp hy with h1 | h1
      · rw [h1]; omega
      · exact htrans _ _ _ (by omega) (h.1 y h1)

theorem sorted_walk_of_pairwise {α : Type} (comp : Option α → Option α → Int)
    (xs : List (Option α)) (h : xs.Pairwise (fun a b => 0 ≤ comp a b)) :
    sorted_walk comp xs = true := by
  rw [sorted_walk_iff]
  refine List.Pairwise.chain' (h.imp ?_)
  intro a b hab
  omega

theorem insertion_total {α : Type} (comp : Option α → Option α → Int)
    (hanti : ∀ a b, comp a b = -comp b a)
    (htrans : ∀ a b c, 0 ≤ comp a b → 0 ≤ comp b c → 0 ≤ comp a c)
    (acc xs : List (Option α)) (h : acc.Pairwise (fun a b => 0 ≤ comp a b)) :
    insertion_checks comp acc xs = true ∧
      (insertion_chain comp acc xs).Pairwise (fun a b => 0 ≤ comp a b) := by
  induction xs generalizing acc with
  | nil => exact ⟨rfl, h⟩
  | cons a t ih =>
    have hp := sorted_place_pairwise comp hanti htrans a acc h
    obtain ⟨h1, h2⟩ := ih _ hp
    refine ⟨?_, h2⟩
    simp only [insertion_checks, Bool.and_eq_true]
    exact ⟨sorted_walk_of_pairwise comp _ hp, h1⟩

theorem merge_sort_chain_pairwise {α : Type} (comp : Option α → Option α → Int)
    (hanti : ∀ a b, comp a b = -comp b a)
    (htrans : ∀ a b c, 0 ≤ comp a b → 0 ≤ comp b c → 0 ≤ comp a c)
    (fuel : Nat) (xs : List (Option α)) (hfuel : xs.length < fuel) :
    (merge_sort_chain comp fuel xs).Pairwise (fun a b => 0 ≤ comp a b) := by
  induction fuel generalizing xs with
  | zero => omega
  | succ fuel ih =>
    unfold merge_sort_chain
    split
    · rename_i hle
      match xs, hle with
      | [], _ => exact List.Pairwise.nil
      | [_], _ => exact List.pairwise_singleton _ _
      | _ :: _ :: _, hle => simp at hle
    · rename_i hle
      have h1 := ih (xs.take (xs.length / 2)) (by rw [List.length_take]; omega)
      have h2 := ih (xs.drop (xs.length / 2)) (by rw [List.length_drop]; omega)
      have key := @List.sorted_merge _ (fun a b => decide (0 ≤ comp a b))
        (by
          intro a b c hab hbc
          simp only [decide_eq_true_eq] at hab hbc ⊢
          exact htrans a b c hab hbc)
        (by
          intro a b
          simp only [Bool.or_eq_true, decide_eq_true_eq]
          have := hanti a b
          omega)
        (merge_sort_chain comp fuel (xs.take (xs.length / 2)))
        (merge_sort_chain comp fuel (xs.drop (xs.length / 2)))
        (by simpa using h1) (by simpa using h2)
      simpa using key

/-- What `twl_list_sort` does on a well formed list of two or more elements:
there is a rearrangement `out` of the chain such that the call returns the
list with the chain `out`, marked sorted, when `out` passes the order check of
`list_debug_validate`, and stops on a failed assertion otherwise.  Under a
transitive antisymmetric comparison function and a selector from 1 to 4 the
chain is in order and the call returns. -/
theorem twl_list_sort_long {α : Type} (comp : Option α → Option α → Int)
    (xs : List (Option α)) (s : Bool) (c : Option (Option α → Option α → Int)) (sel : Int)
    (hxs : ∀ x ∈ xs, x ≠ none) (h2 : 2 ≤ xs.length) :
    ∃ out, out.Perm xs ∧
      (twl_list_sort ⟨xs, xs.length, s, c⟩ sel (some comp) =
          .ok ⟨out, out.length, true, some comp⟩ ∨
        twl_list_sort ⟨xs, xs.length, s, c⟩ sel (some comp) = .error .assertion) ∧
      ((sel = 1 ∨ sel = 2 ∨ sel = 3 ∨ sel = 4) → (∀ a b, comp a b = -comp b a) →
        (∀ a b c, 0 ≤ comp a b → 0 ≤ comp b c → 0 ≤ comp a c) →
        out.Pairwise (fun a b => 0 ≤ comp a b) ∧
          twl_list_sort ⟨xs, xs.length, s, c⟩ sel (some comp) =
            .ok ⟨out, out.length, true, some comp⟩) := by
  have hgt : ¬ ((xs.length : Int) ≤ 1) := by omega
  have hne : xs.isEmpty = false := by
    cases xs with
    | nil => simp at h2
    | cons _ _ => rfl
  have hdata : ∀ out : List (Option α), out.Perm xs → ∀ x ∈ out, x ≠ none :=
    fun out hp x hx => hxs x (hp.mem_iff.mp hx)
  unfold twl_list_sort
  simp only [size_eq, bind, Except.bind, pure, Except.pure, hgt, if_false, front_node, back_node,
    hne, Bool.false_eq_true]
  by_cases h1 : sel = 1
  · -- insertion sort
    simp only [h1, if_true]
    have hperm : (insertion_chain comp [] xs).Perm xs := by
      simpa using insertion_chain_perm comp [] xs
    rw [construct_eq]
    simp only [Option.isSome_some]
    rw [InsertionSort_eq comp (xs.length + 1) xs [] s (some comp) (by omega) hxs (by simp)]
    by_cases hchk : insertion_checks comp [] xs = true
    · rw [if_pos hchk]
      dsimp only
      rw [validate_sorted _ comp (hdata _ hperm)]
      by_cases hw : sorted_walk comp (insertion_chain comp [] xs) = true
      · rw [if_pos hw]
        exact ⟨insertion_chain comp [] xs, hperm, Or.inl rfl, fun _ ha ht =>
          ⟨(insertion_total comp ha ht [] xs List.Pairwise.nil).2, rfl⟩⟩
      · rw [if_neg hw]
        exact ⟨insertion_chain comp [] xs, hperm, Or.inr rfl, fun _ ha ht =>
          absurd (sorted_walk_of_pairwise comp _
            (insertion_total comp ha ht [] xs List.Pairwise.nil).2) hw⟩
    · rw [if_neg hchk]
      refine ⟨insertion_chain comp [] xs, hperm, Or.inr rfl, fun _ ha ht => ?_⟩
      exact absurd (insertion_total comp ha ht [] xs List.Pairwise.nil).1 hchk
  · by_cases h2s : sel = 2
    · -- recursive selection sort
      simp only [h2s, if_true, if_false, (by decide : ¬ ((2 : Int) = 1))]
      obtain ⟨out, hout, holen, hperm, _, _, hsorted⟩ :=
        RecursiveSelectionSort_spec comp xs.length (xs.length + 1) xs 0 rfl (by omega) (by omega)
      rw [hout]
      simp only
      have hp : (∀ a b, comp a b = -comp b a) →
          (∀ a b c, 0 ≤ comp a b → 0 ≤ comp b c → 0 ≤ comp a c) →
          out.Pairwise (fun a b => 0 ≤ comp a b) := by
        intro ha ht
        rw [List.pairwise_iff_getElem]
        intro i j hi hj hij
        have := hsorted ha ht i j (Nat.zero_le i) hij (by omega)
        simpa [node_data, List.getD_eq_getElem?_getD, List.getElem?_eq_getElem hi,
          List.getElem?_eq_getElem hj] using this
      rw [← holen, validate_sorted out comp (hdata _ hperm)]
      by_cases hw : sorted_walk comp out = true
      · rw [if_pos hw]
        exact ⟨out, hperm, Or.inl rfl, fun _ ha ht => ⟨hp ha ht, rfl⟩⟩
      · rw [if_neg hw]
        exact ⟨out, hperm, Or.inr rfl, fun _ ha ht =>
          absurd (sorted_walk_of_pairwise comp _ (hp ha ht)) hw⟩
    · by_cases h3 : sel = 3
      · -- iterative selection sort
        simp only [h3, if_true, if_false, (by decide : ¬ ((3 : Int) = 1)),
          (by decide : ¬ ((3 : Int) = 2))]
        obtain ⟨out, hout, holen, hperm, _, _, hsorted⟩ :=
          RecursiveSelectionSort_spec comp xs.length (xs.length + 1) xs 0 rfl (by omega)
            (by omega)
        rw [IterativeSelectionSort_eq_Recursive comp xs.length (xs.length + 1) xs 0 rfl
          (by omega) (by omega), hout]
        simp only
        have hp : (∀ a b, comp a b = -comp b a) →
            (∀ a b c, 0 ≤ comp a b → 0 ≤ comp b c → 0 ≤ comp a c) →
            out.Pairwise (fun a b => 0 ≤ comp a b) := by
          intro ha ht
          rw [List.pairwise_iff_getElem]
          intro i j hi hj hij
          have := hsorted ha ht i j (Nat.zero_le i) hij (by omega)
          simpa [node_data, List.getD_eq_getElem?_getD, List.getElem?_eq_getElem hi,
            List.getElem?_eq_getElem hj] using this
        rw [← holen, validate_sorted out comp (hdata _ hperm)]
        by_cases hw : sorted_walk comp out = true
        · rw [if_pos hw]
          exact ⟨out, hperm, Or.inl rfl, fun _ ha ht => ⟨hp ha ht, rfl⟩⟩
        · rw [if_neg hw]
          exact ⟨out, hperm, Or.inr rfl, fun _ ha ht =>
            absurd (sorted_walk_of_pairwise comp _ (hp ha ht)) hw⟩
      · by_cases h4 : sel = 4
        · -- merge sort
          simp only [h4, if_true, if_false, (by decide : ¬ ((4 : Int) = 1)),
            (by decide : ¬ ((4 : Int) = 2)), (by decide : ¬ ((4 : Int) = 3))]
          have hperm := merge_sort_chain_perm comp (xs.length + 1) xs
          rw [MergeSort_eq comp (xs.length + 1) xs s (some comp) (by omega) hxs]
          simp only
          rw [validate_sorted _ comp (hdata _ hperm)]
          by_cases hw : sorted_walk comp (merge_sort_chain comp (xs.length + 1) xs) = true
          · rw [if_pos hw]
            exact ⟨merge_sort_chain comp (xs.length + 1) xs, hperm, Or.inl rfl, fun _ ha ht =>
              ⟨merge_sort_chain_pairwise comp ha ht (xs.length + 1) xs (by omega), rfl⟩⟩
          · rw [if_neg hw]
            exact ⟨merge_sort_chain comp (xs.length + 1) xs, hperm, Or.inr rfl,
              fun _ ha ht => absurd (sorted_walk_of_pairwise comp _
              (merge_sort_chain_pairwise comp ha ht (xs.length + 1) xs (by omega))) hw⟩
        · -- no algorithm runs
          simp only [h1, h2s, h3, h4, if_false]
          rw [validate_sorted xs comp hxs]
          by_cases hw : sorted_walk comp xs = true
          · rw [if_pos hw]
            exact ⟨xs, List.Perm.refl _, Or.inl rfl, fun hsel _ _ => absurd hsel (by simp)⟩
          · rw [if_neg hw]
            exact ⟨xs, List.Perm.refl _, Or.inr rfl, fun hsel _ _ => absurd hsel (by simp)⟩

/-- On a list of at most one element `twl_list_sort` stores the comparison
function and returns; nothing else changes. -/
theorem twl_list_sort_short {α : Type} (L : twl_list_t α) (sel : Int)
    (fcomp : Option (Option α → Option α → Int)) (h0 : 0 ≤ L.ll_count) (h1 : L.ll_count ≤ 1) :
    twl_list_sort L sel fcomp = .ok { L with ll_comp_function := fcomp } := by
  simp [twl_list_sort, twl_list_size, h0, h1, bind, Except.bind, pure, Except.pure]

theorem rank_eq_trans {β : Type} (comp : β → β → Int)
    (hanti : ∀ a b, comp a b = -comp b a)
    (htrans : ∀ a b c, 0 ≤ comp a b → 0 ≤ comp b c → 0 ≤ comp a c)
    (a b c : β) (hab : comp a b = 0) (hbc : comp b c = 0) : comp a c = 0 := by
  have h1 := htrans a b c (by omega) (by omega)
  have h2 := htrans c b a (by have := hanti c b; omega) (by have := hanti b a; omega)
  have h3 := hanti a c
  omega

theorem forall₂_rank_refl {β : Type} (comp : β → β → Int)
    (hanti : ∀ a b, comp a b = -comp b a) (l : List β) :
    List.Forall₂ (fun a b => comp a b = 0) l l := by
  induction l with
  | nil => exact List.Forall₂.nil
  | cons a t ih =>
    refine List.Forall₂.cons ?_ ih
    have := hanti a a
    omega

theorem forall₂_rank_trans {β : Type} (comp : β → β → Int)
    (hanti : ∀ a b, comp a b = -comp b a)
    (htrans : ∀ a b c, 0 ≤ comp a b → 0 ≤ comp b c → 0 ≤ comp a c)
    (l1 l2 l3 : List β)
    (h12 : List.Forall₂ (fun a b => comp a b = 0) l1 l2)
    (h23 : List.Forall₂ (fun a b => comp a b = 0) l2 l3) :
    List.Forall₂ (fun a b => comp a b = 0) l1 l3 := by
  induction h12 generalizing l3 with
  | nil => cases h23; exact List.Forall₂.nil
  | cons hab _ ih =>
    cases h23 with
    | cons hbc h23 =>
      exact List.Forall₂.cons (rank_eq_trans comp hanti htrans _ _ _ hab hbc) (ih _ h23)

/-- Taking one element `a` out of an ordered chain behind a head `b` of the
same rank as `a` moves every element by at most its own rank class. -/
theorem erase_rank_shift {β : Type} [DecidableEq β] (comp : β → β → Int)
    (hanti : ∀ a b, comp a b = -comp b a)
    (htrans : ∀ a b c, 0 ≤ comp a b → 0 ≤ comp b c → 0 ≤ comp a c)
    (a b : β) (t : List β) (hab : comp a b = 0) (ha : a ∈ t)
    (hs : (b :: t).Pairwise (fun x y => 0 ≤ comp x y)) :
    List.Forall₂ (fun x y => comp x y = 0) (b :: t.erase a) t := by
  induction t generalizing b with
  | nil => simp at ha
  | cons c w ih =>
    rw [List.pairwise_cons] at hs
    obtain ⟨hb, hcw⟩ := hs
    have hbc : 0 ≤ comp b c := hb c (List.mem_cons_self c w)
    by_cases hca : c = a
    · subst hca
      rw [List.erase_cons_head]
      refine List.Forall₂.cons ?_ (forall₂_rank_refl comp hanti w)
      have := hanti c b
      omega
    · have haw : a ∈ w := by
        rcases List.mem_cons.mp ha with h | h
        · exact absurd h.symm hca
        · exact h
      have hc_a : 0 ≤ comp c a := (List.pairwise_cons.mp hcw).1 a haw
      have hac : comp a c = 0 := by
        have h1 := htrans a b c (by omega) hbc
        have := hanti a c
        omega
      rw [List.erase_cons_tail (by simpa using hca)]
      refine List.Forall₂.cons ?_ (ih c hac haw hcw)
      have h1 := htrans c a b hc_a (by omega)
      have := hanti b c
      omega

/-- Two ordered rearrangements of one chain hold elements of equal rank at
every position. -/
theorem sorted_perm_rank_eq {β : Type} (comp : β → β → Int)
    (hanti : ∀ a b, comp a b = -comp b a)
    (htrans : ∀ a b c, 0 ≤ comp a b → 0 ≤ comp b c → 0 ≤ comp a c)
    (l1 l2 : List β) (hp : l1.Perm l2)
    (h1 : l1.Pairwise (fun x y => 0 ≤ comp x y)) (h2 : l2.Pairwise (fun x y => 0 ≤ comp x y)) :
    List.Forall₂ (fun x y => comp x y = 0) l1 l2 := by
  classical
  induction l1 generalizing l2 with
  | nil =>
    have : l2 = [] := List.eq_nil_of_length_eq_zero (by simpa using hp.length_eq.symm)
    rw [this]
    exact List.Forall₂.nil
  | cons a t1 ih =>
    cases l2 with
    | nil => exact absurd hp.length_eq (by simp)
    | cons b t2 =>
      have hrefl : ∀ x : β, 0 ≤ comp x x := fun x => by
        have := hanti x x
        omega
      have hab : 0 ≤ comp a b := by
        rcases List.mem_cons.mp (hp.symm.mem_iff.mp (List.mem_cons_self b t2)) with h | h
        · rw [h]; exact hrefl a
        · exact (List.pairwise_cons.mp h1).1 b h
      have hba : 0 ≤ comp b a := by
        rcases List.mem_cons.mp (hp.mem_iff.mp (List.mem_cons_self a t1)) with h | h
        · rw [h]; exact hrefl b
        · exact (List.pairwise_cons.mp h2).1 a h
      have heq : comp a b = 0 := by
        have := hanti a b
        omega
      by_cases hab2 : a = b
      · subst hab2
        exact List.Forall₂.cons heq (ih t2 (List.Perm.cons_inv hp) (List.pairwise_cons.mp h1).2
          (List.pairwise_cons.mp h2).2)
      · have hat2 : a ∈ t2 := by
          rcases List.mem_cons.mp (hp.mem_iff.mp (List.mem_cons_self a t1)) with h | h
          · exact absurd h hab2
          · exact h
        have hp2 : t1.Perm (b :: t2.erase a) := by
          have h3 : (a :: t1).Perm (a :: (b :: t2).erase a) :=
            hp.trans (List.perm_cons_erase (List.mem_cons_of_mem b hat2))
          have h4 := List.Perm.cons_inv h3
          rwa [List.erase_cons_tail (by simpa using fun h : b = a => hab2 h.symm)] at h4
        have hs2 : (b :: t2.erase a).Pairwise (fun x y => 0 ≤ comp x y) := by
          refine List.Pairwise.sublist ?_ h2
          exact List.Sublist.cons₂ b (List.erase_sublist a t2)
        have step1 := ih (b :: t2.erase a) hp2 (List.pairwise_cons.mp h1).2 hs2
        have step2 := erase_rank_shift comp hanti htrans a b t2 heq hat2 h2
        exact List.Forall₂.cons heq (forall₂_rank_trans comp hanti htrans _ _ _ step1 step2)

theorem numeric_desc_anti (a b : Option (Int × Nat)) :
    numeric_desc a b = -numeric_desc b a := by
  unfold numeric_desc
  split_ifs <;> omega

theorem numeric_desc_trans (a b c : Option (Int × Nat)) (hab : 0 ≤ numeric_desc a b)
    (hbc : 0 ≤ numeric_desc b c) : 0 ≤ numeric_desc a c := by
  unfold numeric_desc at *
  split_ifs at * <;> omega

theorem well_formed_eq {α : Type} (L : twl_list_t α) (h : well_formed L) :
    L = ⟨L.nodes, L.nodes.length, L.ll_is_sorted, L.ll_comp_function⟩ := by
  obtain ⟨xs, cnt, s, c⟩ := L
  obtain ⟨hc, _⟩ := h
  simp only at hc
  subst hc
  rfl

theorem forall₂_eq_of_rank {β : Type} (comp : β → β → Int) (l1 l2 : List β)
    (h : List.Forall₂ (fun a b => comp a b = 0) l1 l2)
    (hno : ∀ a ∈ l1, ∀ b ∈ l2, comp a b = 0 → a = b) : l1 = l2 := by
  induction h with
  | nil => rfl
  | @cons a b t1 t2 hab _ ih =>
    rw [hno a (List.mem_cons_self a t1) b (List.mem_cons_self b t2) hab]
    rw [ih (fun x hx y hy => hno x (List.mem_cons_of_mem a hx) y (List.mem_cons_of_mem b hy))]

/-- C3: after `twl_list_sort` with a selector from 1 to 4 and a transitive,
antisymmetric comparison function, on a list of two or more elements, no
adjacent pair has `comp(left, right) == -1`: the call returns, past the
`list_debug_validate` that ends it.  The list returned holds the elements of
the list given, each as often, with the same count, the flag true and the
comparison function stored. -/
theorem twl_list_sort_in_order {α : Type} (L : twl_list_t α) (sel : Int)
    (comp : Option α → Option α → Int) (hwf : well_formed L) (h2 : 2 ≤ L.nodes.length)
    (hsel : sel = 1 ∨ sel = 2 ∨ sel = 3 ∨ sel = 4)
    (hanti : ∀ a b, comp a b = -comp b a)
    (htrans : ∀ a b c, 0 ≤ comp a b → 0 ≤ comp b c → 0 ≤ comp a c) :
    ∃ L1, twl_list_sort L sel (some comp) = .ok L1 ∧
      List.Chain' (fun a b => comp a b ≠ -1) L1.nodes ∧ list_debug_validate L1 = .ok () ∧
      L1.nodes.Perm L.nodes ∧ L1.ll_count = L.ll_count ∧ L1.ll_is_sorted = true ∧
      L1.ll_comp_function = some comp := by
  obtain ⟨out, hperm, _, htot⟩ :=
    twl_list_sort_long comp L.nodes L.ll_is_sorted L.ll_comp_function sel hwf.2 h2
  obtain ⟨hp, hok⟩ := htot hsel hanti htrans
  rw [← well_formed_eq L hwf] at hok
  have hw := sorted_walk_of_pairwise comp out hp
  refine ⟨_, hok, (sorted_walk_iff comp out).mp hw, ?_, hperm, ?_, rfl, rfl⟩
  · rw [validate_sorted out comp (fun x hx => hwf.2 x (hperm.mem_iff.mp hx)), if_pos hw]
  · simp only
    rw [hwf.1, hperm.length_eq]

/-- C4: for every comparison function, a call of `twl_list_sort` that
returns leaves a rearrangement of the elements, with the same
`twl_list_size`; a call that does not return has stopped on a failed
assertion of `list_debug_validate`. -/
theorem twl_list_sort_permutes {α : Type} (L : twl_list_t α) (sel : Int)
    (comp : Option α → Option α → Int) (hwf : well_formed L) :
    (∃ L1, twl_list_sort L sel (some comp) = .ok L1 ∧ L1.nodes.Perm L.nodes ∧
        twl_list_size L1 = twl_list_size L) ∨
      twl_list_sort L sel (some comp) = .error .assertion := by
  by_cases h2 : 2 ≤ L.nodes.length
  · rw [well_formed_eq L hwf]
    obtain ⟨out, hperm, hres, _⟩ :=
      twl_list_sort_long comp L.nodes L.ll_is_sorted L.ll_comp_function sel hwf.2 h2
    rcases hres with hok | herr
    · refine Or.inl ⟨_, hok, hperm, ?_⟩
      rw [size_eq, size_eq, hperm.length_eq]
    · exact Or.inr herr
  · have h0 : 0 ≤ L.ll_count := by rw [hwf.1]; omega
    have h1 : L.ll_count ≤ 1 := by rw [hwf.1]; omega
    refine Or.inl ⟨_, twl_list_sort_short L sel (some comp) h0 h1, List.Perm.refl _, rfl⟩

/-- On a list of two or more elements `twl_list_sort` with selector 2 and
with selector 3 have the same outcome, for every comparison function. -/
theorem twl_list_sort_two_eq_three {α : Type} (xs : List (Option α)) (s : Bool)
    (c : Option (Option α → Option α → Int)) (comp : Option α → Option α → Int)
    (h2 : 2 ≤ xs.length) :
    twl_list_sort ⟨xs, xs.length, s, c⟩ 2 (some comp) =
      twl_list_sort ⟨xs, xs.length, s, c⟩ 3 (some comp) := by
  have hne : xs.isEmpty = false := by
    cases xs with
    | nil => simp at h2
    | cons _ _ => rfl
  have hgt : ¬ ((xs.length : Int) ≤ 1) := by omega
  have heq := IterativeSelectionSort_eq_Recursive comp xs.length (xs.length + 1) xs 0 rfl
    (by omega) (by omega)
  unfold twl_list_sort
  simp only [size_eq, bind, Except.bind, pure, Except.pure, hgt, if_false, front_node,
    back_node, hne, Bool.false_eq_true, if_true, (by decide : ¬ ((2 : Int) = 1)),
    (by decide : ¬ ((3 : Int) = 1)), (by decide : ¬ ((3 : Int) = 2)), heq]

/-- C5, as amended: under a transitive, antisymmetric comparison function
any two selectors from 1 to 4 return lists that hold the elements of the list
given, each as often, with elements of equal rank at every position; the two
lists are the same when the comparison function ranks no two different
elements of the list equal, and when both selectors are 2 or 3. -/
theorem twl_list_sort_selectors_agree {α : Type} (L : twl_list_t α) (sel1 sel2 : Int)
    (comp : Option α → Option α → Int) (hwf : well_formed L)
    (hsel1 : sel1 = 1 ∨ sel1 = 2 ∨ sel1 = 3 ∨ sel1 = 4)
    (hsel2 : sel2 = 1 ∨ sel2 = 2 ∨ sel2 = 3 ∨ sel2 = 4)
    (hanti : ∀ a b, comp a b = -comp b a)
    (htrans : ∀ a b c, 0 ≤ comp a b → 0 ≤ comp b c → 0 ≤ comp a c) :
    ∃ L1 L2, twl_list_sort L sel1 (some comp) = .ok L1 ∧
      twl_list_sort L sel2 (some comp) = .ok L2 ∧
      List.Forall₂ (fun a b => comp a b = 0) L1.nodes L2.nodes ∧
      ((∀ a ∈ L.nodes, ∀ b ∈ L.nodes, comp a b = 0 → a = b) → L1 = L2) ∧
      L1.nodes.Perm L.nodes ∧ L2.nodes.Perm L.nodes ∧
      ((sel1 = 2 ∨ sel1 = 3) → (sel2 = 2 ∨ sel2 = 3) → L1 = L2) := by
  by_cases h2 : 2 ≤ L.nodes.length
  · obtain ⟨out1, hperm1, _, htot1⟩ :=
      twl_list_sort_long comp L.nodes L.ll_is_sorted L.ll_comp_function sel1 hwf.2 h2
    obtain ⟨out2, hperm2, _, htot2⟩ :=
      twl_list_sort_long comp L.nodes L.ll_is_sorted L.ll_comp_function sel2 hwf.2 h2
    obtain ⟨hp1, hok1⟩ := htot1 hsel1 hanti htrans
    obtain ⟨hp2, hok2⟩ := htot2 hsel2 hanti htrans
    have hsame := twl_list_sort_two_eq_three L.nodes L.ll_is_sorted L.ll_comp_function comp h2
    have hrank := sorted_perm_rank_eq comp hanti htrans out1 out2
      (hperm1.trans hperm2.symm) hp1 hp2
    have hboth : (sel1 = 2 ∨ sel1 = 3) → (sel2 = 2 ∨ sel2 = 3) →
        (⟨out1, out1.length, true, some comp⟩ : twl_list_t α) =
          ⟨out2, out2.length, true, some comp⟩ := by
      intro h1 h2'
      apply Except.ok.inj
      rw [← hok1, ← hok2]
      rcases h1 with h1 | h1 <;> rcases h2' with h2' | h2' <;> rw [h1, h2']
      · exact hsame
      · exact hsame.symm
    rw [← well_formed_eq L hwf] at hok1 hok2
    refine ⟨_, _, hok1, hok2, hrank, fun hno => ?_, hperm1, hperm2, hboth⟩
    have : out1 = out2 := forall₂_eq_of_rank comp out1 out2 hrank
      (fun a ha b hb => hno a (hperm1.mem_iff.mp ha) b (hperm2.mem_iff.mp hb))
    rw [this]
  · have h0 : 0 ≤ L.ll_count := by rw [hwf.1]; omega
    have h1 : L.ll_count ≤ 1 := by rw [hwf.1]; omega
    exact ⟨_, _, twl_list_sort_short L sel1 (some comp) h0 h1,
      twl_list_sort_short L sel2 (some comp) h0 h1, forall₂_rank_refl comp hanti _, fun _ => rfl,
      List.Perm.refl _, List.Perm.refl _, fun _ _ => rfl⟩

/-! ## Closed statements: scenarios and instances -/

/-- C2: `twl_list_insert_sorted` links a new element before, not after, the
elements of equal rank already in the list: inserted into `[(5,0)]`, the
element `(5,1)` of the same rank comes first, and two elements of equal rank
inserted one after the other into an empty list end in the opposite order. -/
theorem twl_list_insert_sorted_tie_goes_first :
    (twl_list_insert_sorted ⟨[some (5, 0)], 1, true, some numeric_desc⟩ (some (5, 1))).map
        (fun L => L.nodes) = .ok [some (5, 1), some (5, 0)] ∧
    ((twl_list_insert_sorted (twl_list_construct (some numeric_desc)) (some (5, 0))).bind
        (fun L => twl_list_insert_sorted L (some (5, 1)))).map
        (fun L => L.nodes) = .ok [some (5, 1), some (5, 0)] :=
  ⟨rfl, rfl⟩

/-- C5, as stated, fails: `numeric_desc` is antisymmetric and transitive, and
on the list `[(1,0), (1,1), (2,2)]` the selection sorts (selectors 2 and 3)
exchange `(2,2)` with `(1,0)` and return the two equal-ranked elements in the
order `(1,1), (1,0)`, while the merge sort (selector 4) keeps them in the
order `(1,0), (1,1)`.  On two elements of equal rank selector 1 returns them
in the opposite order and selectors 4, 2 and 3 in their order. -/
theorem twl_list_sort_selectors_differ_on_ties :
    (∀ a b, numeric_desc a b = -numeric_desc b a) ∧
    (∀ a b c, 0 ≤ numeric_desc a b → 0 ≤ numeric_desc b c → 0 ≤ numeric_desc a c) ∧
    (twl_list_sort tie_triple 2 (some numeric_desc)).map (fun L => L.nodes) =
      .ok [some (2, 2), some (1, 1), some (1, 0)] ∧
    (twl_list_sort tie_triple 3 (some numeric_desc)).map (fun L => L.nodes) =
      .ok [some (2, 2), some (1, 1), some (1, 0)] ∧
    (twl_list_sort tie_triple 4 (some numeric_desc)).map (fun L => L.nodes) =
      .ok [some (2, 2), some (1, 0), some (1, 1)] ∧
    (twl_list_sort tie_pair 1 (some numeric_desc)).map (fun L => L.nodes) =
      .ok [some (3, 1), some (3, 0)] ∧
    (twl_list_sort tie_pair 4 (some numeric_desc)).map (fun L => L.nodes) =
      .ok [some (3, 0), some (3, 1)] ∧
    (twl_list_sort tie_pair 2 (some numeric_desc)).map (fun L => L.nodes) =
      .ok [some (3, 0), some (3, 1)] ∧
    (twl_list_sort tie_pair 3 (some numeric_desc)).map (fun L => L.nodes) =
      .ok [some (3, 0), some (3, 1)] :=
  ⟨numeric_desc_anti, numeric_desc_trans, rfl, rfl, rfl, rfl, rfl, rfl, rfl⟩

/-- C6: on the empty list built without a comparison function
`twl_list_sort` returns before `ll_is_sorted = TRUE`: the flag is still false
and the `twl_list_insert_sorted` that follows fails its assertion.  The same
holds for a list of one element. -/
theorem twl_list_sort_short_list_keeps_flag :
    (twl_list_sort (twl_list_construct none : twl_list_t (Int × Nat)) 1
        (some numeric_desc)).map (fun L => L.ll_is_sorted) = .ok false ∧
    ((twl_list_sort (twl_list_construct none : twl_list_t (Int × Nat)) 1
        (some numeric_desc)).bind (fun L => twl_list_insert_sorted L (some (5, 0)))).map
        (fun L => L.nodes) = .error .assertion ∧
    (twl_list_sort (⟨[some (3, 0)], 1, false, none⟩ : twl_list_t (Int × Nat)) 4
        (some numeric_desc)).map (fun L => L.ll_is_sorted) = .ok false :=
  ⟨rfl, rfl, rfl⟩

/-- C7: with a selector outside 1..4 `twl_list_sort` still marks a list of
two elements sorted: a list that is out of order then fails the order
assertion of `list_debug_validate`, and a list that is in order comes back
with its flag changed from false to true. -/
theorem twl_list_sort_invalid_selector_marks_sorted :
    rising_pair.ll_is_sorted = false ∧
    (twl_list_sort rising_pair 5 (some numeric_desc)).map (fun L => L.nodes) =
      .error .assertion ∧
    falling_pair.ll_is_sorted = false ∧
    (twl_list_sort falling_pair 5 (some numeric_desc)).map (fun L => L.ll_is_sorted) =
      .ok true :=
  ⟨rfl, rfl, rfl, rfl⟩

/-- C1 at the sorted list `[(5,0), (3,1)]` and the element `(5,2)`. -/
theorem twl_list_insert_sorted_keeps_order_witness :
    ∃ L1, twl_list_insert_sorted leader_pair (some (5, 2)) = .ok L1 ∧
      List.Chain' (fun a b => numeric_desc a b ≠ -1) L1.nodes ∧
      L1.ll_is_sorted = true ∧ list_debug_validate L1 = .ok () :=
  twl_list_insert_sorted_keeps_order leader_pair numeric_desc (5, 2) ⟨rfl, by decide⟩ rfl rfl
    numeric_desc_anti ((sorted_walk_iff numeric_desc leader_pair.nodes).mp rfl)

/-- C3 at the queue `[(1,0), (2,1), (3,2)]` and selector 4. -/
theorem twl_list_sort_in_order_witness :
    ∃ L1, twl_list_sort queue3 4 (some numeric_desc) = .ok L1 ∧
      List.Chain' (fun a b => numeric_desc a b ≠ -1) L1.nodes ∧
      list_debug_validate L1 = .ok () ∧
      L1.nodes.Perm queue3.nodes ∧ L1.ll_count = queue3.ll_count ∧ L1.ll_is_sorted = true ∧
      L1.ll_comp_function = some numeric_desc :=
  twl_list_sort_in_order queue3 4 numeric_desc ⟨rfl, by decide⟩ (by decide)
    (Or.inr (Or.inr (Or.inr rfl))) numeric_desc_anti numeric_desc_trans

/-- C4 at the queue `[(1,0), (2,1), (3,2)]` and selector 2. -/
theorem twl_list_sort_permutes_witness :
    (∃ L1, twl_list_sort queue3 2 (some numeric_desc) = .ok L1 ∧ L1.nodes.Perm queue3.nodes ∧
        twl_list_size L1 = twl_list_size queue3) ∨
      twl_list_sort queue3 2 (some numeric_desc) = .error .assertion :=
  twl_list_sort_permutes queue3 2 numeric_desc ⟨rfl, by decide⟩

/-- C5, as amended, at the queue `[(1,0), (2,1), (3,2)]` and selectors 2 and 3. -/
theorem twl_list_sort_selectors_agree_witness :
    ∃ L1 L2, twl_list_sort queue3 2 (some numeric_desc) = .ok L1 ∧
      twl_list_sort queue3 3 (some numeric_desc) = .ok L2 ∧
      List.Forall₂ (fun a b => numeric_desc a b = 0) L1.nodes L2.nodes ∧
      ((∀ a ∈ queue3.nodes, ∀ b ∈ queue3.nodes, numeric_desc a b = 0 → a = b) → L1 = L2) ∧
      L1.nodes.Perm queue3.nodes ∧ L2.nodes.Perm queue3.nodes ∧
      (((2 : Int) = 2 ∨ (2 : Int) = 3) → ((3 : Int) = 2 ∨ (3 : Int) = 3) → L1 = L2) :=
  twl_list_sort_selectors_agree queue3 2 3 numeric_desc ⟨rfl, by decide⟩ (Or.inr (Or.inl rfl))
    (Or.inr (Or.inr (Or.inl rfl))) numeric_desc_anti numeric_desc_trans

/-- C8 at a list of three elements and the index 999: the element is appended. -/
theorem twl_list_insert_positions_witness :
    ∃ L1, twl_list_insert queue3 (some (9, 9)) 999 = .ok L1 ∧
      L1.nodes = queue3.nodes ++ [some (9, 9)] ∧ L1.ll_count = queue3.nodes.length + 1 :=
  (twl_list_insert_positions queue3 (9, 9) 999 ⟨rfl, by decide⟩).2.2 (Or.inr (by decide))

/-- C9 at a list of three elements and `TWL_LIST_BACK`. -/
theorem twl_list_remove_in_range_witness :
    ∃ d L1, twl_list_remove queue3 TWL_LIST_BACK = .ok (some d, L1) ∧
      queue3.nodes[2]? = some (some d) ∧
      L1.nodes = queue3.nodes.eraseIdx 2 ∧ L1.ll_count = (queue3.nodes.length : Int) - 1 ∧
      L1.ll_is_sorted = queue3.ll_is_sorted ∧
      L1.ll_comp_function = queue3.ll_comp_function :=
  twl_list_remove_in_range queue3 TWL_LIST_BACK 2 ⟨rfl, by decide⟩ (by decide)
    (Or.inr (Or.inr ⟨rfl, rfl⟩))

/-- C10 at a list of three elements and the index 3. -/
theorem twl_list_remove_out_of_range_witness :
    twl_list_remove queue3 3 = .ok (none, queue3) :=
  twl_list_remove_out_of_range queue3 3 rfl (Or.inl ⟨by decide, by decide, Or.inr (by decide)⟩)

theorem insert_at_getD {α : Type} (xs : List (Option α)) (a : Option α) (k : Nat)
    (hk : k ≤ xs.length) : (xs.take k ++ a :: xs.drop k).getD k none = a := by
  have hlen : (xs.take k).length = k := by rw [List.length_take]; omega
  rw [List.getD_eq_getElem?_getD, List.getElem?_append_right (by omega), hlen]
  simp

theorem insert_at_eraseIdx {α : Type} (xs : List (Option α)) (a : Option α) (k : Nat)
    (hk : k ≤ xs.length) : (xs.take k ++ a :: xs.drop k).eraseIdx k = xs := by
  have hlen : (xs.take k).length = k := by rw [List.length_take]; omega
  rw [List.eraseIdx_append_of_length_le (by omega), hlen]
  simp

/-- C11: `twl_list_insert` at an index `0 <= i < n` followed by
`twl_list_remove` at the same index returns the inserted element and leaves
the elements of the list in their order, with the count it had. -/
theorem twl_list_insert_remove_round_trip {α : Type} (L : twl_list_t α) (e : α) (i : Int)
    (hwf : well_formed L) (h0 : 0 ≤ i) (hn : i < L.nodes.length) :
    ∃ L1 L2, twl_list_insert L (some e) i = .ok L1 ∧
      twl_list_remove L1 i = .ok (some e, L2) ∧
      L2.nodes = L.nodes ∧ L2.ll_count = L.ll_count := by
  obtain ⟨xs, cnt, s, c⟩ := L
  obtain ⟨hcount, hdata⟩ := hwf
  simp only at hcount hdata hn
  subst hcount
  have hk : i.toNat ≤ xs.length := by omega
  have hik : i = (i.toNat : Int) := by omega
  have hall : ∀ x ∈ xs.take i.toNat ++ some e :: xs.drop i.toNat, x ≠ none := by
    intro x hx
    simp only [List.mem_append, List.mem_cons] at hx
    rcases hx with hx | hx | hx
    · exact hdata x (List.mem_of_mem_take hx)
    · simp [hx]
    · exact hdata x (List.mem_of_mem_drop hx)
  have hlen : (xs.take i.toNat ++ some e :: xs.drop i.toNat).length = xs.length + 1 := by
    simp; omega
  have hins := insert_of_chain ⟨xs, xs.length, s, c⟩ (some e) i _
    ((insert_chain_spec xs s c (some e) i).1 h0 (by omega)) (by simp; omega) hall
  have hrem := remove_at (xs.take i.toNat ++ some e :: xs.drop i.toNat) false c hall i i.toNat
    (by omega) (Or.inl hik)
  rw [insert_at_getD xs (some e) i.toNat hk, insert_at_eraseIdx xs (some e) i.toNat hk,
    hlen] at hrem
  simp only [Nat.cast_add, Nat.cast_one] at hrem
  exact ⟨_, ⟨xs, (xs.length : Int) + 1 - 1, false, c⟩, hins, hrem, rfl, by simp⟩

theorem access_at {α : Type} (xs : List (Option α)) (s : Bool)
    (c : Option (Option α → Option α → Int)) (p : Nat) (hp : p < xs.length) :
    twl_list_access ⟨xs, xs.length, s, c⟩ (p : Int) = .ok (xs.getD p none) := by
  have hpF : (p : Int) ≠ TWL_LIST_FRONT := by unfold TWL_LIST_FRONT; omega
  have hpB : (p : Int) ≠ TWL_LIST_BACK := by unfold TWL_LIST_BACK; omega
  have hne : ¬ ((xs.length : Int) = 0) := by omega
  have hget : xs.getD p none = xs[p] := by
    rw [List.getD_eq_getElem?_getD, List.getElem?_eq_getElem hp]
    rfl
  unfold twl_list_access
  simp only [hne, if_false, hpF, hpB, false_or]
  by_cases hp0 : p = 0
  · subst hp0
    cases xs with
    | nil => simp at hp
    | cons a t => simp
  · have hp0i : ¬ ((p : Int) = 0) := by omega
    simp only [hp0i, if_false]
    by_cases hpl : p = xs.length - 1
    · have hpli : (p : Int) = (xs.length : Int) - 1 := by omega
      have hlast : xs.getLast? = some (xs.getD p none) := by
        rw [List.getLast?_eq_getElem?, ← hpl, hget, List.getElem?_eq_getElem hp]
      simp only [hpli, if_true, hlast]
    · have hpli : ¬ ((p : Int) = (xs.length : Int) - 1) := by omega
      have hr : ¬ ((p : Int) < 0 ∨ (p : Int) ≥ xs.length) := by omega
      simp only [hpli, if_false, hr, Int.toNat_ofNat]
      rw [walk_to_eq_drop, List.drop_eq_getElem_cons hp, hget]

theorem access_cases {α : Type} (L : twl_list_t α) (i : Int)
    (hcount : L.ll_count = L.nodes.length) :
    (∀ p : Nat, i = p → p < L.nodes.length →
      twl_list_access L i = .ok (L.nodes.getD p none) ∧ L.nodes[p]? = some (L.nodes.getD p none)) ∧
    (i = TWL_LIST_FRONT → 0 < L.nodes.length →
      twl_list_access L i = .ok (L.nodes.getD 0 none)) ∧
    (i = TWL_LIST_BACK → 0 < L.nodes.length →
      twl_list_access L i = .ok (L.nodes.getD (L.nodes.length - 1) none)) ∧
    (L.nodes.length = 0 ∨
      (i ≠ TWL_LIST_FRONT ∧ i ≠ TWL_LIST_BACK ∧ (i < 0 ∨ (L.nodes.length : Int) ≤ i)) →
      twl_list_access L i = .ok none) := by
  obtain ⟨xs, cnt, s, c⟩ := L
  simp only at hcount
  subst hcount
  simp only
  refine ⟨?_, ?_, ?_, ?_⟩
  · intro p hip hp
    rw [hip]
    refine ⟨access_at xs s c p hp, ?_⟩
    rw [List.getD_eq_getElem?_getD, List.getElem?_eq_getElem hp]
    rfl
  · intro hF hn
    have h := access_at xs s c 0 hn
    have hne : ¬ ((xs.length : Int) = 0) := by omega
    rw [← h]
    simp [twl_list_access, hne, hF]
  · intro hB hn
    have h := access_at xs s c (xs.length - 1) (by omega)
    have hne : ¬ ((xs.length : Int) = 0) := by omega
    have hBF : TWL_LIST_BACK ≠ TWL_LIST_FRONT := by decide
    have hB0 : TWL_LIST_BACK ≠ 0 := by decide
    rw [← h, hB]
    have hcast : ((xs.length - 1 : Nat) : Int) = (xs.length : Int) - 1 := by omega
    have h1 : ¬ ((xs.length : Int) - 1 = TWL_LIST_FRONT) := by unfold TWL_LIST_FRONT; omega
    unfold twl_list_access
    simp only [hne, if_false, hBF, hB0, or_self, true_or, if_true, hcast, h1, false_or, or_true]
    by_cases hone : (xs.length : Int) - 1 = 0
    · have hlen1 : xs.length = 1 := by omega
      match xs, hlen1 with
      | [a], _ => simp
    · simp only [hone, if_false]
  · intro h
    unfold twl_list_access
    rcases h with h0 | ⟨hF, hB, hr⟩
    · have : (xs.length : Int) = 0 := by omega
      simp [this]
    · by_cases hne : (xs.length : Int) = 0
      · simp [hne]
      · have hz : i ≠ 0 := by omega
        have hl : i ≠ (xs.length : Int) - 1 := by omega
        have hr2 : i < 0 ∨ i ≥ (xs.length : Int) := by omega
        simp only [hne, if_false, hF, hz, hB, hl, or_self, hr2, if_true]

/-- C12: on a list of `n` elements `twl_list_access` returns the element at
position `i` for `0 <= i < n`, the first element for `TWL_LIST_FRONT` and the
last for `TWL_LIST_BACK` when `n > 0`, and NULL in every other case.  The
call reads the list only: it has no list to return. -/
theorem twl_list_access_positions {α : Type} (L : twl_list_t α) (i : Int)
    (hcount : L.ll_count = L.nodes.length) :
    (∀ (p : Nat) (d : Option α), i = p → L.nodes[p]? = some d → twl_list_access L i = .ok d) ∧
    (∀ d : Option α, i = TWL_LIST_FRONT → L.nodes.head? = some d →
      twl_list_access L i = .ok d) ∧
    (∀ d : Option α, i = TWL_LIST_BACK → L.nodes.getLast? = some d →
      twl_list_access L i = .ok d) ∧
    (L.nodes.length = 0 ∨
      (i ≠ TWL_LIST_FRONT ∧ i ≠ TWL_LIST_BACK ∧ (i < 0 ∨ (L.nodes.length : Int) ≤ i)) →
      twl_list_access L i = .ok none) := by
  obtain ⟨h1, h2, h3, h4⟩ := access_cases L i hcount
  refine ⟨?_, ?_, ?_, h4⟩
  · intro p d hip hd
    have hp : p < L.nodes.length := by
      by_contra hge
      rw [List.getElem?_eq_none (by omega)] at hd
      exact absurd hd (by simp)
    obtain ⟨ha, hb⟩ := h1 p hip hp
    rw [hb] at hd
    injection hd with hd
    rw [ha, hd]
  · intro d hF hd
    have hn : 0 < L.nodes.length := by
      cases hxs : L.nodes with
      | nil => rw [hxs] at hd; simp at hd
      | cons _ _ => simp
    rw [h2 hF hn]
    cases hxs : L.nodes with
    | nil => rw [hxs] at hd; simp at hd
    | cons a t =>
      rw [hxs] at hd
      simp only [List.head?_cons, Option.some.injEq] at hd
      simp [hd]
  · intro d hB hd
    have hn : 0 < L.nodes.length := by
      cases hxs : L.nodes with
      | nil => rw [hxs] at hd; simp at hd
      | cons _ _ => simp
    rw [h3 hB hn]
    rw [List.getLast?_eq_getElem?, List.getElem?_eq_getElem (by omega)] at hd
    injection hd with hd
    rw [List.getD_eq_getElem?_getD, List.getElem?_eq_getElem (by omega), ← hd]
    rfl

/-- The two search loops run together: either no node matches, or both stop
on the first node that matches. -/
theorem find_loops {α : Type} (comp : Option α → Option α → Int) (probe : Option α)
    (xs : List (Option α)) (start : Int) :
    ((∀ d ∈ xs, comp d probe ≠ 0) ∧ find_position_loop comp probe xs start = -1 ∧
        find_data_ptr_loop comp probe xs = none) ∨
      (∃ k : Nat, k < xs.length ∧ find_position_loop comp probe xs start = start + k ∧
        comp (xs.getD k none) probe = 0 ∧
        (∀ j, j < k → comp (xs.getD j none) probe ≠ 0) ∧
        find_data_ptr_loop comp probe xs = xs.getD k none) := by
  induction xs generalizing start with
  | nil => exact Or.inl ⟨by simp, rfl, rfl⟩
  | cons a t ih =>
    by_cases ha : comp a probe = 0
    · refine Or.inr ⟨0, by simp, ?_, by simpa using ha, by simp, ?_⟩
      · simp [find_position_loop, ha]
      · simp [find_data_ptr_loop, ha]
    · rcases ih (start + 1) with ⟨hno, hp, hd⟩ | ⟨k, hk, hp, hm, hfirst, hd⟩
      · refine Or.inl ⟨?_, ?_, ?_⟩
        · intro d hd2
          rcases List.mem_cons.mp hd2 with h | h
          · rw [h]; exact ha
          · exact hno d h
        · simp [find_position_loop, ha, hp]
        · simp [find_data_ptr_loop, ha, hd]
      · refine Or.inr ⟨k + 1, by simpa using hk, ?_, by simpa using hm, ?_, ?_⟩
        · simp only [find_position_loop, ha, if_false, hp]
          push_cast
          omega
        · intro j hj
          cases j with
          | zero => simpa using ha
          | succ j => simpa using hfirst j (by omega)
        · simp only [find_data_ptr_loop, ha, if_false, hd]
          simp

/-- C13: `twl_list_elem_find_position` returns the lowest index whose
element matches the probe, `-1` when none matches;
`twl_list_elem_find_data_ptr` returns the element at that index, the one
`twl_list_access` returns there, and NULL exactly when the position is
`-1`. -/
theorem twl_list_elem_find_first_match {α : Type} (L : twl_list_t α) (probe : Option α)
    (matches_ : Option α → Option α → Int) (hwf : well_formed L) :
    ∃ p d, twl_list_elem_find_position L probe (some matches_) = .ok p ∧
      twl_list_elem_find_data_ptr L probe (some matches_) = .ok d ∧
      (d = none ↔ p = -1) ∧
      ((p = -1 ∧ ∀ x ∈ L.nodes, matches_ x probe ≠ 0) ∨
        (∃ k : Nat, p = k ∧ L.nodes[k]? = some d ∧ matches_ d probe = 0 ∧
          (∀ (j : Nat) (x : Option α), j < k → L.nodes[j]? = some x → matches_ x probe ≠ 0) ∧
          twl_list_access L p = .ok d)) := by
  obtain ⟨hcount, hdata⟩ := hwf
  refine ⟨_, _, rfl, rfl, ?_⟩
  rcases find_loops matches_ probe L.nodes 0 with ⟨hno, hp, hd⟩ | ⟨k, hk, hp, hm, hfirst, hd⟩
  · rw [hp, hd]
    exact ⟨by simp, Or.inl ⟨rfl, hno⟩⟩
  · have hget : L.nodes[k]? = some (L.nodes.getD k none) := by
      rw [List.getD_eq_getElem?_getD, List.getElem?_eq_getElem hk]
      rfl
    have hmem : L.nodes.getD k none ∈ L.nodes := by
      rw [List.getD_eq_getElem?_getD, List.getElem?_eq_getElem hk]
      exact List.getElem_mem hk
    rw [hp, hd]
    refine ⟨?_, Or.inr ⟨k, by simp, hget, hm, ?_, ?_⟩⟩
    · constructor
      · intro h
        exact absurd h (hdata _ hmem)
      · intro h
        omega
    · intro j x hj hx
      have hjn : j < L.nodes.length := by omega
      have := hfirst j hj
      rw [List.getD_eq_getElem?_getD, hx] at this
      exact this
    · have := (access_cases L ((0 : Int) + k) hcount).1 k (by simp) hk
      exact this.1

theorem remove_none_eq {α : Type} (L : twl_list_t α) (i : Int)
    (hcount : L.ll_count = L.nodes.length)
    (hi : (i ≠ TWL_LIST_FRONT ∧ i ≠ TWL_LIST_BACK ∧ (i < 0 ∨ (L.nodes.length : Int) ≤ i)) ∨
      L.nodes.length = 0) :
    twl_list_remove L i = .ok (none, L) := by
  unfold twl_list_remove
  rw [if_pos]
  rcases hi with ⟨hF, hB, hr⟩ | h0
  · rw [if_neg hF, if_neg hB, hcount]
    omega
  · left
    rw [hcount, h0]
    rfl

/-- What the calls keep true of a list: the count is the number of nodes, no
node holds NULL, and a list marked sorted is empty. -/
theorem do_call_keeps {α : Type} (L : twl_list_t α) (call : list_call α)
    (hwf : well_formed L) (hflag : L.ll_is_sorted = true → L.nodes = [])
    (hidx : call_index_ok call) :
    ∃ L1, do_call L call = .ok L1 ∧ well_formed L1 ∧
      (L1.ll_is_sorted = true → L1.nodes = []) := by
  obtain ⟨xs, cnt, s, c⟩ := L
  obtain ⟨hcount, hdata⟩ := hwf
  simp only at hcount hdata hflag
  subst hcount
  cases call with
  | insert e i =>
    simp only [call_index_ok] at hidx
    obtain ⟨h1, h2, h3⟩ := insert_chain_spec xs s c (some e) i
    -- the chain after the insertion, in each case one element longer
    have key : ∀ chain : List (Option α),
        insert_chain ⟨xs, xs.length, s, c⟩ (some e) i = .ok chain →
        chain.length = xs.length + 1 → (∀ x ∈ chain, x ≠ none) →
        ∃ L1, do_call ⟨xs, xs.length, s, c⟩ (list_call.insert e i) = .ok L1 ∧ well_formed L1 ∧
          (L1.ll_is_sorted = true → L1.nodes = []) := by
      intro chain hc hlen hall
      refine ⟨_, insert_of_chain _ (some e) i chain hc (by simp [hlen]) hall, ⟨?_, hall⟩, ?_⟩
      · simp [hlen]
      · intro h
        simp at h
    by_cases hr : 0 ≤ i ∧ i ≤ xs.length
    · refine key _ (h1 hr.1 hr.2) (by simp; omega) ?_
      intro x hx
      simp only [List.mem_append, List.mem_cons] at hx
      rcases hx with hx | hx | hx
      · exact hdata x (List.mem_of_mem_take hx)
      · simp [hx]
      · exact hdata x (List.mem_of_mem_drop hx)
    · by_cases hF : i = TWL_LIST_FRONT
      · refine key _ (h2 hF) (by simp) ?_
        intro x hx
        rcases List.mem_cons.mp hx with hx | hx
        · simp [hx]
        · exact hdata x hx
      · have hB : i = TWL_LIST_BACK ∨ (xs.length : Int) < i := by
          rcases hidx with h | h | h
          · exact Or.inr (by omega)
          · exact absurd h hF
          · exact Or.inl h
        refine key _ (h3 hB) (by simp) ?_
        intro x hx
        rcases List.mem_append.mp hx with hx | hx
        · exact hdata x hx
        · simp only [List.mem_singleton] at hx
          simp [hx]
  | remove i =>
    simp only [call_index_ok] at hidx
    -- the position the index stands for, when there is one
    by_cases hin : ∃ p : Nat, p < xs.length ∧
        (i = p ∨ (i = TWL_LIST_FRONT ∧ p = 0) ∨ (i = TWL_LIST_BACK ∧ p = xs.length - 1))
    · obtain ⟨p, hp, hi⟩ := hin
      have hrem := remove_at xs s c hdata i p hp hi
      refine ⟨⟨xs.eraseIdx p, (xs.length : Int) - 1, s, c⟩, ?_, ⟨?_, ?_⟩, ?_⟩
      · simp [do_call, hrem]
      · simp only [List.length_eraseIdx, hp, if_true]
        omega
      · intro x hx
        exact hdata x (List.mem_of_mem_eraseIdx hx)
      · intro h
        have := hflag h
        rw [this] at hp
        simp at hp
    · have hnone : (i ≠ TWL_LIST_FRONT ∧ i ≠ TWL_LIST_BACK ∧
          (i < 0 ∨ (xs.length : Int) ≤ i)) ∨ xs.length = 0 := by
        by_cases h0 : xs.length = 0
        · exact Or.inr h0
        · left
          refine ⟨?_, ?_, ?_⟩
          · intro hF
            exact hin ⟨0, by omega, Or.inr (Or.inl ⟨hF, rfl⟩)⟩
          · intro hB
            exact hin ⟨xs.length - 1, by omega, Or.inr (Or.inr ⟨hB, rfl⟩)⟩
          · by_contra hcon
            exact hin ⟨i.toNat, by omega, Or.inl (by omega)⟩
      have hrem := remove_none_eq ⟨xs, xs.length, s, c⟩ i rfl hnone
      refine ⟨⟨xs, xs.length, s, c⟩, ?_, ⟨rfl, hdata⟩, hflag⟩
      simp [do_call, hrem]

theorem do_calls_keep {α : Type} (calls : List (list_call α)) (L : twl_list_t α)
    (hwf : well_formed L) (hflag : L.ll_is_sorted = true → L.nodes = [])
    (hidx : ∀ call ∈ calls, call_index_ok call) :
    ∃ L1, do_calls L calls = .ok L1 ∧ well_formed L1 ∧
      (L1.ll_is_sorted = true → L1.nodes = []) := by
  induction calls generalizing L with
  | nil => exact ⟨L, rfl, hwf, hflag⟩
  | cons call rest ih =>
    obtain ⟨L1, h1, hwf1, hflag1⟩ :=
      do_call_keeps L call hwf hflag (hidx call (List.mem_cons_self call rest))
    obtain ⟨L2, h2, hwf2, hflag2⟩ :=
      ih L1 hwf1 hflag1 (fun x hx => hidx x (List.mem_cons_of_mem call hx))
    refine ⟨L2, ?_, hwf2, hflag2⟩
    simp [do_calls, h1, h2]

/-- C14: from a newly constructed list, after each call of a sequence of
`twl_list_insert` (of elements that are not NULL) and `twl_list_remove` calls
whose indices are ordinals `>= 0` or sentinels, the stored count is the number
of nodes of the chain, and `list_debug_validate`, whose walk from the back
counts the nodes, passes. -/
theorem twl_list_count_is_node_count {α : Type}
    (compare_function : Option (Option α → Option α → Int)) (calls : List (list_call α))
    (hidx : ∀ call ∈ calls, call_index_ok call) (k : Nat) :
    ∃ L, do_calls (twl_list_construct compare_function) (calls.take k) = .ok L ∧
      L.ll_count = L.nodes.length ∧ list_debug_validate L = .ok () := by
  obtain ⟨L, hL, hwf, hflag⟩ := do_calls_keep (calls.take k)
    (twl_list_construct compare_function) ⟨rfl, by simp [twl_list_construct]⟩ (fun _ => rfl)
    (fun x hx => hidx x (List.mem_of_mem_take hx))
  refine ⟨L, hL, hwf.1, ?_⟩
  rw [well_formed_eq L hwf]
  cases hs : L.ll_is_sorted with
  | false => exact validate_unsorted L.nodes L.ll_comp_function hwf.2
  | true =>
    rw [hflag hs]
    simp [list_debug_validate, links_and_count_ok]

/-- C15: on a list of non-NULL elements whose count is its number of nodes,
`twl_list_size` is 0 exactly when `twl_list_access` at `TWL_LIST_FRONT`
returns NULL, and exactly when `twl_list_remove` returns NULL at every
index. -/
theorem twl_list_empty_iff {α : Type} (L : twl_list_t α) (hwf : well_formed L) :
    (twl_list_size L = .ok 0 ↔ twl_list_access L TWL_LIST_FRONT = .ok none) ∧
    (twl_list_size L = .ok 0 ↔
      ∀ i : Int, ∃ L1, twl_list_remove L i = .ok (none, L1)) := by
  obtain ⟨xs, cnt, s, c⟩ := L
  obtain ⟨hcount, hdata⟩ := hwf
  simp only at hcount hdata
  subst hcount
  rw [size_eq]
  cases xs with
  | nil =>
    refine ⟨⟨fun _ => ?_, fun _ => rfl⟩, ⟨fun _ i => ?_, fun _ => rfl⟩⟩
    · simp [twl_list_access]
    · exact ⟨_, remove_none_eq ⟨[], (([] : List (Option α)).length : Nat), s, c⟩ i rfl
        (Or.inr rfl)⟩
  | cons a t =>
    have ha : a ≠ none := hdata a (List.mem_cons_self a t)
    have hne : ¬ (((a :: t).length : Nat) : Int) = 0 := by
      rw [List.length_cons]; omega
    have hsz : ¬ ((.ok (((a :: t).length : Nat) : Int) : Except Fault Int) = .ok 0) := by
      intro h
      injection h with h
      exact hne h
    refine ⟨⟨fun h => absurd h hsz, fun h => ?_⟩, ⟨fun h => absurd h hsz, fun h => ?_⟩⟩
    · have hacc : twl_list_access ⟨a :: t, ((a :: t).length : Nat), s, c⟩ TWL_LIST_FRONT =
          .ok a := by
        have hne2 : ¬ ((t.length : Int) + 1 = 0) := by omega
        simp [twl_list_access, hne2]
      rw [hacc] at h
      injection h with h
      exact absurd h ha
    · obtain ⟨L1, h1⟩ := h 0
      rw [remove_front_eq a t s c ha] at h1
      injection h1 with h1
      injection h1 with h1 _
      exact absurd h1 ha

theorem insert_sorted_unsorted_flag {α : Type} (L : twl_list_t α) (e : Option α)
    (h : L.ll_is_sorted = false) : twl_list_insert_sorted L e = .error .assertion := by
  simp [twl_list_insert_sorted, h]

theorem insert_flag_and_comp {α : Type} (L L1 : twl_list_t α) (e : Option α) (i : Int)
    (h : twl_list_insert L e i = .ok L1) :
    L1.ll_is_sorted = false ∧ L1.ll_comp_function = L.ll_comp_function ∧
      L1.ll_count = L.ll_count + 1 := by
  unfold twl_list_insert at h
  cases hc : insert_chain L e i with
  | error f => rw [hc] at h; simp at h
  | ok chain =>
    rw [hc] at h
    simp only at h
    cases hv : list_debug_validate
        ({ L with nodes := chain, ll_count := L.ll_count + 1, ll_is_sorted := false }) with
    | error f => rw [hv] at h; simp at h
    | ok u =>
      rw [hv] at h
      simp only [Except.ok.injEq] at h
      rw [← h]
      exact ⟨rfl, rfl, rfl⟩

/-- C16: on a list whose flag is false (also one built without comparison
function, one that `twl_list_insert` returned, one marked by
`twl_mark_the_list_unsorted`) `twl_list_insert_sorted` stops on its entry
assertion and returns no list.  On a list whose flag is true the entry
assertion passes: an empty list takes the element and the call returns, and
when a call fails an assertion it is an assertion of the closing
`list_debug_validate`, on the list that already holds the new element. -/
theorem twl_list_insert_sorted_needs_flag {α : Type} (L : twl_list_t α) (e : Option α) :
    (L.ll_is_sorted = false → twl_list_insert_sorted L e = .error .assertion) ∧
    twl_list_insert_sorted (twl_list_construct none) e = .error .assertion ∧
    (∀ (L0 : twl_list_t α) (e0 : Option α) (i : Int), twl_list_insert L0 e0 i = .ok L →
      twl_list_insert_sorted L e = .error .assertion) ∧
    twl_list_insert_sorted (twl_mark_the_list_unsorted L) e = .error .assertion ∧
    (L.ll_is_sorted = true → L.ll_count = 0 →
      twl_list_insert_sorted L e = .ok { L with nodes := [e], ll_count := L.ll_count + 1 }) ∧
    (L.ll_is_sorted = true → twl_list_insert_sorted L e = .error .assertion →
      ∃ comp, L.ll_comp_function = some comp ∧ L.nodes ≠ [] ∧
        list_debug_validate { L with nodes := sorted_place comp e L.nodes,
                                     ll_count := L.ll_count + 1 } = .error .assertion) := by
  refine ⟨insert_sorted_unsorted_flag L e, insert_sorted_unsorted_flag _ e rfl, ?_,
    insert_sorted_unsorted_flag _ e rfl, ?_, ?_⟩
  · intro L0 e0 i h
    exact insert_sorted_unsorted_flag L e (insert_flag_and_comp L0 L e0 i h).1
  · intro hs h0
    simp [twl_list_insert_sorted, hs, h0]
  · intro hs hfail
    unfold twl_list_insert_sorted at hfail
    rw [if_neg (by simp [hs])] at hfail
    by_cases h0 : L.ll_count = 0
    · rw [if_pos h0] at hfail
      simp at hfail
    · rw [if_neg h0] at hfail
      cases hn : L.nodes with
      | nil => rw [hn] at hfail; simp at hfail
      | cons a t =>
        cases hcomp : L.ll_comp_function with
        | none => rw [hn, hcomp] at hfail; simp at hfail
        | some comp =>
          rw [hn, hcomp] at hfail
          simp only at hfail
          refine ⟨comp, rfl, by simp, ?_⟩
          cases hv : list_debug_validate
              (⟨sorted_place comp e (a :: t), L.ll_count + 1, L.ll_is_sorted, some comp⟩ :
                twl_list_t α) with
          | ok u => rw [hv] at hfail; simp at hfail
          | error f =>
            rw [hv] at hfail
            simp only [Except.error.injEq] at hfail
            rw [hfail]

theorem insert_returns {α : Type} (L : twl_list_t α) (e : α) (i : Int) (hwf : well_formed L)
    (hidx : 0 ≤ i ∨ i = TWL_LIST_FRONT ∨ i = TWL_LIST_BACK) :
    ∃ L1, twl_list_insert L (some e) i = .ok L1 ∧ well_formed L1 := by
  obtain ⟨xs, cnt, s, c⟩ := L
  obtain ⟨hcount, hdata⟩ := hwf
  simp only at hcount hdata
  subst hcount
  obtain ⟨h1, h2, h3⟩ := insert_chain_spec xs s c (some e) i
  have key : ∀ chain : List (Option α),
      insert_chain ⟨xs, xs.length, s, c⟩ (some e) i = .ok chain →
      chain.length = xs.length + 1 → (∀ x ∈ chain, x ≠ none) →
      ∃ L1, twl_list_insert ⟨xs, xs.length, s, c⟩ (some e) i = .ok L1 ∧ well_formed L1 := by
    intro chain hc hlen hall
    refine ⟨_, insert_of_chain _ (some e) i chain hc (by simp [hlen]) hall, ⟨?_, hall⟩⟩
    simp [hlen]
  by_cases hr : 0 ≤ i ∧ i ≤ xs.length
  · refine key _ (h1 hr.1 hr.2) (by simp; omega) ?_
    intro x hx
    simp only [List.mem_append, List.mem_cons] at hx
    rcases hx with hx | hx | hx
    · exact hdata x (List.mem_of_mem_take hx)
    · simp [hx]
    · exact hdata x (List.mem_of_mem_drop hx)
  · by_cases hF : i = TWL_LIST_FRONT
    · refine key _ (h2 hF) (by simp) ?_
      intro x hx
      rcases List.mem_cons.mp hx with hx | hx
      · simp [hx]
      · exact hdata x hx
    · have hB : i = TWL_LIST_BACK ∨ (xs.length : Int) < i := by
        rcases hidx with h | h | h
        · exact Or.inr (by omega)
        · exact absurd h hF
        · exact Or.inl h
      refine key _ (h3 hB) (by simp) ?_
      intro x hx
      rcases List.mem_append.mp hx with hx | hx
      · exact hdata x hx
      · simp only [List.mem_singleton] at hx
        simp [hx]

/-- C17: every `twl_list_insert` that returns leaves the flag false and the
comparison function as it was, wherever the element went; on a list of
non-NULL elements the call returns for every non-NULL element and every
index that is an ordinal `>= 0` or a sentinel. -/
theorem twl_list_insert_marks_unsorted {α : Type} (L : twl_list_t α) (i : Int) :
    (∀ (e : Option α) (L1 : twl_list_t α), twl_list_insert L e i = .ok L1 →
      L1.ll_is_sorted = false ∧ L1.ll_comp_function = L.ll_comp_function) ∧
    (∀ e : α, well_formed L → (0 ≤ i ∨ i = TWL_LIST_FRONT ∨ i = TWL_LIST_BACK) →
      ∃ L1, twl_list_insert L (some e) i = .ok L1 ∧ L1.ll_is_sorted = false ∧
        L1.ll_comp_function = L.ll_comp_function) := by
  refine ⟨fun e L1 h => ⟨(insert_flag_and_comp L L1 e i h).1, (insert_flag_and_comp L L1 e i h).2.1⟩,
    fun e hwf hidx => ?_⟩
  obtain ⟨L1, h1, _⟩ := insert_returns L e i hwf hidx
  exact ⟨L1, h1, (insert_flag_and_comp L L1 (some e) i h1).1,
    (insert_flag_and_comp L L1 (some e) i h1).2.1⟩

/-- C17 at the sorted list `[(5,0), (3,1)]`: the element `(4,2)` put at index
1 keeps the list in order under `numeric_desc`, and the flag is false
afterwards. -/
theorem twl_list_insert_marks_unsorted_witness :
    ∃ L1, twl_list_insert leader_pair (some (4, 2)) 1 = .ok L1 ∧
      L1.nodes = [some (5, 0), some (4, 2), some (3, 1)] ∧
      sorted_walk numeric_desc L1.nodes = true ∧ leader_pair.ll_is_sorted = true ∧
      L1.ll_is_sorted = false ∧ L1.ll_comp_function = leader_pair.ll_comp_function :=
  ⟨_, rfl, rfl, rfl, rfl,
    ((twl_list_insert_marks_unsorted leader_pair 1).1 (some (4, 2)) _ rfl).1,
    ((twl_list_insert_marks_unsorted leader_pair 1).1 (some (4, 2)) _ rfl).2⟩

/-- C18: on a list of two or more elements, for every comparison function,
`RecursiveSelectionSort` and `IterativeSelectionSort` both return, with the
same rearrangement of the chain, and `twl_list_sort` with selector 2 and with
selector 3 have the same outcome: the same list. -/
theorem twl_list_sort_selection_sorts_agree {α : Type} (L : twl_list_t α)
    (comp : Option α → Option α → Int) (hcount : L.ll_count = L.nodes.length)
    (h2 : 2 ≤ L.nodes.length) :
    (∃ out, RecursiveSelectionSort (some comp) (back_node L) (L.nodes.length + 1) L.nodes
          (front_node L) = .ok out ∧
        IterativeSelectionSort (some comp) (back_node L) (L.nodes.length + 1) L.nodes
          (front_node L) = .ok out ∧ out.Perm L.nodes) ∧
      twl_list_sort L 2 (some comp) = twl_list_sort L 3 (some comp) := by
  obtain ⟨xs, cnt, s, c⟩ := L
  simp only at hcount h2
  subst hcount
  have hne : xs.isEmpty = false := by
    cases xs with
    | nil => simp at h2
    | cons _ _ => rfl
  have hgt : ¬ ((xs.length : Int) ≤ 1) := by omega
  have heq := IterativeSelectionSort_eq_Recursive comp xs.length (xs.length + 1) xs 0 rfl
    (by omega) (by omega)
  obtain ⟨out, hout, _, hperm, _⟩ :=
    RecursiveSelectionSort_spec comp xs.length (xs.length + 1) xs 0 rfl (by omega) (by omega)
  constructor
  · refine ⟨out, ?_, ?_, hperm⟩
    · simpa [front_node, back_node, hne] using hout
    · rw [← heq] at hout
      simpa [front_node, back_node, hne] using hout
  · unfold twl_list_sort
    simp only [size_eq, bind, Except.bind, pure, Except.pure, hgt, if_false, front_node,
      back_node, hne, Bool.false_eq_true, if_true, (by decide : ¬ ((2 : Int) = 1)),
      (by decide : ¬ ((3 : Int) = 1)), (by decide : ¬ ((3 : Int) = 2)), heq]

/-- Merging an ordered left chain with a right chain keeps, for every rank,
the elements of that rank in the order left chain first, right chain
second. -/
theorem merge_filter_rank {β : Type} (comp : β → β → Int)
    (hanti : ∀ a b, comp a b = -comp b a)
    (htrans : ∀ a b c, 0 ≤ comp a b → 0 ≤ comp b c → 0 ≤ comp a c)
    (x : β) (l r : List β) (hl : l.Pairwise (fun a b => 0 ≤ comp a b)) :
    (List.merge l r (fun a b => decide (0 ≤ comp a b))).filter
        (fun y => decide (comp y x = 0)) =
      l.filter (fun y => decide (comp y x = 0)) ++
        r.filter (fun y => decide (comp y x = 0)) := by
  induction l generalizing r with
  | nil => simp [List.merge]
  | cons a l1 ihl =>
    induction r with
    | nil => simp [List.merge]
    | cons b r1 ihr =>
      rw [List.merge]
      by_cases hab : 0 ≤ comp a b
      · simp only [hab, decide_True, if_true]
        rw [List.filter_cons, ihl (b :: r1) (List.pairwise_cons.mp hl).2, List.filter_cons]
        by_cases hpa : comp a x = 0
        · simp [hpa]
        · simp [hpa]
      · simp only [hab, decide_False, Bool.false_eq_true, if_false]
        rw [List.filter_cons, ihr]
        by_cases hpb : comp b x = 0
        · -- no element of the left chain has the rank of `b`
          have hnone : (a :: l1).filter (fun y => decide (comp y x = 0)) = [] := by
            rw [List.filter_eq_nil_iff]
            intro y hy hyx
            simp only [decide_eq_true_eq] at hyx
            have hay : 0 ≤ comp a y := by
              rcases List.mem_cons.mp hy with h | h
              · rw [h]
                have := hanti a a
                omega
              · exact (List.pairwise_cons.mp hl).1 y h
            have hxb : comp x b = 0 := by
              have := hanti x b
              omega
            have hyb : comp y b = 0 := rank_eq_trans comp hanti htrans y x b hyx hxb
            exact hab (htrans a y b hay (by omega))
          rw [hnone]
          simp [hpb]
        · simp [hpb]

/-- The merge sort keeps, for every rank, the elements of that rank in the
order they had. -/
theorem merge_sort_chain_filter_rank {α : Type} (comp : Option α → Option α → Int)
    (hanti : ∀ a b, comp a b = -comp b a)
    (htrans : ∀ a b c, 0 ≤ comp a b → 0 ≤ comp b c → 0 ≤ comp a c)
    (x : Option α) (fuel : Nat) (xs : List (Option α)) (hfuel : xs.length < fuel) :
    (merge_sort_chain comp fuel xs).filter (fun y => decide (comp y x = 0)) =
      xs.filter (fun y => decide (comp y x = 0)) := by
  induction fuel generalizing xs with
  | zero => omega
  | succ fuel ih =>
    unfold merge_sort_chain
    split
    · rfl
    · rename_i hle
      have hlt : (xs.take (xs.length / 2)).length < fuel := by
        rw [List.length_take]; omega
      have hld : (xs.drop (xs.length / 2)).length < fuel := by
        rw [List.length_drop]; omega
      rw [merge_filter_rank comp hanti htrans x _ _
        (merge_sort_chain_pairwise comp hanti htrans fuel _ hlt), ih _ hlt, ih _ hld,
        ← List.filter_append, List.take_append_drop]

theorem twl_list_sort_merge_eq {α : Type} (comp : Option α → Option α → Int)
    (xs : List (Option α)) (s : Bool) (c : Option (Option α → Option α → Int))
    (hxs : ∀ x ∈ xs, x ≠ none) (h2 : 2 ≤ xs.length)
    (hanti : ∀ a b, comp a b = -comp b a)
    (htrans : ∀ a b c, 0 ≤ comp a b → 0 ≤ comp b c → 0 ≤ comp a c) :
    twl_list_sort ⟨xs, xs.length, s, c⟩ 4 (some comp) =
      .ok ⟨merge_sort_chain comp (xs.length + 1) xs,
        ((merge_sort_chain comp (xs.length + 1) xs).length : Nat), true, some comp⟩ := by
  have hgt : ¬ ((xs.length : Int) ≤ 1) := by omega
  have hperm := merge_sort_chain_perm comp (xs.length + 1) xs
  have hw := sorted_walk_of_pairwise comp _
    (merge_sort_chain_pairwise comp hanti htrans (xs.length + 1) xs (by omega))
  unfold twl_list_sort
  simp only [size_eq, bind, Except.bind, pure, Except.pure, hgt, if_false, if_true,
    (by decide : ¬ ((4 : Int) = 1)), (by decide : ¬ ((4 : Int) = 2)),
    (by decide : ¬ ((4 : Int) = 3))]
  rw [MergeSort_eq comp (xs.length + 1) xs s (some comp) (by omega) hxs]
  simp only
  rw [validate_sorted _ comp (fun x hx => hxs x (hperm.mem_iff.mp hx)), if_pos hw]

/-- C19: `twl_list_sort` with selector 4 and a transitive, antisymmetric
comparison function is stable: for every rank, the elements of that rank are
in the returned list in the order they had in the list given. -/
theorem twl_list_sort_merge_stable {α : Type} (L : twl_list_t α)
    (comp : Option α → Option α → Int) (hwf : well_formed L)
    (hanti : ∀ a b, comp a b = -comp b a)
    (htrans : ∀ a b c, 0 ≤ comp a b → 0 ≤ comp b c → 0 ≤ comp a c) :
    ∃ L1, twl_list_sort L 4 (some comp) = .ok L1 ∧
      ∀ x : Option α, L1.nodes.filter (fun y => decide (comp y x = 0)) =
        L.nodes.filter (fun y => decide (comp y x = 0)) := by
  by_cases h2 : 2 ≤ L.nodes.length
  · rw [well_formed_eq L hwf]
    refine ⟨_, twl_list_sort_merge_eq comp L.nodes L.ll_is_sorted L.ll_comp_function hwf.2 h2
      hanti htrans, fun x => ?_⟩
    exact merge_sort_chain_filter_rank comp hanti htrans x _ _ (by omega)
  · have h0 : 0 ≤ L.ll_count := by rw [hwf.1]; omega
    have h1 : L.ll_count ≤ 1 := by rw [hwf.1]; omega
    exact ⟨_, twl_list_sort_short L 4 (some comp) h0 h1, fun _ => rfl⟩

/-- C20: on the list `[3, 1, 4, 1, 5]`, not marked sorted, `twl_list_sort`
with selector 4 and the numeric-ascending comparison function returns the
list `[1, 1, 3, 4, 5]` (the two elements `1` in the order they had), with count
5 and the flag true. -/
theorem twl_list_sort_merge_scenario :
    scenario5.nodes.map item_key = [3, 1, 4, 1, 5] ∧ scenario5.ll_is_sorted = false ∧
    (twl_list_sort scenario5 4 (some numeric_asc)).map (fun L => L.nodes) =
      .ok [some (1, 1), some (1, 3), some (3, 0), some (4, 2), some (5, 4)] ∧
    (twl_list_sort scenario5 4 (some numeric_asc)).map (fun L => L.nodes.map item_key) =
      .ok [1, 1, 3, 4, 5] ∧
    (twl_list_sort scenario5 4 (some numeric_asc)).map (fun L => L.ll_count) = .ok 5 ∧
    (twl_list_sort scenario5 4 (some numeric_asc)).map (fun L => L.ll_is_sorted) = .ok true :=
  ⟨rfl, rfl, rfl, rfl, rfl, rfl⟩

theorem numeric_asc_anti (a b : Option (Int × Nat)) :
    numeric_asc a b = -numeric_asc b a := by
  unfold numeric_asc
  split_ifs <;> omega

theorem numeric_asc_trans (a b c : Option (Int × Nat)) (hab : 0 ≤ numeric_asc a b)
    (hbc : 0 ≤ numeric_asc b c) : 0 ≤ numeric_asc a c := by
  unfold numeric_asc at *
  split_ifs at * <;> omega

/-- C11 at a queue of three elements and the index 1. -/
theorem twl_list_insert_remove_round_trip_witness :
    ∃ L1 L2, twl_list_insert queue3 (some (9, 9)) 1 = .ok L1 ∧
      twl_list_remove L1 1 = .ok (some (9, 9), L2) ∧
      L2.nodes = queue3.nodes ∧ L2.ll_count = queue3.ll_count :=
  twl_list_insert_remove_round_trip queue3 (9, 9) 1 ⟨rfl, by decide⟩ (by decide) (by decide)

/-- C12 at a queue of three elements and the index 3, one past the end. -/
theorem twl_list_access_positions_witness :
    twl_list_access queue3 3 = .ok none :=
  (twl_list_access_positions queue3 3 rfl).2.2.2 (Or.inr ⟨by decide, by decide, Or.inr (by decide)⟩)

/-- C13 at a queue of three elements, searched for the rank of `(2, 7)`. -/
theorem twl_list_elem_find_first_match_witness :
    ∃ p d, twl_list_elem_find_position queue3 (some (2, 7)) (some numeric_desc) = .ok p ∧
      twl_list_elem_find_data_ptr queue3 (some (2, 7)) (some numeric_desc) = .ok d ∧
      (d = none ↔ p = -1) ∧
      ((p = -1 ∧ ∀ x ∈ queue3.nodes, numeric_desc x (some (2, 7)) ≠ 0) ∨
        (∃ k : Nat, p = k ∧ queue3.nodes[k]? = some d ∧ numeric_desc d (some (2, 7)) = 0 ∧
          (∀ (j : Nat) (x : Option (Int × Nat)), j < k → queue3.nodes[j]? = some x →
            numeric_desc x (some (2, 7)) ≠ 0) ∧
          twl_list_access queue3 p = .ok d)) :=
  twl_list_elem_find_first_match queue3 (some (2, 7)) numeric_desc ⟨rfl, by decide⟩

/-- C14 at three calls on a list built without comparison function: an
insertion at the back, one at an index past the end, a removal at the
front. -/
theorem twl_list_count_is_node_count_witness :
    ∃ L : twl_list_t (Int × Nat),
      do_calls (twl_list_construct none)
        ([list_call.insert (1, 0) TWL_LIST_BACK, list_call.insert (2, 1) 999,
          list_call.remove TWL_LIST_FRONT].take 3) = .ok L ∧
      L.ll_count = L.nodes.length ∧ list_debug_validate L = .ok () :=
  twl_list_count_is_node_count none
    [list_call.insert (1, 0) TWL_LIST_BACK, list_call.insert (2, 1) 999,
      list_call.remove TWL_LIST_FRONT]
    (by
      intro call hcall
      simp only [List.mem_cons, List.mem_singleton, List.not_mem_nil, or_false] at hcall
      rcases hcall with h | h | h <;> rw [h] <;> simp [call_index_ok, TWL_LIST_FRONT])
    3

/-- C15 at a queue of three elements. -/
theorem twl_list_empty_iff_witness :
    (twl_list_size queue3 = .ok 0 ↔ twl_list_access queue3 TWL_LIST_FRONT = .ok none) ∧
    (twl_list_size queue3 = .ok 0 ↔
      ∀ i : Int, ∃ L1, twl_list_remove queue3 i = .ok (none, L1)) :=
  twl_list_empty_iff queue3 ⟨rfl, by decide⟩

/-- C18 at a queue of three elements, two of them of equal rank. -/
theorem twl_list_sort_selection_sorts_agree_witness :
    (∃ out, RecursiveSelectionSort (some numeric_desc) (back_node tie_triple)
          (tie_triple.nodes.length + 1) tie_triple.nodes (front_node tie_triple) = .ok out ∧
        IterativeSelectionSort (some numeric_desc) (back_node tie_triple)
          (tie_triple.nodes.length + 1) tie_triple.nodes (front_node tie_triple) = .ok out ∧
        out.Perm tie_triple.nodes) ∧
      twl_list_sort tie_triple 2 (some numeric_desc) =
        twl_list_sort tie_triple 3 (some numeric_desc) :=
  twl_list_sort_selection_sorts_agree tie_triple numeric_desc rfl (by decide)

/-- C19 at a queue of three elements, two of them of equal rank. -/
theorem twl_list_sort_merge_stable_witness :
    ∃ L1, twl_list_sort tie_triple 4 (some numeric_desc) = .ok L1 ∧
      ∀ x : Option (Int × Nat), L1.nodes.filter (fun y => decide (numeric_desc y x = 0)) =
        tie_triple.nodes.filter (fun y => decide (numeric_desc y x = 0)) :=
  twl_list_sort_merge_stable tie_triple numeric_desc ⟨rfl, by decide⟩ numeric_desc_anti
    numeric_desc_trans

/-- C16 at a queue, whose flag is false, and at a sorted list of two
elements, where the call returns. -/
theorem twl_list_insert_sorted_needs_flag_witness :
    twl_list_insert_sorted queue3 (some (9, 9)) = .error .assertion ∧
    (twl_list_insert_sorted leader_pair (some (4, 2))).map (fun L => L.nodes) =
      .ok [some (5, 0), some (4, 2), some (3, 1)] :=
  ⟨(twl_list_insert_sorted_needs_flag queue3 (some (9, 9))).1 rfl, rfl⟩

/-- C21: from the empty list built with the numeric-descending comparison
function, `twl_list_insert_sorted` of 5, then 3, then 5 gives the value
sequences `[5]`, `[5, 3]`, `[5, 5, 3]`, with counts 1, 2, 3 and the flag true
from the start and after each call.  The last line shows which of the two
elements 5 is in front: the one inserted last. -/
theorem twl_list_insert_sorted_scenario :
    (twl_list_construct (some numeric_desc)).nodes = [] ∧
    (twl_list_construct (some numeric_desc)).ll_is_sorted = true ∧
    (insert_sorted_all (twl_list_construct (some numeric_desc)) [some (5, 0)]).map
        (fun L => (L.nodes.map item_key, L.ll_count, L.ll_is_sorted)) = .ok ([5], 1, true) ∧
    (insert_sorted_all (twl_list_construct (some numeric_desc)) [some (5, 0), some (3, 1)]).map
        (fun L => (L.nodes.map item_key, L.ll_count, L.ll_is_sorted)) = .ok ([5, 3], 2, true) ∧
    (insert_sorted_all (twl_list_construct (some numeric_desc))
        [some (5, 0), some (3, 1), some (5, 2)]).map
        (fun L => (L.nodes.map item_key, L.ll_count, L.ll_is_sorted)) =
      .ok ([5, 5, 3], 3, true) ∧
    (insert_sorted_all (twl_list_construct (some numeric_desc))
        [some (5, 0), some (3, 1), some (5, 2)]).map (fun L => L.nodes) =
      .ok [some (5, 2), some (5, 0), some (3, 1)] :=
  ⟨rfl, rfl, rfl, rfl, rfl, rfl⟩

/-- C22: on a list of one element `twl_list_remove` with `TWL_LIST_BACK`,
with `TWL_LIST_FRONT` and with 0 returns that element and leaves the list
with count 0 and no node, so neither a front nor a back node. -/
theorem twl_list_remove_sole_element {α : Type} (L : twl_list_t α) (e : α) (i : Int)
    (hnodes : L.nodes = [some e]) (hcount : L.ll_count = 1)
    (hi : i = TWL_LIST_BACK ∨ i = TWL_LIST_FRONT ∨ i = 0) :
    ∃ L1, twl_list_remove L i = .ok (some e, L1) ∧ L1.ll_count = 0 ∧ L1.nodes = [] ∧
      front_node L1 = none ∧ back_node L1 = none := by
  obtain ⟨xs, cnt, s, c⟩ := L
  simp only at hnodes hcount
  subst hnodes hcount
  have h := remove_at [some e] s c (by simp) i 0 (by simp)
    (by
      rcases hi with h | h | h
      · exact Or.inr (Or.inr ⟨h, rfl⟩)
      · exact Or.inr (Or.inl ⟨h, rfl⟩)
      · exact Or.inl (by simpa using h))
  refine ⟨⟨[], 0, s, c⟩, ?_, rfl, rfl, rfl, rfl⟩
  simpa using h

/-- C22 at a list of one element and `TWL_LIST_BACK`. -/
theorem twl_list_remove_sole_element_witness :
    ∃ L1, twl_list_remove (⟨[some (7, 0)], 1, false, none⟩ : twl_list_t (Int × Nat))
        TWL_LIST_BACK = .ok (some (7, 0), L1) ∧ L1.ll_count = 0 ∧ L1.nodes = [] ∧
      front_node L1 = none ∧ back_node L1 = none :=
  twl_list_remove_sole_element _ (7, 0) TWL_LIST_BACK rfl rfl (Or.inl rfl)

/-- C23: `twl_list_construct` returns a list with count 0 and no node (no
front, no back), holding the comparison function given, with the flag true
exactly when that function is not NULL. -/
theorem twl_list_construct_empty {α : Type}
    (compare_function : Option (Option α → Option α → Int)) :
    (twl_list_construct compare_function).ll_count = 0 ∧
    (twl_list_construct compare_function).nodes = [] ∧
    front_node (twl_list_construct compare_function) = none ∧
    back_node (twl_list_construct compare_function) = none ∧
    (twl_list_construct compare_function).ll_comp_function = compare_function ∧
    ((twl_list_construct compare_function).ll_is_sorted = true ↔ compare_function ≠ none) ∧
    list_debug_validate (twl_list_construct compare_function) = .ok () := by
  refine ⟨rfl, rfl, rfl, rfl, rfl, ?_, ?_⟩
  · cases compare_function <;> simp [twl_list_construct]
  · simp [list_debug_validate, links_and_count_ok, twl_list_construct]

/-- Where `sorted_place` puts the element: behind the nodes the scan passes,
which all have `comp(elem, node) < 0`, and before the node the scan stops on,
which has `comp(elem, node) >= 0`. -/
theorem sorted_place_split {α : Type} (comp : Option α → Option α → Int) (e : Option α)
    (xs : List (Option α)) :
    ∃ pre post, xs = pre ++ post ∧ sorted_place comp e xs = pre ++ e :: post ∧
      (∀ p ∈ pre, comp e p < 0) ∧ (∀ c, post.head? = some c → 0 ≤ comp e c) := by
  induction xs with
  | nil => exact ⟨[], [], rfl, rfl, by simp, by simp⟩
  | cons a t ih =>
    by_cases ha : comp e a < 0
    · obtain ⟨pre, post, hsplit, hplace, hpre, hpost⟩ := ih
      refine ⟨a :: pre, post, by rw [hsplit]; rfl, ?_, ?_, hpost⟩
      · simp [sorted_place, ha, hplace]
      · intro p hp
        rcases List.mem_cons.mp hp with h | h
        · rw [h]; exact ha
        · exact hpre p h
    · refine ⟨[], a :: t, rfl, ?_, by simp, ?_⟩
      · simp [sorted_place, ha]
      · intro c hc
        simp only [List.head?_cons, Option.some.injEq] at hc
        rw [← hc]
        omega

/-- C24: on a non-empty list marked sorted, `twl_list_insert_sorted` links
the element immediately before the first element `c` (from the front) with
`comp(e, c) >= 0`, behind all elements when there is none; the other elements
keep their order, the count grows by one and the flag stays true.  The call
returns that list unless the closing `list_debug_validate` finds it out of
order, and it does return on a list in order under an antisymmetric
comparison function. -/
theorem twl_list_insert_sorted_placement {α : Type} (L : twl_list_t α)
    (comp : Option α → Option α → Int) (e : α) (hwf : well_formed L)
    (hflag : L.ll_is_sorted = true) (hcomp : L.ll_comp_function = some comp)
    (hne : L.nodes ≠ []) :
    ∃ pre post, L.nodes = pre ++ post ∧ (∀ p ∈ pre, comp (some e) p < 0) ∧
      (∀ c, post.head? = some c → 0 ≤ comp (some e) c) ∧
      (twl_list_insert_sorted L (some e) =
          .ok ⟨pre ++ some e :: post, L.ll_count + 1, true, some comp⟩ ∨
        twl_list_insert_sorted L (some e) = .error .assertion) ∧
      ((∀ a b, comp a b = -comp b a) → List.Chain' (fun a b => comp a b ≠ -1) L.nodes →
        twl_list_insert_sorted L (some e) =
          .ok ⟨pre ++ some e :: post, L.ll_count + 1, true, some comp⟩) := by
  obtain ⟨xs, cnt, s, c⟩ := L
  obtain ⟨hcount, hdata⟩ := hwf
  simp only at hcount hdata hflag hcomp hne
  subst hcount hflag hcomp
  obtain ⟨pre, post, hsplit, hplace, hpre, hpost⟩ := sorted_place_split comp (some e) xs
  have heq := insert_sorted_eq xs comp (some e) (by simp) hdata
  rw [hplace] at heq
  refine ⟨pre, post, hsplit, hpre, hpost, ?_, ?_⟩
  · by_cases hw : sorted_walk comp (pre ++ some e :: post) = true
    · rw [if_pos hw] at heq
      exact Or.inl heq
    · rw [if_neg hw] at heq
      exact Or.inr heq
  · intro hanti hord
    have hch := sorted_place_chain' comp hanti (some e) xs hord
    rw [hplace] at hch
    rw [if_pos ((sorted_walk_iff comp _).mpr hch)] at heq
    exact heq

/-- C24 at the sorted list `[(5,0), (3,1)]` and the element `(4,2)`. -/
theorem twl_list_insert_sorted_placement_witness :
    ∃ pre post, leader_pair.nodes = pre ++ post ∧
      (∀ p ∈ pre, numeric_desc (some (4, 2)) p < 0) ∧
      (∀ c, post.head? = some c → 0 ≤ numeric_desc (some (4, 2)) c) ∧
      (twl_list_insert_sorted leader_pair (some (4, 2)) =
          .ok ⟨pre ++ some (4, 2) :: post, leader_pair.ll_count + 1, true, some numeric_desc⟩ ∨
        twl_list_insert_sorted leader_pair (some (4, 2)) = .error .assertion) ∧
      ((∀ a b, numeric_desc a b = -numeric_desc b a) →
        List.Chain' (fun a b => numeric_desc a b ≠ -1) leader_pair.nodes →
        twl_list_insert_sorted leader_pair (some (4, 2)) =
          .ok ⟨pre ++ some (4, 2) :: post, leader_pair.ll_count + 1, true, some numeric_desc⟩) :=
  twl_list_insert_sorted_placement leader_pair numeric_desc (4, 2) ⟨rfl, by decide⟩ rfl rfl
    (by decide)

theorem insert_sorted_all_eq {α : Type} (comp : Option α → Option α → Int)
    (xs acc : List (Option α)) (hxs : ∀ x ∈ xs, x ≠ none) (hacc : ∀ x ∈ acc, x ≠ none) :
    insert_sorted_all ⟨acc, acc.length, true, some comp⟩ xs =
      if insertion_checks comp acc xs then
        .ok ⟨insertion_chain comp acc xs, ((insertion_chain comp acc xs).length : Nat), true,
          some comp⟩
      else .error .assertion := by
  induction xs generalizing acc with
  | nil => simp [insert_sorted_all, insertion_checks, insertion_chain]
  | cons a t ih =>
    have ha : a ≠ none := hxs a (List.mem_cons_self a t)
    have ht : ∀ x ∈ t, x ≠ none := fun x hx => hxs x (List.mem_cons_of_mem a hx)
    unfold insert_sorted_all
    rw [insert_sorted_eq2 acc comp a ha hacc]
    simp only [insertion_checks, insertion_chain]
    by_cases hw : sorted_walk comp (sorted_place comp a acc) = true
    · simp only [hw, if_true, Bool.true_and]
      exact ih (sorted_place comp a acc) ht (sorted_place_data comp a acc ha hacc)
    · simp [hw]

theorem twl_list_sort_insertion_eq {α : Type} (comp : Option α → Option α → Int)
    (xs : List (Option α)) (s : Bool) (c : Option (Option α → Option α → Int))
    (hxs : ∀ x ∈ xs, x ≠ none) (h2 : 2 ≤ xs.length)
    (hanti : ∀ a b, comp a b = -comp b a)
    (htrans : ∀ a b c, 0 ≤ comp a b → 0 ≤ comp b c → 0 ≤ comp a c) :
    twl_list_sort ⟨xs, xs.length, s, c⟩ 1 (some comp) =
      .ok ⟨insertion_chain comp [] xs, ((insertion_chain comp [] xs).length : Nat), true,
        some comp⟩ := by
  have hgt : ¬ ((xs.length : Int) ≤ 1) := by omega
  have hperm : (insertion_chain comp [] xs).Perm xs := by
    simpa using insertion_chain_perm comp [] xs
  obtain ⟨hchk, hp⟩ := insertion_total comp hanti htrans [] xs List.Pairwise.nil
  have hw := sorted_walk_of_pairwise comp _ hp
  unfold twl_list_sort
  simp only [size_eq, bind, Except.bind, pure, Except.pure, hgt, if_false, if_true]
  rw [construct_eq]
  simp only [Option.isSome_some]
  rw [InsertionSort_eq comp (xs.length + 1) xs [] s (some comp) (by omega) hxs (by simp),
    if_pos hchk]
  dsimp only
  rw [validate_sorted _ comp (fun x hx => hxs x (hperm.mem_iff.mp hx)), if_pos hw]

/-- C25: on a list `[x1, ..., xn]` with `n >= 2` and under a transitive,
antisymmetric comparison function, `twl_list_sort` with selector 1 returns
the list that calling `twl_list_insert_sorted` for `x1`, then `x2`, ...,
then `xn` on a newly constructed list gives; `InsertionSort` leaves the
source list without nodes and with count 0, and the result has count `n`. -/
theorem twl_list_sort_insertion_refines {α : Type} (L : twl_list_t α)
    (comp : Option α → Option α → Int) (hwf : well_formed L) (h2 : 2 ≤ L.nodes.length)
    (hanti : ∀ a b, comp a b = -comp b a)
    (htrans : ∀ a b c, 0 ≤ comp a b → 0 ≤ comp b c → 0 ≤ comp a c) :
    ∃ L1, twl_list_sort L 1 (some comp) = .ok L1 ∧
      insert_sorted_all (twl_list_construct (some comp)) L.nodes = .ok L1 ∧
      L1.ll_count = L.nodes.length ∧
      ∃ src, InsertionSort (L.nodes.length + 1) { L with ll_comp_function := some comp }
          (twl_list_construct (some comp)) = .ok (src, L1) ∧
        src.nodes = [] ∧ src.ll_count = 0 := by
  obtain ⟨xs, cnt, s, c⟩ := L
  obtain ⟨hcount, hdata⟩ := hwf
  simp only at hcount hdata h2
  subst hcount
  have hperm : (insertion_chain comp [] xs).Perm xs := by
    simpa using insertion_chain_perm comp [] xs
  obtain ⟨hchk, _⟩ := insertion_total comp hanti htrans [] xs List.Pairwise.nil
  refine ⟨_, twl_list_sort_insertion_eq comp xs s c hdata h2 hanti htrans, ?_, ?_, ?_⟩
  · rw [construct_eq]
    simp only [Option.isSome_some]
    rw [insert_sorted_all_eq comp xs [] hdata (by simp), if_pos hchk]
  · simp only
    rw [hperm.length_eq]
  · refine ⟨⟨[], (([] : List (Option α)).length : Nat), s, some comp⟩, ?_, rfl, rfl⟩
    rw [construct_eq]
    simp only [Option.isSome_some]
    rw [InsertionSort_eq comp (xs.length + 1) xs [] s (some comp) (by omega) hdata (by simp),
      if_pos hchk]

/-- C25 at a queue of three elements. -/
theorem twl_list_sort_insertion_refines_witness :
    ∃ L1, twl_list_sort queue3 1 (some numeric_desc) = .ok L1 ∧
      insert_sorted_all (twl_list_construct (some numeric_desc)) queue3.nodes = .ok L1 ∧
      L1.ll_count = queue3.nodes.length ∧
      ∃ src, InsertionSort (queue3.nodes.length + 1)
          { queue3 with ll_comp_function := some numeric_desc }
          (twl_list_construct (some numeric_desc)) = .ok (src, L1) ∧
        src.nodes = [] ∧ src.ll_count = 0 :=
  twl_list_sort_insertion_refines queue3 numeric_desc ⟨rfl, by decide⟩ (by decide)
    numeric_desc_anti numeric_desc_trans

/-- The scan of `FindMax` over a range `s..e` that ends before the back of the
list: it returns a node of the range that ranks at least as high as every node
of the range and strictly higher than every node of the range in front of it. -/
theorem FindMax_loop_range {α : Type} (nodes : List (Option α))
    (comp : Option α → Option α → Int)
    (hanti : ∀ a b, comp a b = -comp b a)
    (htrans : ∀ a b c, 0 ≤ comp a b → 0 ≤ comp b c → 0 ≤ comp a c)
    (s e : Nat) (he : e < nodes.length) (fuel i j : Nat) (hsj : s ≤ j) (hji : j ≤ i)
    (hie : i < e) (hfuel : e - i ≤ fuel)
    (hinv : ∀ k, s ≤ k → k ≤ i → 0 ≤ comp (node_data nodes j) (node_data nodes k))
    (hfirst : ∀ k, s ≤ k → k < j → 0 < comp (node_data nodes j) (node_data nodes k)) :
    ∃ m, FindMax_loop nodes (some e) (some comp) fuel i j = .ok m ∧ s ≤ m ∧ m ≤ e ∧
      (∀ k, s ≤ k → k ≤ e → 0 ≤ comp (node_data nodes m) (node_data nodes k)) ∧
      (∀ k, s ≤ k → k < m → 0 < comp (node_data nodes m) (node_data nodes k)) := by
  induction fuel generalizing i j with
  | zero => omega
  | succ fuel ih =>
    unfold FindMax_loop
    rw [node_next_lt nodes i (by omega)]
    simp only
    have hstep : ∀ k, s ≤ k → k ≤ i + 1 →
        0 ≤ comp (node_data nodes (if comp (node_data nodes (i + 1)) (node_data nodes j) > 0
          then i + 1 else j)) (node_data nodes k) := by
      intro k hsk hk
      split
      · rename_i hgt
        by_cases hk1 : k = i + 1
        · rw [hk1]
          have := hanti (node_data nodes (i + 1)) (node_data nodes (i + 1))
          omega
        · exact htrans _ _ _ (by omega) (hinv k hsk (by omega))
      · rename_i hgt
        by_cases hk1 : k = i + 1
        · rw [hk1]
          have := hanti (node_data nodes (i + 1)) (node_data nodes j)
          omega
        · exact hinv k hsk (by omega)
    have hstep2 : ∀ k, s ≤ k →
        k < (if comp (node_data nodes (i + 1)) (node_data nodes j) > 0 then i + 1 else j) →
        0 < comp (node_data nodes (if comp (node_data nodes (i + 1)) (node_data nodes j) > 0
          then i + 1 else j)) (node_data nodes k) := by
      intro k hsk
      split
      · rename_i hgt
        intro hk
        by_contra hle
        have h1 : 0 ≤ comp (node_data nodes k) (node_data nodes (i + 1)) := by
          have := hanti (node_data nodes k) (node_data nodes (i + 1))
          omega
        have h2 := htrans _ _ _ (hinv k hsk (by omega)) h1
        have := hanti (node_data nodes (i + 1)) (node_data nodes j)
        omega
      · intro hk
        exact hfirst k hsk hk
    have hrange : s ≤ (if comp (node_data nodes (i + 1)) (node_data nodes j) > 0
          then i + 1 else j) ∧
        (if comp (node_data nodes (i + 1)) (node_data nodes j) > 0 then i + 1 else j) ≤ i + 1 := by
      split <;> omega
    by_cases hend : i + 1 = e
    · rw [if_neg (by simp [hend])]
      refine ⟨_, rfl, hrange.1, by omega, ?_, hstep2⟩
      intro k hsk hk
      exact hstep k hsk (by omega)
    · rw [if_pos (by simpa using hend)]
      exact ih (i + 1) _ hrange.1 hrange.2 (by omega) (by omega) hstep hstep2

/-- C26: for a range `start..end` of the nodes of a list with `start` strictly
before `end`, and a transitive, antisymmetric comparison function, `FindMax`
returns a node `m` of the range; no node `k` of the range has
`comp (k, m) > 0`, and every node of the range that ranks equal to `m` is at
`m` or behind it. -/
theorem FindMax_first_maximum {α : Type} (nodes : List (Option α))
    (comp : Option α → Option α → Int) (s e : Nat) (hse : s < e) (he : e < nodes.length)
    (hanti : ∀ a b, comp a b = -comp b a)
    (htrans : ∀ a b c, 0 ≤ comp a b → 0 ≤ comp b c → 0 ≤ comp a c) :
    ∃ m, FindMax nodes (some s) (some e) (some comp) = .ok m ∧ s ≤ m ∧ m ≤ e ∧
      (∀ k, s ≤ k → k ≤ e → ¬ (comp (node_data nodes k) (node_data nodes m) > 0)) ∧
      (∀ k, s ≤ k → k ≤ e → comp (node_data nodes k) (node_data nodes m) = 0 → m ≤ k) := by
  obtain ⟨m, hm, hsm, hme, hmax, hfirst⟩ :=
    FindMax_loop_range nodes comp hanti htrans s e he (nodes.length + 1) s s (le_refl s)
      (le_refl s) hse (by omega)
      (by
        intro k hsk hks
        have hk : k = s := by omega
        rw [hk]
        have := hanti (node_data nodes s) (node_data nodes s)
        omega)
      (by intro k hsk hks; omega)
  refine ⟨m, hm, hsm, hme, ?_, ?_⟩
  · intro k hsk hke
    have := hmax k hsk hke
    have := hanti (node_data nodes k) (node_data nodes m)
    omega
  · intro k hsk hke h0
    by_contra hlt
    have := hfirst k hsk (by omega)
    have := hanti (node_data nodes k) (node_data nodes m)
    omega

/-- C26 on the range 1..3 of the list `[3, 1, 4, 1, 5]` under the ascending
comparison function, where the two elements `1` of the range rank equal and
highest. -/
theorem FindMax_first_maximum_witness :
    ∃ m, FindMax scenario5.nodes (some 1) (some 3) (some numeric_asc) = .ok m ∧ 1 ≤ m ∧ m ≤ 3 ∧
      (∀ k, 1 ≤ k → k ≤ 3 →
        ¬ (numeric_asc (node_data scenario5.nodes k) (node_data scenario5.nodes m) > 0)) ∧
      (∀ k, 1 ≤ k → k ≤ 3 →
        numeric_asc (node_data scenario5.nodes k) (node_data scenario5.nodes m) = 0 → m ≤ k) :=
  FindMax_first_maximum scenario5.nodes numeric_asc 1 3 (by decide) (by decide)
    numeric_asc_anti numeric_asc_trans

/-- C27: on a list of at least two elements a selector outside 1..4 runs no
algorithm, and `twl_list_sort` still sets the flag and calls
`list_debug_validate`: the call returns the elements as they were, marked
sorted, when the adjacent pairs are in order, and stops on the failed order
assertion of `list_debug_validate` when some adjacent pair is not. -/
theorem twl_list_sort_invalid_selector_fatal {α : Type} (L : twl_list_t α)
    (comp : Option α → Option α → Int) (sel : Int) (hwf : well_formed L)
    (h2 : 2 ≤ L.nodes.length) (hsel : sel < 1 ∨ 4 < sel) :
    (List.Chain' (fun a b => comp a b ≠ -1) L.nodes →
      twl_list_sort L sel (some comp) = .ok ⟨L.nodes, L.ll_count, true, some comp⟩) ∧
    (¬ List.Chain' (fun a b => comp a b ≠ -1) L.nodes →
      twl_list_sort L sel (some comp) = .error .assertion) := by
  obtain ⟨xs, cnt, s, c⟩ := L
  obtain ⟨hcount, hxs⟩ := hwf
  simp only at hcount hxs h2
  subst hcount
  have hgt : ¬ ((xs.length : Int) ≤ 1) := by omega
  have h1 : ¬ sel = 1 := by omega
  have h2s : ¬ sel = 2 := by omega
  have h3 : ¬ sel = 3 := by omega
  have h4 : ¬ sel = 4 := by omega
  have heq : twl_list_sort ⟨xs, xs.length, s, c⟩ sel (some comp) =
      if sorted_walk comp xs then .ok ⟨xs, xs.length, true, some comp⟩
      else .error .assertion := by
    unfold twl_list_sort
    simp only [size_eq, bind, Except.bind, pure, Except.pure, hgt, if_false, h1, h2s, h3, h4]
    rw [validate_sorted xs comp hxs]
    by_cases hw : sorted_walk comp xs = true
    · rw [if_pos hw, if_pos hw]
    · rw [if_neg hw, if_neg hw]
  constructor
  · intro hord
    rw [heq, if_pos ((sorted_walk_iff comp xs).mpr hord)]
  · intro hord
    rw [heq, if_neg (fun hw => hord ((sorted_walk_iff comp xs).mp hw))]

/-- C27 on the queue `[1, 2, 3]`, out of order under the descending comparison
function, with selector 0: the call stops on the failed assertion. -/
theorem twl_list_sort_invalid_selector_fatal_witness :
    twl_list_sort queue3 0 (some numeric_desc) = .error .assertion :=
  (twl_list_sort_invalid_selector_fatal queue3 numeric_desc 0 ⟨rfl, by decide⟩ (by decide)
    (by decide)).2
    (fun h => absurd ((sorted_walk_iff numeric_desc queue3.nodes).mpr h) (by decide))

/-- C28: on a list with at least one element, `twl_list_insert` with a
negative index that is neither `TWL_LIST_FRONT` nor `TWL_LIST_BACK` links the
new node before the front node without moving `ll_front`, and the closing
`list_debug_validate` stops on `assert(L->ll_front->prev == NULL)`. -/
theorem twl_list_insert_negative_index_fatal {α : Type} (L : twl_list_t α) (e : Option α)
    (i : Int) (hwf : well_formed L) (hne : L.nodes ≠ []) (hneg : i < 0)
    (hF : i ≠ TWL_LIST_FRONT) (hB : i ≠ TWL_LIST_BACK) :
    twl_list_insert L e i = .error .assertion := by
  obtain ⟨xs, cnt, s, c⟩ := L
  obtain ⟨hcount, hxs⟩ := hwf
  simp only at hcount hxs hne
  subst hcount
  cases xs with
  | nil => exact absurd rfl hne
  | cons a t =>
    have h0 : ¬ (((a :: t).length : Int) = 0) := by simp; omega
    have hi0 : ¬ (i = TWL_LIST_FRONT ∨ i = 0) := by
      rintro (h | h)
      · exact hF h
      · omega
    have hib : ¬ (i = TWL_LIST_BACK ∨ i ≥ ((a :: t).length : Int)) := by
      rintro (h | h)
      · exact hB h
      · simp at h; omega
    have htn : i.toNat = 0 := by omega
    have hc : insert_chain ⟨a :: t, ((a :: t).length : Nat), s, c⟩ e i = .error .assertion := by
      unfold insert_chain
      rw [if_neg h0, if_neg hi0, if_neg hib, htn]
      simp only [walk_to]
      rw [if_pos hneg]
    unfold twl_list_insert
    rw [hc]

/-- C28 on the queue `[1, 2, 3]` with index -5. -/
theorem twl_list_insert_negative_index_fatal_witness :
    twl_list_insert queue3 (some (9, 9)) (-5) = .error .assertion :=
  twl_list_insert_negative_index_fatal queue3 (some (9, 9)) (-5) ⟨rfl, by decide⟩ (by decide)
    (by decide) (by decide) (by decide)

/-- C29: on a list of `n >= 2` elements `MergeSort` runs on a left list
with the first `n / 2` elements and on a right list with the other
`n - n / 2` elements, each in the original order, which its two filling
loops leave together with an empty source; both lists have between 1 and
`n - 1` elements.  The two calls on them return, and `MergeSort` on the list
returns the merge of their two results (left element first when
`fcomp(left, right) >= 0`), with the count of the list. -/
theorem MergeSort_split_and_returns {α : Type} (L : twl_list_t α)
    (comp : Option α → Option α → Int) (hwf : well_formed L) (h2 : 2 ≤ L.nodes.length) :
    ∃ list1 LeftList list2 RightList,
      move_n (L.ll_count / 2).toNat L (twl_list_construct (some comp)) = .ok (list1, LeftList) ∧
      move_all (list1.nodes.length + 1) list1 (twl_list_construct (some comp)) =
        .ok (list2, RightList) ∧
      LeftList.nodes = L.nodes.take (L.nodes.length / 2) ∧
      RightList.nodes = L.nodes.drop (L.nodes.length / 2) ∧
      list2.nodes = [] ∧
      LeftList.ll_count = ((L.nodes.length / 2 : Nat) : Int) ∧
      RightList.ll_count = ((L.nodes.length - L.nodes.length / 2 : Nat) : Int) ∧
      1 ≤ LeftList.nodes.length ∧ LeftList.nodes.length ≤ L.nodes.length - 1 ∧
      1 ≤ RightList.nodes.length ∧ RightList.nodes.length ≤ L.nodes.length - 1 ∧
      ∀ fuel, L.nodes.length ≤ fuel →
        ∃ LeftSorted RightSorted out,
          MergeSort (some comp) fuel LeftList = .ok LeftSorted ∧
          MergeSort (some comp) fuel RightList = .ok RightSorted ∧
          MergeSort (some comp) (fuel + 1) L = .ok out ∧
          out.nodes =
            List.merge LeftSorted.nodes RightSorted.nodes (fun a b => decide (0 ≤ comp a b)) ∧
          LeftSorted.nodes.Perm LeftList.nodes ∧ RightSorted.nodes.Perm RightList.nodes ∧
          out.nodes.Perm L.nodes ∧ out.ll_count = L.ll_count := by
  obtain ⟨xs, cnt, s, c⟩ := L
  obtain ⟨hcount, hxs⟩ := hwf
  simp only at hcount hxs h2
  subst hcount
  have hmid : ((xs.length : Int) / 2).toNat = xs.length / 2 := by omega
  have hk : xs.length / 2 ≤ xs.length := by omega
  have htake : ∀ x ∈ xs.take (xs.length / 2), x ≠ none :=
    fun x hx => hxs x (List.mem_of_mem_take hx)
  have hdrop : ∀ x ∈ xs.drop (xs.length / 2), x ≠ none :=
    fun x hx => hxs x (List.mem_of_mem_drop hx)
  have h1 := move_n_eq (xs.length / 2) xs [] s true c (some comp) hk hxs (by simp)
  have h2m := move_all_eq ((xs.drop (xs.length / 2)).length + 1) (xs.drop (xs.length / 2)) []
    s true c (some comp) (by omega) hdrop (by simp)
  simp only [List.nil_append] at h1 h2m
  have hdne : (xs.drop (xs.length / 2)).isEmpty = false := by
    cases hd : xs.drop (xs.length / 2) with
    | nil => rw [List.drop_eq_nil_iff] at hd; omega
    | cons _ _ => rfl
  have hkne : decide (xs.length / 2 = 0) = false := by
    rw [decide_eq_false_iff_not]; omega
  rw [hdne] at h2m
  rw [hkne] at h1
  simp only [Bool.and_false] at h1 h2m
  refine ⟨⟨xs.drop (xs.length / 2), ((xs.drop (xs.length / 2)).length : Nat), s, c⟩,
    ⟨xs.take (xs.length / 2), ((xs.take (xs.length / 2)).length : Nat), false, some comp⟩,
    ⟨[], (([] : List (Option α)).length : Nat), s, c⟩,
    ⟨xs.drop (xs.length / 2), ((xs.drop (xs.length / 2)).length : Nat), false, some comp⟩,
    ?_, ?_, rfl, rfl, rfl, ?_, ?_, ?_, ?_, ?_, ?_, ?_⟩
  · simp only
    rw [hmid, construct_eq]
    simp only [Option.isSome_some]
    exact h1
  · simp only
    rw [construct_eq]
    simp only [Option.isSome_some]
    exact h2m
  · simp only
    rw [List.length_take]
    congr 1
    omega
  · simp only
    rw [List.length_drop]
  · simp only [List.length_take]; omega
  · simp only [List.length_take]; omega
  · simp only [List.length_drop]; omega
  · simp only [List.length_drop]; omega
  · intro fuel hfuel
    simp only at hfuel
    have hL := MergeSort_eq comp fuel (xs.take (xs.length / 2)) false (some comp)
      (by rw [List.length_take]; omega) htake
    have hR := MergeSort_eq comp fuel (xs.drop (xs.length / 2)) false (some comp)
      (by rw [List.length_drop]; omega) hdrop
    have hout := MergeSort_eq comp (fuel + 1) xs s c (by omega) hxs
    have hchain : merge_sort_chain comp (fuel + 1) xs =
        List.merge (merge_sort_chain comp fuel (xs.take (xs.length / 2)))
          (merge_sort_chain comp fuel (xs.drop (xs.length / 2)))
          (fun a b => decide (0 ≤ comp a b)) := by
      rw [merge_sort_chain, if_neg (by omega)]
    refine ⟨_, _, _, hL, hR, hout, hchain, merge_sort_chain_perm comp fuel _,
      merge_sort_chain_perm comp fuel _, merge_sort_chain_perm comp (fuel + 1) xs, ?_⟩
    simp only
    rw [(merge_sort_chain_perm comp (fuel + 1) xs).length_eq]

/-- C29 on the list `[3, 1, 4, 1, 5]`: the left list has two elements, the
right list three. -/
theorem MergeSort_split_and_returns_witness :
    ∃ list1 LeftList list2 RightList,
      move_n (scenario5.ll_count / 2).toNat scenario5 (twl_list_construct (some numeric_desc)) =
        .ok (list1, LeftList) ∧
      move_all (list1.nodes.length + 1) list1 (twl_list_construct (some numeric_desc)) =
        .ok (list2, RightList) ∧
      LeftList.nodes = scenario5.nodes.take (scenario5.nodes.length / 2) ∧
      RightList.nodes = scenario5.nodes.drop (scenario5.nodes.length / 2) ∧
      list2.nodes = [] ∧
      LeftList.ll_count = ((scenario5.nodes.length / 2 : Nat) : Int) ∧
      RightList.ll_count = ((scenario5.nodes.length - scenario5.nodes.length / 2 : Nat) : Int) ∧
      1 ≤ LeftList.nodes.length ∧ LeftList.nodes.length ≤ scenario5.nodes.length - 1 ∧
      1 ≤ RightList.nodes.length ∧ RightList.nodes.length ≤ scenario5.nodes.length - 1 ∧
      ∀ fuel, scenario5.nodes.length ≤ fuel →
        ∃ LeftSorted RightSorted out,
          MergeSort (some numeric_desc) fuel LeftList = .ok LeftSorted ∧
          MergeSort (some numeric_desc) fuel RightList = .ok RightSorted ∧
          MergeSort (some numeric_desc) (fuel + 1) scenario5 = .ok out ∧
          out.nodes =
            List.merge LeftSorted.nodes RightSorted.nodes
              (fun a b => decide (0 ≤ numeric_desc a b)) ∧
          LeftSorted.nodes.Perm LeftList.nodes ∧ RightSorted.nodes.Perm RightList.nodes ∧
          out.nodes.Perm scenario5.nodes ∧ out.ll_count = scenario5.ll_count :=
  MergeSort_split_and_returns scenario5 numeric_desc ⟨rfl, by decide⟩ (by decide)

/-- Removing a node from a chain whose adjacent pairs are in order under a
transitive comparison function leaves every pair of the chain in order. -/
theorem eraseIdx_pairwise {α : Type} (comp : Option α → Option α → Int)
    (htrans : ∀ a b c, 0 ≤ comp a b → 0 ≤ comp b c → 0 ≤ comp a c)
    (xs : List (Option α)) (p : Nat) (hord : List.Chain' (fun a b => 0 ≤ comp a b) xs) :
    (xs.eraseIdx p).Pairwise (fun a b => 0 ≤ comp a b) := by
  haveI : IsTrans (Option α) (fun a b => 0 ≤ comp a b) := ⟨fun a b c => htrans a b c⟩
  exact (List.chain'_iff_pairwise.mp hord).sublist (List.eraseIdx_sublist xs p)

/-- C30: on a list marked sorted whose adjacent pairs are in order
(`comp(left, right) >= 0`) under its transitive comparison function,
`twl_list_remove` at any index returns a list whose adjacent pairs are still
in order and whose flag is still true, so the order walk of
`list_debug_validate` (`comp(left, right) != -1`) passes on it. -/
theorem twl_list_remove_keeps_order {α : Type} (L : twl_list_t α)
    (comp : Option α → Option α → Int) (i : Int)
    (hwf : well_formed L) (hflag : L.ll_is_sorted = true)
    (hcomp : L.ll_comp_function = some comp)
    (htrans : ∀ a b c, 0 ≤ comp a b → 0 ≤ comp b c → 0 ≤ comp a c)
    (hord : List.Chain' (fun a b => 0 ≤ comp a b) L.nodes) :
    ∃ d L1, twl_list_remove L i = .ok (d, L1) ∧
      List.Chain' (fun a b => 0 ≤ comp a b) L1.nodes ∧
      List.Chain' (fun a b => comp a b ≠ -1) L1.nodes ∧
      L1.ll_is_sorted = true ∧ list_debug_validate L1 = .ok () := by
  obtain ⟨xs, cnt, s, c⟩ := L
  obtain ⟨hcount, hdata⟩ := hwf
  simp only at hcount hdata hflag hcomp hord
  subst hcount hflag hcomp
  have hweak : ∀ ys : List (Option α), ys.Pairwise (fun a b => 0 ≤ comp a b) →
      List.Chain' (fun a b => comp a b ≠ -1) ys := fun ys h =>
    (sorted_walk_iff comp ys).mp (sorted_walk_of_pairwise comp ys h)
  haveI : IsTrans (Option α) (fun a b => 0 ≤ comp a b) := ⟨fun a b c => htrans a b c⟩
  have hpw : xs.Pairwise (fun a b => 0 ≤ comp a b) := List.chain'_iff_pairwise.mp hord
  -- the list after the removal of the node at position `p`
  have hin : ∀ p : Nat, p < xs.length →
      (i = p ∨ (i = TWL_LIST_FRONT ∧ p = 0) ∨ (i = TWL_LIST_BACK ∧ p = xs.length - 1)) →
      ∃ d L1, twl_list_remove ⟨xs, xs.length, true, some comp⟩ i = .ok (d, L1) ∧
        List.Chain' (fun a b => 0 ≤ comp a b) L1.nodes ∧
        List.Chain' (fun a b => comp a b ≠ -1) L1.nodes ∧
        L1.ll_is_sorted = true ∧ list_debug_validate L1 = .ok () := by
    intro p hp hi
    have hpe := eraseIdx_pairwise comp htrans xs p hord
    have hlen : ((xs.length : Int) - 1) = ((xs.eraseIdx p).length : Nat) := by
      rw [List.length_eraseIdx, if_pos hp]
      omega
    refine ⟨_, _, remove_at xs true (some comp) hdata i p hp hi, hpe.chain', hweak _ hpe, rfl, ?_⟩
    rw [hlen, validate_sorted _ comp
      (fun d hd => hdata d ((List.eraseIdx_sublist xs p).subset hd)),
      if_pos (sorted_walk_of_pairwise comp _ hpe)]
  -- the list when nothing is removed
  have hout : twl_list_remove ⟨xs, xs.length, true, some comp⟩ i =
        .ok (none, ⟨xs, xs.length, true, some comp⟩) →
      ∃ d L1, twl_list_remove ⟨xs, xs.length, true, some comp⟩ i = .ok (d, L1) ∧
        List.Chain' (fun a b => 0 ≤ comp a b) L1.nodes ∧
        List.Chain' (fun a b => comp a b ≠ -1) L1.nodes ∧
        L1.ll_is_sorted = true ∧ list_debug_validate L1 = .ok () := by
    intro h
    refine ⟨_, _, h, hord, hweak _ hpw, rfl, ?_⟩
    rw [validate_sorted xs comp hdata, if_pos (sorted_walk_of_pairwise comp xs hpw)]
  by_cases hempty : xs.length = 0
  · exact hout (remove_none_eq _ i rfl (Or.inr hempty))
  · by_cases hF : i = TWL_LIST_FRONT
    · exact hin 0 (by omega) (Or.inr (Or.inl ⟨hF, rfl⟩))
    · by_cases hB : i = TWL_LIST_BACK
      · exact hin (xs.length - 1) (by omega) (Or.inr (Or.inr ⟨hB, rfl⟩))
      · by_cases hr : 0 ≤ i ∧ i < xs.length
        · exact hin i.toNat (by omega) (Or.inl (by omega))
        · exact hout (remove_none_eq _ i rfl (Or.inl ⟨hF, hB, by simp only; omega⟩))

/-- C30 at the sorted list `[(5,0), (3,1)]` and index 0. -/
theorem twl_list_remove_keeps_order_witness :
    ∃ d L1, twl_list_remove leader_pair 0 = .ok (d, L1) ∧
      List.Chain' (fun a b => 0 ≤ numeric_desc a b) L1.nodes ∧
      List.Chain' (fun a b => numeric_desc a b ≠ -1) L1.nodes ∧
      L1.ll_is_sorted = true ∧ list_debug_validate L1 = .ok () :=
  twl_list_remove_keeps_order leader_pair numeric_desc 0 ⟨rfl, by decide⟩ rfl rfl
    numeric_desc_trans (by simp [leader_pair, numeric_desc, item_key])

theorem ap_rank_aps_anti (a b : ap_info_t) : ap_rank_aps a b = -ap_rank_aps b a := by
  unfold ap_rank_aps
  split_ifs <;> omega

theorem ap_rank_aps_nonneg (a b : ap_info_t) :
    0 ≤ ap_rank_aps a b ↔
      a.mobile_count > b.mobile_count ∨
        (a.mobile_count = b.mobile_count ∧ a.eth_address ≤ b.eth_address) := by
  unfold ap_rank_aps
  split_ifs <;> constructor <;> intro h <;> omega

theorem ap_rank_aps_trans (a b c : ap_info_t) (hab : 0 ≤ ap_rank_aps a b)
    (hbc : 0 ≤ ap_rank_aps b c) : 0 ≤ ap_rank_aps a c := by
  rw [ap_rank_aps_nonneg] at hab hbc ⊢
  omega

theorem ap_rank_aps_one (a b : ap_info_t) :
    ap_rank_aps a b = 1 ↔
      a.mobile_count > b.mobile_count ∨
        (a.mobile_count = b.mobile_count ∧ a.eth_address < b.eth_address) := by
  unfold ap_rank_aps
  split_ifs <;> simp <;> omega

theorem ap_rank_aps_zero (a b : ap_info_t) :
    ap_rank_aps a b = 0 ↔
      a.mobile_count = b.mobile_count ∧ a.eth_address = b.eth_address := by
  unfold ap_rank_aps
  split_ifs <;> simp <;> omega

theorem ap_rank_aps_range (a b : ap_info_t) :
    ap_rank_aps a b = 1 ∨ ap_rank_aps a b = 0 ∨ ap_rank_aps a b = -1 := by
  unfold ap_rank_aps
  split_ifs <;> simp

theorem on_data_ptr_rank_anti (a b : Option ap_info_t) :
    on_data_ptr ap_rank_aps a b = -on_data_ptr ap_rank_aps b a := by
  cases a <;> cases b <;> simp [on_data_ptr]
  exact ap_rank_aps_anti _ _

theorem on_data_ptr_rank_trans (a b c : Option ap_info_t)
    (hab : 0 ≤ on_data_ptr ap_rank_aps a b) (hbc : 0 ≤ on_data_ptr ap_rank_aps b c) :
    0 ≤ on_data_ptr ap_rank_aps a c := by
  cases a <;> cases b <;> cases c <;> simp [on_data_ptr] at hab hbc ⊢
  exact ap_rank_aps_trans _ _ _ hab hbc

/-- C31: `ap_rank_aps` is antisymmetric and transitive on records, takes the
values 1, 0 and -1 only, returns 1 exactly when the first record has the
larger `mobile_count`, or the same `mobile_count` and the smaller
`eth_address`, and 0 exactly when both fields are equal; the comparison
function the leaderboard holds is antisymmetric and transitive as the list
operations need it. -/
theorem ap_rank_aps_total_order :
    (∀ a b : ap_info_t, ap_rank_aps a b = -ap_rank_aps b a) ∧
    (∀ a b c : ap_info_t, ap_rank_aps a b ≥ 0 → ap_rank_aps b c ≥ 0 → ap_rank_aps a c ≥ 0) ∧
    (∀ a b : ap_info_t, ap_rank_aps a b = 1 ∨ ap_rank_aps a b = 0 ∨ ap_rank_aps a b = -1) ∧
    (∀ a b : ap_info_t, ap_rank_aps a b = 1 ↔
      a.mobile_count > b.mobile_count ∨
        (a.mobile_count = b.mobile_count ∧ a.eth_address < b.eth_address)) ∧
    (∀ a b : ap_info_t, ap_rank_aps a b = 0 ↔
      a.mobile_count = b.mobile_count ∧ a.eth_address = b.eth_address) ∧
    (∀ a b, on_data_ptr ap_rank_aps a b = -on_data_ptr ap_rank_aps b a) ∧
    (∀ a b c, 0 ≤ on_data_ptr ap_rank_aps a b → 0 ≤ on_data_ptr ap_rank_aps b c →
      0 ≤ on_data_ptr ap_rank_aps a c) ∧
    ap_create_leaderboard.ll_comp_function = some (on_data_ptr ap_rank_aps) :=
  ⟨ap_rank_aps_anti, ap_rank_aps_trans, ap_rank_aps_range, ap_rank_aps_one, ap_rank_aps_zero,
    on_data_ptr_rank_anti, on_data_ptr_rank_trans, rfl⟩

theorem list_of_records_eq {α : Type} (recs : List α) (s : Bool)
    (c : Option (Option α → Option α → Int)) :
    list_of_records recs s c = ⟨recs.map some, ((recs.map some).length : Nat), s, c⟩ := by
  simp [list_of_records]

theorem map_some_data {α : Type} (recs : List α) : ∀ d ∈ recs.map some, d ≠ none := by
  intro d hd
  obtain ⟨r, _, hr⟩ := List.mem_map.mp hd
  rw [← hr]
  exact Option.some_ne_none r

theorem filterMap_id_map_some {α : Type} (recs : List α) :
    (recs.map some).filterMap id = recs := by
  induction recs with
  | nil => rfl
  | cons a t ih => simp [List.filterMap_cons, ih]

theorem map_some_filterMap_id {α : Type} (xs : List (Option α)) (h : ∀ d ∈ xs, d ≠ none) :
    (xs.filterMap id).map some = xs := by
  induction xs with
  | nil => rfl
  | cons a t ih =>
    cases a with
    | none => exact absurd rfl (h none (List.mem_cons_self _ _))
    | some r =>
      simp only [List.filterMap_cons, id, List.map_cons]
      rw [ih (fun d hd => h d (List.mem_cons_of_mem _ hd))]

theorem records_list_of_records {α : Type} (recs : List α) (s : Bool)
    (c : Option (Option α → Option α → Int)) : records (list_of_records recs s c) = recs :=
  filterMap_id_map_some recs

theorem well_formed_list_of_records {α : Type} (recs : List α) (s : Bool)
    (c : Option (Option α → Option α → Int)) : well_formed (list_of_records recs s c) :=
  ⟨by simp [list_of_records], map_some_data recs⟩

/-- A well formed list is the list of its records. -/
theorem well_formed_records {α : Type} (L : twl_list_t α) (h : well_formed L) :
    L = list_of_records (records L) L.ll_is_sorted L.ll_comp_function := by
  obtain ⟨xs, cnt, s, c⟩ := L
  obtain ⟨hc, hd⟩ := h
  simp only at hc hd
  subst hc
  simp only [list_of_records, records, map_some_filterMap_id xs hd]
  congr 1
  rw [← List.length_map (xs.filterMap id) some, map_some_filterMap_id xs hd]

theorem leaderboard_ok_records (L : twl_list_t ap_info_t) (h : leaderboard_ok L) :
    L = list_of_records (records L) true (some (on_data_ptr ap_rank_aps)) := by
  obtain ⟨hwf, hs, hc, _, _⟩ := h
  have := well_formed_records L hwf
  rw [hs, hc] at this
  exact this

theorem leaderboard_ok_of (recs : List ap_info_t)
    (hsorted : recs.Pairwise (fun a b => 0 ≤ ap_rank_aps a b))
    (hnodup : (recs.map (fun r => r.eth_address)).Nodup) :
    leaderboard_ok (list_of_records recs true (some (on_data_ptr ap_rank_aps))) := by
  refine ⟨well_formed_list_of_records _ _ _, rfl, rfl, ?_, ?_⟩
  · rw [records_list_of_records]; exact hsorted
  · rw [records_list_of_records]; exact hnodup

theorem pairwise_map_some_rank (recs : List ap_info_t) :
    (recs.map some).Pairwise (fun a b => 0 ≤ on_data_ptr ap_rank_aps a b) ↔
      recs.Pairwise (fun a b => 0 ≤ ap_rank_aps a b) := by
  rw [List.pairwise_map]
  rfl

/-- `twl_list_insert_sorted` on a leaderboard in order returns a leaderboard
in order that holds the new record and the records it held. -/
theorem leaderboard_insert_sorted (recs : List ap_info_t) (r : ap_info_t)
    (hsorted : recs.Pairwise (fun a b => 0 ≤ ap_rank_aps a b)) :
    ∃ recs1, recs1.Perm (r :: recs) ∧ recs1.Pairwise (fun a b => 0 ≤ ap_rank_aps a b) ∧
      twl_list_insert_sorted (list_of_records recs true (some (on_data_ptr ap_rank_aps)))
          (some r) =
        .ok (list_of_records recs1 true (some (on_data_ptr ap_rank_aps))) := by
  have hdata := map_some_data recs
  have hplaced := sorted_place_data (on_data_ptr ap_rank_aps) (some r) (recs.map some)
    (Option.some_ne_none r) hdata
  have hmap := map_some_filterMap_id _ hplaced
  have hpw := sorted_place_pairwise (on_data_ptr ap_rank_aps) on_data_ptr_rank_anti
    on_data_ptr_rank_trans (some r) (recs.map some) ((pairwise_map_some_rank recs).mpr hsorted)
  have hperm := sorted_place_perm (on_data_ptr ap_rank_aps) (some r) (recs.map some)
  refine ⟨(sorted_place (on_data_ptr ap_rank_aps) (some r) (recs.map some)).filterMap id,
    ?_, ?_, ?_⟩
  · have := hperm.filterMap id
    simpa [filterMap_id_map_some] using this
  · rw [← pairwise_map_some_rank, hmap]
    exact hpw
  · rw [list_of_records_eq, list_of_records_eq, hmap,
      insert_sorted_eq2 _ _ _ (Option.some_ne_none r) hdata,
      if_pos (sorted_walk_of_pairwise _ _ hpw)]

/-- A list of records either has no record with the `eth_address`, or splits
at the first record that has it. -/
theorem split_at_eth (recs : List ap_info_t) (ap_id : Int) :
    (∀ r ∈ recs, r.eth_address ≠ ap_id) ∨
    (∃ pre r post, recs = pre ++ r :: post ∧ r.eth_address = ap_id ∧
      ∀ x ∈ pre, x.eth_address ≠ ap_id) := by
  induction recs with
  | nil => exact Or.inl (by simp)
  | cons a t ih =>
    by_cases ha : a.eth_address = ap_id
    · exact Or.inr ⟨[], a, t, rfl, ha, by simp⟩
    · rcases ih with hno | ⟨pre, r, post, hsplit, hr, hpre⟩
      · refine Or.inl ?_
        intro r hr
        rcases List.mem_cons.mp hr with h | h
        · rw [h]; exact ha
        · exact hno r h
      · refine Or.inr ⟨a :: pre, r, post, by rw [hsplit]; rfl, hr, ?_⟩
        intro x hx
        rcases List.mem_cons.mp hx with h | h
        · rw [h]; exact ha
        · exact hpre x h

/-- The searches of `ap_support.c` with `ap_match_eth` on a list without the
`eth_address` of the probe find nothing. -/
theorem find_none (recs : List ap_info_t) (p : ap_info_t) (start : Int)
    (hno : ∀ r ∈ recs, r.eth_address ≠ p.eth_address) :
    find_data_ptr_loop (on_data_ptr ap_match_eth) (some p) (recs.map some) = none ∧
      find_position_loop (on_data_ptr ap_match_eth) (some p) (recs.map some) start = -1 := by
  induction recs generalizing start with
  | nil => exact ⟨rfl, rfl⟩
  | cons a t ih =>
    have hm : ¬ on_data_ptr ap_match_eth (some a) (some p) = 0 := by
      simp [on_data_ptr, ap_match_eth, hno a (List.mem_cons_self a t)]
    obtain ⟨hd, hp⟩ := ih (start + 1) (fun r hr => hno r (List.mem_cons_of_mem a hr))
    exact ⟨by simp only [List.map_cons, find_data_ptr_loop, if_neg hm, hd],
      by simp only [List.map_cons, find_position_loop, if_neg hm, hp]⟩

/-- The searches of `ap_support.c` with `ap_match_eth` stop on the first
record with the `eth_address` of the probe, and a write through the pointer
found changes that record. -/
theorem find_split (pre post : List ap_info_t) (r p : ap_info_t) (start : Int)
    (hpre : ∀ x ∈ pre, x.eth_address ≠ p.eth_address) (hr : r.eth_address = p.eth_address) :
    find_data_ptr_loop (on_data_ptr ap_match_eth) (some p) ((pre ++ r :: post).map some) =
        some r ∧
      find_position_loop (on_data_ptr ap_match_eth) (some p) ((pre ++ r :: post).map some)
          start = start + pre.length ∧
      ∀ new_data : ap_info_t,
        store_at_match (on_data_ptr ap_match_eth) (some p) (some new_data)
            ((pre ++ r :: post).map some) =
          (pre ++ new_data :: post).map some := by
  induction pre generalizing start with
  | nil =>
    have hm : on_data_ptr ap_match_eth (some r) (some p) = 0 := by
      simp [on_data_ptr, ap_match_eth, hr]
    refine ⟨?_, ?_, ?_⟩
    · simp [find_data_ptr_loop, hm]
    · simp [find_position_loop, hm]
    · intro new_data
      simp [store_at_match, hm]
  | cons a t ih =>
    have hm : ¬ on_data_ptr ap_match_eth (some a) (some p) = 0 := by
      simp [on_data_ptr, ap_match_eth, hpre a (List.mem_cons_self a t)]
    obtain ⟨hd, hp, hst⟩ := ih (start + 1) (fun x hx => hpre x (List.mem_cons_of_mem a hx))
    refine ⟨?_, ?_, ?_⟩
    · simp only [List.cons_append, List.map_cons, find_data_ptr_loop, if_neg hm]
      exact hd
    · simp only [List.cons_append, List.map_cons, find_position_loop, if_neg hm,
        List.length_cons]
      refine Eq.trans hp ?_
      push_cast
      omega
    · intro new_data
      simp only [List.cons_append, List.map_cons, store_at_match, if_neg hm]
      exact congrArg (fun l => some a :: l) (hst new_data)

theorem getD_at_split {β : Type} (pre post : List β) (x d : β) :
    (pre ++ x :: post).getD pre.length d = x := by
  induction pre with
  | nil => rfl
  | cons a t ih => simpa using ih

theorem eraseIdx_at_split {β : Type} (pre post : List β) (x : β) :
    (pre ++ x :: post).eraseIdx pre.length = pre ++ post := by
  induction pre with
  | nil => rfl
  | cons a t ih => simpa using ih

/-- `twl_list_remove` at the position of a record returns the record and
leaves the records before and behind it. -/
theorem remove_split {α : Type} (pre post : List α) (r : α) (s : Bool)
    (c : Option (Option α → Option α → Int)) :
    twl_list_remove (list_of_records (pre ++ r :: post) s c) (pre.length : Int) =
      .ok (some r, list_of_records (pre ++ post) s c) := by
  have hlen : pre.length = (pre.map some).length := by simp
  have h1 : ((pre ++ r :: post).map some).getD pre.length none = some r := by
    rw [List.map_append, List.map_cons, hlen]
    exact getD_at_split _ _ _ _
  have h2 : ((pre ++ r :: post).map some).eraseIdx pre.length = (pre ++ post).map some := by
    rw [List.map_append, List.map_cons, hlen, eraseIdx_at_split, List.map_append]
  rw [list_of_records_eq,
    remove_at ((pre ++ r :: post).map some) s c (map_some_data _) (pre.length : Int) pre.length
      (by simp) (Or.inl rfl), h1, h2]
  have h3 : (((List.map some (pre ++ r :: post)).length : Nat) : Int) - 1 =
      ((pre ++ post).length : Nat) := by
    simp only [List.length_map, List.length_append, List.length_cons]
    push_cast
    omega
  rw [h3]
  rfl

theorem size_records {α : Type} (recs : List α) (s : Bool)
    (c : Option (Option α → Option α → Int)) :
    twl_list_size (list_of_records recs s c) = .ok (recs.length : Int) := by
  simp [twl_list_size, list_of_records]

theorem find_data_records {α : Type} (recs : List α) (s : Bool)
    (c : Option (Option α → Option α → Int)) (e : Option α) (m : Option α → Option α → Int) :
    twl_list_elem_find_data_ptr (list_of_records recs s c) e (some m) =
      .ok (find_data_ptr_loop m e (recs.map some)) := rfl

theorem find_position_records {α : Type} (recs : List α) (s : Bool)
    (c : Option (Option α → Option α → Int)) (e : Option α) (m : Option α → Option α → Int) :
    twl_list_elem_find_position (list_of_records recs s c) e (some m) =
      .ok (find_position_loop m e (recs.map some) 0) := rfl

/-- `ap_add` on a leaderboard in order: the list is left as it is when it is
full (outcome 1) and, if not full, when a record has the `eth_address`
(outcome 2); otherwise the new record is inserted in order (outcome 0). -/
theorem ap_add_spec (recs : List ap_info_t) (ap_id max_list_size : Int) (input : Nat)
    (hsorted : recs.Pairwise (fun a b => 0 ≤ ap_rank_aps a b)) :
    ∃ add_result recs1,
      ap_add (list_of_records recs true (some (on_data_ptr ap_rank_aps))) ap_id max_list_size
          input =
        .ok (add_result, list_of_records recs1 true (some (on_data_ptr ap_rank_aps))) ∧
      recs1.Pairwise (fun a b => 0 ≤ ap_rank_aps a b) ∧
      ((recs.length : Int) ≥ max_list_size → add_result = 1 ∧ recs1 = recs) ∧
      ((recs.length : Int) < max_list_size → (∃ r ∈ recs, r.eth_address = ap_id) →
        add_result = 2 ∧ recs1 = recs) ∧
      ((recs.length : Int) < max_list_size → (∀ r ∈ recs, r.eth_address ≠ ap_id) →
        add_result = 0 ∧ recs1.Perm (ap_create_info ap_id input :: recs)) := by
  unfold ap_add
  simp only [bind, Except.bind, pure, Except.pure, size_records]
  by_cases hfull : (recs.length : Int) ≥ max_list_size
  · rw [if_pos hfull]
    exact ⟨1, recs, rfl, hsorted, fun _ => ⟨rfl, rfl⟩, fun h => absurd hfull (by omega),
      fun h => absurd hfull (by omega)⟩
  · rw [if_neg hfull, find_data_records]
    simp only
    rcases split_at_eth recs ap_id with hno | ⟨pre, r, post, hsplit, hr, hpre⟩
    · rw [(find_none recs (ap_create_info ap_id input) 0 hno).1]
      simp only [ne_eq, not_true_eq_false, if_false]
      obtain ⟨recs1, hperm, hs1, hins⟩ :=
        leaderboard_insert_sorted recs (ap_create_info ap_id input) hsorted
      rw [hins]
      refine ⟨0, recs1, rfl, hs1, fun h => absurd h hfull, ?_, fun _ _ => ⟨rfl, hperm⟩⟩
      rintro _ ⟨r, hr, hre⟩
      exact absurd hre (hno r hr)
    · rw [hsplit, (find_split pre post r (ap_create_info ap_id input) 0 hpre hr).1]
      simp only [ne_eq, reduceCtorEq, not_false_eq_true, if_true]
      rw [← hsplit]
      refine ⟨2, recs, rfl, hsorted, fun h => absurd h hfull, fun _ _ => ⟨rfl, rfl⟩, ?_⟩
      intro _ hno
      exact absurd hr (hno r (by rw [hsplit]; simp))

/-- `ap_remove` leaves the list as it is when no record has the
`eth_address`, and takes out the first record that has it otherwise. -/
theorem ap_remove_spec (recs : List ap_info_t) (ap_id : Int) (s : Bool)
    (c : Option (Option ap_info_t → Option ap_info_t → Int)) :
    ∃ recs1, ap_remove (list_of_records recs s c) ap_id = .ok (list_of_records recs1 s c) ∧
      recs1.Sublist recs := by
  unfold ap_remove
  simp only [bind, Except.bind, pure, Except.pure, find_data_records]
  rcases split_at_eth recs ap_id with hno | ⟨pre, r, post, hsplit, hr, hpre⟩
  · rw [(find_none recs ⟨ap_id, 0, 0⟩ 0 hno).1]
    exact ⟨recs, rfl, List.Sublist.refl _⟩
  · rw [hsplit, (find_split pre post r ⟨ap_id, 0, 0⟩ 0 hpre hr).1]
    simp only [reduceCtorEq, if_false, find_position_records]
    rw [(find_split pre post r r 0 (fun x hx => by rw [hr]; exact hpre x hx) rfl).2.1]
    simp only [zero_add]
    rw [remove_split]
    simp only [if_true]
    exact ⟨pre ++ post, rfl, by simp⟩

/-- The steps `ap_inc` and `ap_dec` share after the record is changed: the
record is found at its old position, removed, and inserted again in order. -/
theorem reinsert_spec (pre post : List ap_info_t) (r r1 p : ap_info_t)
    (hsorted : (pre ++ r :: post).Pairwise (fun a b => 0 ≤ ap_rank_aps a b))
    (hpre : ∀ x ∈ pre, x.eth_address ≠ p.eth_address) (hr : r.eth_address = p.eth_address)
    (hr1 : r1.eth_address = p.eth_address) :
    ∃ recs1, recs1.Perm (r1 :: (pre ++ post)) ∧
      recs1.Pairwise (fun a b => 0 ≤ ap_rank_aps a b) ∧
      ({ list_of_records (pre ++ r :: post) true (some (on_data_ptr ap_rank_aps)) with
          nodes := store_at_match (on_data_ptr ap_match_eth) (some p) (some r1)
            (list_of_records (pre ++ r :: post) true (some (on_data_ptr ap_rank_aps))).nodes } :
          twl_list_t ap_info_t) =
        list_of_records (pre ++ r1 :: post) true (some (on_data_ptr ap_rank_aps)) ∧
      twl_list_elem_find_position
          (list_of_records (pre ++ r1 :: post) true (some (on_data_ptr ap_rank_aps)))
          (some p) (some (on_data_ptr ap_match_eth)) = .ok (pre.length : Int) ∧
      twl_list_remove (list_of_records (pre ++ r1 :: post) true (some (on_data_ptr ap_rank_aps)))
          (pre.length : Int) =
        .ok (some r1, list_of_records (pre ++ post) true (some (on_data_ptr ap_rank_aps))) ∧
      twl_list_insert_sorted
          (list_of_records (pre ++ post) true (some (on_data_ptr ap_rank_aps))) (some r1) =
        .ok (list_of_records recs1 true (some (on_data_ptr ap_rank_aps))) := by
  have hsub : (pre ++ post).Pairwise (fun a b => 0 ≤ ap_rank_aps a b) :=
    hsorted.sublist (by simp)
  obtain ⟨recs1, hperm, hs1, hins⟩ := leaderboard_insert_sorted (pre ++ post) r1 hsub
  refine ⟨recs1, hperm, hs1, ?_, ?_, remove_split pre post r1 _ _, hins⟩
  · simp only [list_of_records]
    rw [(find_split pre post r p 0 hpre hr).2.2 r1]
    simp
  · rw [find_position_records, (find_split pre post r1 p 0 hpre hr1).2.1]
    simp

/-- `ap_inc` on a leaderboard in order returns a leaderboard in order with
the same `eth_address` values. -/
theorem ap_inc_spec (recs : List ap_info_t) (ap_id : Int)
    (hsorted : recs.Pairwise (fun a b => 0 ≤ ap_rank_aps a b)) :
    ∃ inc_result recs1,
      ap_inc (list_of_records recs true (some (on_data_ptr ap_rank_aps))) ap_id =
        .ok (inc_result, list_of_records recs1 true (some (on_data_ptr ap_rank_aps))) ∧
      recs1.Pairwise (fun a b => 0 ≤ ap_rank_aps a b) ∧
      (recs1.map (fun r => r.eth_address)).Perm (recs.map (fun r => r.eth_address)) := by
  unfold ap_inc
  simp only [bind, Except.bind, pure, Except.pure, find_data_records]
  rcases split_at_eth recs ap_id with hno | ⟨pre, r, post, hsplit, hr, hpre⟩
  · rw [(find_none recs ⟨ap_id, 0, 0⟩ 0 hno).1]
    exact ⟨-2, recs, rfl, hsorted, List.Perm.refl _⟩
  · subst hsplit
    rw [(find_split pre post r ⟨ap_id, 0, 0⟩ 0 hpre hr).1]
    simp only
    obtain ⟨recs1, hperm, hs1, hstore, hpos, hrem, hins⟩ :=
      reinsert_spec pre post r { r with mobile_count := to_int32 (r.mobile_count + 1) }
        ⟨ap_id, 0, 0⟩ hsorted hpre hr hr
    rw [hstore, hpos]
    simp only
    rw [hrem]
    simp only
    rw [hins]
    refine ⟨_, recs1, rfl, hs1, ?_⟩
    have := hperm.map (fun r => r.eth_address)
    refine this.trans ?_
    simp only [List.map_cons, List.map_append]
    exact List.perm_middle.symm

/-- `ap_dec` on a leaderboard in order returns a leaderboard in order with
the same `eth_address` values. -/
theorem ap_dec_spec (recs : List ap_info_t) (ap_id : Int)
    (hsorted : recs.Pairwise (fun a b => 0 ≤ ap_rank_aps a b)) :
    ∃ dec_result recs1,
      ap_dec (list_of_records recs true (some (on_data_ptr ap_rank_aps))) ap_id =
        .ok (dec_result, list_of_records recs1 true (some (on_data_ptr ap_rank_aps))) ∧
      recs1.Pairwise (fun a b => 0 ≤ ap_rank_aps a b) ∧
      (recs1.map (fun r => r.eth_address)).Perm (recs.map (fun r => r.eth_address)) := by
  unfold ap_dec
  simp only [bind, Except.bind, pure, Except.pure, find_data_records]
  rcases split_at_eth recs ap_id with hno | ⟨pre, r, post, hsplit, hr, hpre⟩
  · rw [(find_none recs ⟨ap_id, 0, 0⟩ 0 hno).1]
    exact ⟨-2, recs, rfl, hsorted, List.Perm.refl _⟩
  · subst hsplit
    rw [(find_split pre post r ⟨ap_id, 0, 0⟩ 0 hpre hr).1]
    simp only
    by_cases hpos0 : r.mobile_count > 0
    · rw [if_pos hpos0]
      obtain ⟨recs1, hperm, hs1, hstore, hpos, hrem, hins⟩ :=
        reinsert_spec pre post r { r with mobile_count := r.mobile_count - 1 }
          ⟨ap_id, 0, 0⟩ hsorted hpre hr hr
      rw [hstore, hpos]
      simp only
      rw [hrem]
      simp only
      rw [hins]
      refine ⟨_, recs1, rfl, hs1, ?_⟩
      have := hperm.map (fun r => r.eth_address)
      refine this.trans ?_
      simp only [List.map_cons, List.map_append]
      exact List.perm_middle.symm
    · rw [if_neg hpos0]
      exact ⟨-1, _, rfl, hsorted, List.Perm.refl _⟩

/-- `ap_removeall` on a well formed list returns the empty list. -/
theorem ap_removeall_loop_spec (recs : List ap_info_t) (s : Bool)
    (c : Option (Option ap_info_t → Option ap_info_t → Int)) (fuel found : Nat)
    (hfuel : recs.length < fuel) :
    ap_removeall_loop fuel (list_of_records recs s c) found =
      .ok (found + recs.length, list_of_records [] s c) := by
  induction recs generalizing fuel found with
  | nil =>
    cases fuel with
    | zero => omega
    | succ fuel => simp [ap_removeall_loop, size_records, bind, Except.bind, pure, Except.pure]
  | cons a t ih =>
    cases fuel with
    | zero => omega
    | succ fuel =>
      unfold ap_removeall_loop
      simp only [bind, Except.bind, pure, Except.pure, size_records]
      rw [if_pos (by simp only [List.length_cons]; push_cast; omega)]
      have hrem : twl_list_remove (list_of_records (a :: t) s c) TWL_LIST_FRONT =
          .ok (some a, list_of_records t s c) := by
        rw [list_of_records_eq, remove_at _ s c (map_some_data _) TWL_LIST_FRONT 0 (by simp)
          (Or.inr (Or.inl ⟨rfl, rfl⟩))]
        simp [list_of_records]
      rw [hrem]
      simp only [ne_eq, reduceCtorEq, not_false_eq_true, if_true]
      rw [ih fuel (found + 1) (by simpa using hfuel)]
      simp only [List.length_cons]
      congr 2
      omega

theorem ap_removeall_spec (recs : List ap_info_t) (s : Bool)
    (c : Option (Option ap_info_t → Option ap_info_t → Int)) :
    ap_removeall (list_of_records recs s c) = .ok (recs.length, list_of_records [] s c) := by
  unfold ap_removeall
  have := ap_removeall_loop_spec recs s c ((list_of_records recs s c).nodes.length + 1) 0
    (by simp [list_of_records])
  rw [this]
  simp

/-- `ap_dequeue` with a leaderboard in order: an empty queue changes nothing
(outcome 0); otherwise the front record leaves the queue and is discarded
when the leaderboard is full (outcome 2) or, if not full, has a record with
that `eth_address` (outcome 3), and is inserted in order otherwise
(outcome 1). -/
theorem ap_dequeue_spec (qrecs recs : List ap_info_t) (sq : Bool)
    (cq : Option (Option ap_info_t → Option ap_info_t → Int)) (max_list_size : Int)
    (hsorted : recs.Pairwise (fun a b => 0 ≤ ap_rank_aps a b)) :
    ∃ move_result recs1,
      ap_dequeue (list_of_records qrecs sq cq)
          (list_of_records recs true (some (on_data_ptr ap_rank_aps))) max_list_size =
        .ok (move_result, list_of_records qrecs.tail sq cq,
          list_of_records recs1 true (some (on_data_ptr ap_rank_aps))) ∧
      recs1.Pairwise (fun a b => 0 ≤ ap_rank_aps a b) ∧
      (qrecs = [] → move_result = 0 ∧ recs1 = recs) ∧
      (∀ r rest, qrecs = r :: rest →
        ((recs.length : Int) ≥ max_list_size → move_result = 2 ∧ recs1 = recs) ∧
        ((recs.length : Int) < max_list_size → (∃ x ∈ recs, x.eth_address = r.eth_address) →
          move_result = 3 ∧ recs1 = recs) ∧
        ((recs.length : Int) < max_list_size → (∀ x ∈ recs, x.eth_address ≠ r.eth_address) →
          move_result = 1 ∧ recs1.Perm (r :: recs))) := by
  unfold ap_dequeue
  simp only [bind, Except.bind, pure, Except.pure, size_records]
  cases qrecs with
  | nil =>
    simp only [List.length_nil, Nat.cast_zero, if_true, List.tail_nil]
    exact ⟨0, recs, rfl, hsorted, fun _ => ⟨rfl, rfl⟩, fun r rest h => by simp at h⟩
  | cons r rest =>
    have hne : ¬ (((r :: rest).length : Int) = 0) := by
      simp only [List.length_cons]; push_cast; omega
    rw [if_neg hne]
    have hrem : twl_list_remove (list_of_records (r :: rest) sq cq) 0 =
        .ok (some r, list_of_records rest sq cq) := by
      have := remove_split [] rest r sq cq
      simpa using this
    rw [hrem]
    simp only [List.tail_cons]
    by_cases hfull : (recs.length : Int) ≥ max_list_size
    · rw [if_pos hfull]
      refine ⟨2, recs, rfl, hsorted, fun h => by simp at h, ?_⟩
      intro r2 rest2 h
      exact ⟨fun _ => ⟨rfl, rfl⟩, fun h2 => absurd hfull (by omega),
        fun h2 => absurd hfull (by omega)⟩
    · rw [if_neg hfull]
      simp only [find_position_records]
      rcases split_at_eth recs r.eth_address with hno | ⟨pre, x, post, hsplit, hx, hpre⟩
      · rw [(find_none recs r 0 hno).2]
        simp only [ne_eq, not_true_eq_false, if_false]
        obtain ⟨recs1, hperm, hs1, hins⟩ := leaderboard_insert_sorted recs r hsorted
        rw [hins]
        refine ⟨1, recs1, rfl, hs1, fun h => by simp at h, ?_⟩
        intro r2 rest2 h
        obtain ⟨h1, _⟩ := List.cons.inj h
        subst h1
        refine ⟨fun h2 => absurd h2 hfull, ?_, fun _ _ => ⟨rfl, hperm⟩⟩
        rintro _ ⟨y, hy, hye⟩
        exact absurd hye (hno y hy)
      · have hp := (find_split pre post x r 0 hpre hx).2.1
        rw [← hsplit] at hp
        rw [hp]
        have hne1 : ¬ ((0 : Int) + (pre.length : Int) = -1) := by omega
        simp only [ne_eq, hne1, not_false_eq_true, if_true]
        refine ⟨3, recs, rfl, hsorted, fun h => by simp at h, ?_⟩
        intro r2 rest2 h
        obtain ⟨h1, _⟩ := List.cons.inj h
        subst h1
        refine ⟨fun h2 => absurd h2 hfull, fun _ _ => ⟨rfl, rfl⟩, ?_⟩
        intro _ hno
        exact absurd hx (hno x (by rw [hsplit]; simp))

/-- `ap_enqueue` puts the new record behind the records of the queue. -/
theorem ap_enqueue_spec (qrecs : List ap_info_t) (s : Bool)
    (c : Option (Option ap_info_t → Option ap_info_t → Int)) (ap_id : Int) (input : Nat) :
    ap_enqueue (list_of_records qrecs s c) ap_id input =
      .ok (list_of_records (qrecs ++ [ap_create_info ap_id input]) false c) := by
  unfold ap_enqueue
  rw [list_of_records_eq]
  have hc := (insert_chain_spec (qrecs.map some) s c (some (ap_create_info ap_id input))
    TWL_LIST_BACK).2.2 (Or.inl rfl)
  rw [insert_of_chain _ _ _ _ hc (by simp) (by
    intro x hx
    rcases List.mem_append.mp hx with h | h
    · exact map_some_data qrecs x h
    · simp at h; rw [h]; exact Option.some_ne_none _)]
  simp [list_of_records]

/-- `ap_appendq` puts the new record behind the records of the queue. -/
theorem ap_appendq_spec (qrecs : List ap_info_t) (s : Bool)
    (c : Option (Option ap_info_t → Option ap_info_t → Int)) (eth_id mobile_cnt : Int) :
    ap_appendq (list_of_records qrecs s c) eth_id mobile_cnt =
      .ok (list_of_records (qrecs ++ [⟨eth_id, mobile_cnt, 0⟩]) false c) := by
  unfold ap_appendq
  simp only [bind, Except.bind, pure, Except.pure, size_records]
  have h := insert_back_eq (qrecs.map some) s c (some ⟨eth_id, mobile_cnt, 0⟩)
    (map_some_data qrecs) (Option.some_ne_none _)
  rw [List.length_map] at h
  rw [list_of_records_eq, List.length_map, h]
  simp [list_of_records, twl_mark_the_list_unsorted]

theorem leaderboard_ok_iff (L : twl_list_t ap_info_t) :
    leaderboard_ok L ↔
      ∃ recs, L = list_of_records recs true (some (on_data_ptr ap_rank_aps)) ∧
        recs.Pairwise (fun a b => 0 ≤ ap_rank_aps a b) ∧
        (recs.map (fun r => r.eth_address)).Nodup := by
  constructor
  · intro h
    exact ⟨records L, leaderboard_ok_records L h, h.2.2.2.1, h.2.2.2.2⟩
  · rintro ⟨recs, rfl, hs, hn⟩
    exact leaderboard_ok_of recs hs hn

theorem well_formed_iff {α : Type} (L : twl_list_t α) :
    well_formed L ↔ ∃ recs s c, L = list_of_records recs s c := by
  constructor
  · intro h
    exact ⟨records L, L.ll_is_sorted, L.ll_comp_function, well_formed_records L h⟩
  · rintro ⟨recs, s, c, rfl⟩
    exact well_formed_list_of_records recs s c

theorem nodup_eth_cons (recs recs1 : List ap_info_t) (r : ap_info_t)
    (hperm : recs1.Perm (r :: recs)) (hno : ∀ x ∈ recs, x.eth_address ≠ r.eth_address)
    (hn : (recs.map (fun r => r.eth_address)).Nodup) :
    (recs1.map (fun r => r.eth_address)).Nodup := by
  rw [(hperm.map (fun r => r.eth_address)).nodup_iff, List.map_cons, List.nodup_cons]
  refine ⟨?_, hn⟩
  intro hmem
  obtain ⟨x, hx, hxe⟩ := List.mem_map.mp hmem
  exact hno x hx hxe

/-- One command keeps the two lists as `wifi_lists_ok` describes them, and the
call returns. -/
theorem wifi_step_ok (lb_listsize : Int) (s : wifi_lists) (c : wifi_command)
    (h : wifi_lists_ok lb_listsize s) :
    ∃ s1, wifi_step lb_listsize s c = .ok s1 ∧ wifi_lists_ok lb_listsize s1 := by
  obtain ⟨lb, q⟩ := s
  obtain ⟨hlb, hq, hsize⟩ := h
  simp only at hlb hq hsize
  obtain ⟨recs, rfl, hs, hn⟩ := (leaderboard_ok_iff lb).mp hlb
  obtain ⟨qrecs, sq, cq, rfl⟩ := (well_formed_iff q).mp hq
  rw [records_list_of_records] at hsize
  cases c with
  | ADD ap_id input =>
    obtain ⟨res, recs1, hcall, hs1, hfull, hdup, hnew⟩ :=
      ap_add_spec recs ap_id lb_listsize input hs
    refine ⟨⟨list_of_records recs1 true (some (on_data_ptr ap_rank_aps)),
      list_of_records qrecs sq cq⟩, ?_, ?_⟩
    · simp only [wifi_step, bind, Except.bind, pure, Except.pure, hcall]
    · by_cases hf : (recs.length : Int) ≥ lb_listsize
      · rw [(hfull hf).2]
        exact ⟨hlb, hq, by rw [records_list_of_records]; exact hsize⟩
      · by_cases hd : ∃ r ∈ recs, r.eth_address = ap_id
        · rw [(hdup (by omega) hd).2]
          exact ⟨hlb, hq, by rw [records_list_of_records]; exact hsize⟩
        · have hno : ∀ r ∈ recs, r.eth_address ≠ ap_id := fun r hr he => hd ⟨r, hr, he⟩
          obtain ⟨_, hperm⟩ := hnew (by omega) hno
          refine ⟨leaderboard_ok_of recs1 hs1 (nodup_eth_cons recs recs1 _ hperm hno hn), hq, ?_⟩
          simp only [records_list_of_records]
          rw [hperm.length_eq, List.length_cons]
          push_cast
          omega
  | REMOVE ap_id =>
    obtain ⟨recs1, hcall, hsub⟩ := ap_remove_spec recs ap_id true (some (on_data_ptr ap_rank_aps))
    refine ⟨⟨list_of_records recs1 true (some (on_data_ptr ap_rank_aps)),
      list_of_records qrecs sq cq⟩, ?_, ?_⟩
    · simp only [wifi_step, bind, Except.bind, pure, Except.pure, hcall]
    · refine ⟨leaderboard_ok_of recs1 (hs.sublist hsub)
        (hn.sublist (hsub.map (fun r => r.eth_address))), hq, ?_⟩
      simp only [records_list_of_records]
      have := hsub.length_le
      omega
  | INC ap_id =>
    obtain ⟨res, recs1, hcall, hs1, hperm⟩ := ap_inc_spec recs ap_id hs
    refine ⟨⟨list_of_records recs1 true (some (on_data_ptr ap_rank_aps)),
      list_of_records qrecs sq cq⟩, ?_, ?_⟩
    · simp only [wifi_step, bind, Except.bind, pure, Except.pure, hcall]
    · refine ⟨leaderboard_ok_of recs1 hs1 (hperm.nodup_iff.mpr hn), hq, ?_⟩
      simp only [records_list_of_records]
      have := hperm.length_eq
      simp only [List.length_map] at this
      omega
  | DEC ap_id =>
    obtain ⟨res, recs1, hcall, hs1, hperm⟩ := ap_dec_spec recs ap_id hs
    refine ⟨⟨list_of_records recs1 true (some (on_data_ptr ap_rank_aps)),
      list_of_records qrecs sq cq⟩, ?_, ?_⟩
    · simp only [wifi_step, bind, Except.bind, pure, Except.pure, hcall]
    · refine ⟨leaderboard_ok_of recs1 hs1 (hperm.nodup_iff.mpr hn), hq, ?_⟩
      simp only [records_list_of_records]
      have := hperm.length_eq
      simp only [List.length_map] at this
      omega
  | REMOVEALL =>
    refine ⟨⟨list_of_records [] true (some (on_data_ptr ap_rank_aps)),
      list_of_records qrecs sq cq⟩, ?_, ?_⟩
    · simp only [wifi_step, bind, Except.bind, pure, Except.pure, ap_removeall_spec]
    · refine ⟨leaderboard_ok_of [] List.Pairwise.nil (by simp), hq, ?_⟩
      simp only [records_list_of_records, List.length_nil]
      omega
  | JOINQ ap_id input =>
    refine ⟨⟨list_of_records recs true (some (on_data_ptr ap_rank_aps)),
      list_of_records (qrecs ++ [ap_create_info ap_id input]) false cq⟩, ?_, ?_⟩
    · simp only [wifi_step, bind, Except.bind, pure, Except.pure, ap_enqueue_spec]
    · exact ⟨hlb, well_formed_list_of_records _ _ _,
        by simp only [records_list_of_records]; exact hsize⟩
  | MOVEQTOL =>
    obtain ⟨res, recs1, hcall, hs1, hempty, hfront⟩ :=
      ap_dequeue_spec qrecs recs sq cq lb_listsize hs
    refine ⟨⟨list_of_records recs1 true (some (on_data_ptr ap_rank_aps)),
      list_of_records qrecs.tail sq cq⟩, ?_, ?_⟩
    · simp only [wifi_step, bind, Except.bind, pure, Except.pure, hcall]
    · cases qrecs with
      | nil =>
        rw [(hempty rfl).2]
        exact ⟨hlb, well_formed_list_of_records _ _ _,
          by simp only [records_list_of_records]; exact hsize⟩
      | cons r rest =>
        obtain ⟨hfull, hdup, hnew⟩ := hfront r rest rfl
        by_cases hf : (recs.length : Int) ≥ lb_listsize
        · rw [(hfull hf).2]
          exact ⟨hlb, well_formed_list_of_records _ _ _,
            by simp only [records_list_of_records]; exact hsize⟩
        · by_cases hd : ∃ x ∈ recs, x.eth_address = r.eth_address
          · rw [(hdup (by omega) hd).2]
            exact ⟨hlb, well_formed_list_of_records _ _ _,
              by simp only [records_list_of_records]; exact hsize⟩
          · have hno : ∀ x ∈ recs, x.eth_address ≠ r.eth_address :=
              fun x hx he => hd ⟨x, hx, he⟩
            obtain ⟨_, hperm⟩ := hnew (by omega) hno
            refine ⟨leaderboard_ok_of recs1 hs1 (nodup_eth_cons recs recs1 _ hperm hno hn),
              well_formed_list_of_records _ _ _, ?_⟩
            simp only [records_list_of_records]
            rw [hperm.length_eq, List.length_cons]
            push_cast
            omega
  | APPENDQ ap_id mob_cnt =>
    refine ⟨⟨list_of_records recs true (some (on_data_ptr ap_rank_aps)),
      list_of_records (qrecs ++ [⟨ap_id, mob_cnt, 0⟩]) false cq⟩, ?_, ?_⟩
    · simp only [wifi_step, bind, Except.bind, pure, Except.pure, ap_appendq_spec]
    · exact ⟨hlb, well_formed_list_of_records _ _ _,
        by simp only [records_list_of_records]; exact hsize⟩

/-- Every sequence of commands returns and keeps the two lists as
`wifi_lists_ok` describes them. -/
theorem wifi_run_ok (lb_listsize : Int) (cmds : List wifi_command) (s : wifi_lists)
    (h : wifi_lists_ok lb_listsize s) :
    ∃ s1, wifi_run lb_listsize s cmds = .ok s1 ∧ wifi_lists_ok lb_listsize s1 := by
  induction cmds generalizing s with
  | nil => exact ⟨s, rfl, h⟩
  | cons c rest ih =>
    obtain ⟨s1, hstep, hok⟩ := wifi_step_ok lb_listsize s c h
    obtain ⟨s2, hrun, hok2⟩ := ih s1 hok
    refine ⟨s2, ?_, hok2⟩
    simp only [wifi_run, hstep]
    exact hrun

theorem wifi_start_ok (lb_listsize : Int) : wifi_lists_ok lb_listsize wifi_start := by
  refine ⟨?_, ?_, ?_⟩
  · exact leaderboard_ok_of [] List.Pairwise.nil (by simp)
  · exact ⟨rfl, by simp [wifi_start, twl_list_construct]⟩
  · simp [wifi_start, records, ap_create_leaderboard, twl_list_construct]

/-- `ap_add` on a leaderboard as `leaderboard_ok` describes it. -/
theorem ap_add_lists (leaderboard : twl_list_t ap_info_t) (ap_id max_list_size : Int)
    (input : Nat) (hlb : leaderboard_ok leaderboard) :
    ∃ add_result leaderboard1,
      ap_add leaderboard ap_id max_list_size input = .ok (add_result, leaderboard1) ∧
      (((records leaderboard).length : Int) ≥ max_list_size →
        add_result = 1 ∧ leaderboard1 = leaderboard) ∧
      (((records leaderboard).length : Int) < max_list_size →
        (∃ r ∈ records leaderboard, r.eth_address = ap_id) →
        add_result = 2 ∧ leaderboard1 = leaderboard) ∧
      (((records leaderboard).length : Int) < max_list_size →
        (∀ r ∈ records leaderboard, r.eth_address ≠ ap_id) →
        add_result = 0 ∧
          (records leaderboard1).Perm (ap_create_info ap_id input :: records leaderboard)) := by
  obtain ⟨recs, rfl, hs, hn⟩ := (leaderboard_ok_iff leaderboard).mp hlb
  obtain ⟨res, recs1, hcall, hs1, hfull, hdup, hnew⟩ :=
    ap_add_spec recs ap_id max_list_size input hs
  simp only [records_list_of_records]
  refine ⟨res, _, hcall, ?_, ?_, ?_⟩
  · intro h
    obtain ⟨h1, h2⟩ := hfull h
    exact ⟨h1, by rw [h2]⟩
  · intro h hd
    obtain ⟨h1, h2⟩ := hdup h hd
    exact ⟨h1, by rw [h2]⟩
  · intro h hno
    rw [records_list_of_records]
    exact hnew h hno

/-- `ap_dequeue` on a well formed queue and a leaderboard as `leaderboard_ok`
describes it. -/
theorem ap_dequeue_lists (queue leaderboard : twl_list_t ap_info_t) (max_list_size : Int)
    (hq : well_formed queue) (hlb : leaderboard_ok leaderboard) :
    ∃ move_result queue1 leaderboard1,
      ap_dequeue queue leaderboard max_list_size = .ok (move_result, queue1, leaderboard1) ∧
      queue1 = list_of_records (records queue).tail queue.ll_is_sorted queue.ll_comp_function ∧
      (records queue = [] →
        move_result = 0 ∧ queue1 = queue ∧ leaderboard1 = leaderboard) ∧
      (∀ r rest, records queue = r :: rest →
        (((records leaderboard).length : Int) ≥ max_list_size →
          move_result = 2 ∧ leaderboard1 = leaderboard) ∧
        (((records leaderboard).length : Int) < max_list_size →
          (∃ x ∈ records leaderboard, x.eth_address = r.eth_address) →
          move_result = 3 ∧ leaderboard1 = leaderboard) ∧
        (((records leaderboard).length : Int) < max_list_size →
          (∀ x ∈ records leaderboard, x.eth_address ≠ r.eth_address) →
          move_result = 1 ∧ (records leaderboard1).Perm (r :: records leaderboard))) := by
  obtain ⟨recs, rfl, hs, hn⟩ := (leaderboard_ok_iff leaderboard).mp hlb
  obtain ⟨qrecs, sq, cq, rfl⟩ := (well_formed_iff queue).mp hq
  obtain ⟨res, recs1, hcall, hs1, hempty, hfront⟩ :=
    ap_dequeue_spec qrecs recs sq cq max_list_size hs
  simp only [records_list_of_records]
  refine ⟨res, _, _, hcall, rfl, ?_, ?_⟩
  · intro h
    obtain ⟨h1, h2⟩ := hempty h
    exact ⟨h1, by rw [h]; rfl, by rw [h2]⟩
  · intro r rest h
    obtain ⟨hfull, hdup, hnew⟩ := hfront r rest h
    refine ⟨?_, ?_, ?_⟩
    · intro hf
      obtain ⟨h1, h2⟩ := hfull hf
      exact ⟨h1, by rw [h2]⟩
    · intro hf hd
      obtain ⟨h1, h2⟩ := hdup hf hd
      exact ⟨h1, by rw [h2]⟩
    · intro hf hno
      rw [records_list_of_records]
      exact hnew hf hno

/-- C32: from the lists `main` starts with, every sequence of the commands
that call `ap_add`, `ap_remove`, `ap_inc`, `ap_dec`, `ap_removeall` and
`ap_dequeue` (and `ap_enqueue`, `ap_appendq`, which fill the queue) returns,
and leaves the leaderboard in order: of two records the one nearer the front
has the larger `mobile_count`, or the same `mobile_count` and the smaller
`eth_address`; no adjacent pair has `ap_rank_aps(left, right) = -1`, the
flag is true and `list_debug_validate` passes. -/
theorem ap_leaderboard_stays_sorted (lb_listsize : Int) (cmds : List wifi_command) :
    ∃ s, wifi_run lb_listsize wifi_start cmds = .ok s ∧
      (records s.ap_leaderboard).Pairwise (fun a b =>
        a.mobile_count > b.mobile_count ∨
          (a.mobile_count = b.mobile_count ∧ a.eth_address < b.eth_address)) ∧
      List.Chain' (fun a b => on_data_ptr ap_rank_aps a b ≠ -1) s.ap_leaderboard.nodes ∧
      s.ap_leaderboard.ll_is_sorted = true ∧
      list_debug_validate s.ap_leaderboard = .ok () := by
  obtain ⟨s, hrun, hlb, _, _⟩ := wifi_run_ok lb_listsize cmds wifi_start (wifi_start_ok lb_listsize)
  obtain ⟨lb, q⟩ := s
  simp only at hlb
  obtain ⟨recs, rfl, hs, hn⟩ := (leaderboard_ok_iff lb).mp hlb
  refine ⟨_, hrun, ?_, ?_, rfl, ?_⟩
  · simp only [records_list_of_records]
    have hne : recs.Pairwise (fun a b => a.eth_address ≠ b.eth_address) := by
      have := List.pairwise_map.mp hn
      exact this
    refine (hs.and hne).imp ?_
    intro a b hab
    obtain ⟨h0, hne⟩ := hab
    rw [ap_rank_aps_nonneg] at h0
    omega
  · exact (sorted_walk_iff _ _).mp (sorted_walk_of_pairwise _ _
      ((pairwise_map_some_rank recs).mpr hs))
  · simp only
    rw [list_of_records_eq, validate_sorted _ _ (map_some_data recs),
      if_pos (sorted_walk_of_pairwise _ _ ((pairwise_map_some_rank recs).mpr hs))]

/-- C33: for a leaderboard size that is not negative, every sequence of
commands from the lists `main` starts with returns and leaves a leaderboard
with at most `max_list_size` records and no `eth_address` twice.  On the
lists reached, `ap_add` leaves the leaderboard as it is when it is full
(outcome 1, checked first) or, if not full, holds the `eth_address`
(outcome 2), and inserts the record otherwise (outcome 0); `ap_dequeue`
decides the same way for the front record of the queue (outcomes 2, 3,
1). -/
theorem ap_leaderboard_bounded_without_duplicates (max_list_size : Int)
    (cmds : List wifi_command) (hmax : 0 ≤ max_list_size) :
    ∃ s, wifi_run max_list_size wifi_start cmds = .ok s ∧
      ((records s.ap_leaderboard).length : Int) ≤ max_list_size ∧
      s.ap_leaderboard.ll_count = ((records s.ap_leaderboard).length : Int) ∧
      ((records s.ap_leaderboard).map (fun r => r.eth_address)).Nodup ∧
      (∀ ap_id input, ∃ add_result leaderboard1,
        ap_add s.ap_leaderboard ap_id max_list_size input = .ok (add_result, leaderboard1) ∧
        (((records s.ap_leaderboard).length : Int) ≥ max_list_size →
          add_result = 1 ∧ leaderboard1 = s.ap_leaderboard) ∧
        (((records s.ap_leaderboard).length : Int) < max_list_size →
          (∃ r ∈ records s.ap_leaderboard, r.eth_address = ap_id) →
          add_result = 2 ∧ leaderboard1 = s.ap_leaderboard) ∧
        (((records s.ap_leaderboard).length : Int) < max_list_size →
          (∀ r ∈ records s.ap_leaderboard, r.eth_address ≠ ap_id) →
          add_result = 0 ∧
            (records leaderboard1).Perm
              (ap_create_info ap_id input :: records s.ap_leaderboard))) ∧
      (∃ move_result queue1 leaderboard1,
        ap_dequeue s.ap_queue s.ap_leaderboard max_list_size =
          .ok (move_result, queue1, leaderboard1) ∧
        (records s.ap_queue = [] → leaderboard1 = s.ap_leaderboard) ∧
        (∀ r rest, records s.ap_queue = r :: rest →
          (((records s.ap_leaderboard).length : Int) ≥ max_list_size →
            move_result = 2 ∧ leaderboard1 = s.ap_leaderboard) ∧
          (((records s.ap_leaderboard).length : Int) < max_list_size →
            (∃ x ∈ records s.ap_leaderboard, x.eth_address = r.eth_address) →
            move_result = 3 ∧ leaderboard1 = s.ap_leaderboard) ∧
          (((records s.ap_leaderboard).length : Int) < max_list_size →
            (∀ x ∈ records s.ap_leaderboard, x.eth_address ≠ r.eth_address) →
            move_result = 1 ∧
              (records leaderboard1).Perm (r :: records s.ap_leaderboard)))) := by
  obtain ⟨s, hrun, hlb, hq, hsize⟩ :=
    wifi_run_ok max_list_size cmds wifi_start (wifi_start_ok max_list_size)
  refine ⟨s, hrun, by omega, ?_, hlb.2.2.2.2, ?_, ?_⟩
  · rw [hlb.1.1, ← List.length_map (records s.ap_leaderboard) some]
    unfold records
    rw [map_some_filterMap_id _ hlb.1.2]
  · intro ap_id input
    exact ap_add_lists s.ap_leaderboard ap_id max_list_size input hlb
  · obtain ⟨res, q1, lb1, hcall, _, hempty, hfront⟩ :=
      ap_dequeue_lists s.ap_queue s.ap_leaderboard max_list_size hq hlb
    exact ⟨res, q1, lb1, hcall, fun h => (hempty h).2.2, hfront⟩

/-- C33 for a leaderboard of size 2 and a run that fills it, is refused a
third record, and queues a record whose `eth_address` it holds. -/
theorem ap_leaderboard_bounded_without_duplicates_witness :
    ∃ s, wifi_run 2 wifi_start [.ADD 5 0, .ADD 3 1, .ADD 7 2, .APPENDQ 5 4] = .ok s ∧
      ((records s.ap_leaderboard).length : Int) ≤ 2 ∧
      s.ap_leaderboard.ll_count = ((records s.ap_leaderboard).length : Int) ∧
      ((records s.ap_leaderboard).map (fun r => r.eth_address)).Nodup ∧
      (∀ ap_id input, ∃ add_result leaderboard1,
        ap_add s.ap_leaderboard ap_id 2 input = .ok (add_result, leaderboard1) ∧
        (((records s.ap_leaderboard).length : Int) ≥ 2 →
          add_result = 1 ∧ leaderboard1 = s.ap_leaderboard) ∧
        (((records s.ap_leaderboard).length : Int) < 2 →
          (∃ r ∈ records s.ap_leaderboard, r.eth_address = ap_id) →
          add_result = 2 ∧ leaderboard1 = s.ap_leaderboard) ∧
        (((records s.ap_leaderboard).length : Int) < 2 →
          (∀ r ∈ records s.ap_leaderboard, r.eth_address ≠ ap_id) →
          add_result = 0 ∧
            (records leaderboard1).Perm
              (ap_create_info ap_id input :: records s.ap_leaderboard))) ∧
      (∃ move_result queue1 leaderboard1,
        ap_dequeue s.ap_queue s.ap_leaderboard 2 = .ok (move_result, queue1, leaderboard1) ∧
        (records s.ap_queue = [] → leaderboard1 = s.ap_leaderboard) ∧
        (∀ r rest, records s.ap_queue = r :: rest →
          (((records s.ap_leaderboard).length : Int) ≥ 2 →
            move_result = 2 ∧ leaderboard1 = s.ap_leaderboard) ∧
          (((records s.ap_leaderboard).length : Int) < 2 →
            (∃ x ∈ records s.ap_leaderboard, x.eth_address = r.eth_address) →
            move_result = 3 ∧ leaderboard1 = s.ap_leaderboard) ∧
          (((records s.ap_leaderboard).length : Int) < 2 →
            (∀ x ∈ records s.ap_leaderboard, x.eth_address ≠ r.eth_address) →
            move_result = 1 ∧
              (records leaderboard1).Perm (r :: records s.ap_leaderboard)))) :=
  ap_leaderboard_bounded_without_duplicates 2 [.ADD 5 0, .ADD 3 1, .ADD 7 2, .APPENDQ 5 4]
    (by decide)

/-- C34: on a well formed queue that is not empty, `ap_dequeue` takes out the
front record and leaves the other records of the queue in their order, count
one less, whether the record is inserted in the leaderboard (outcome 1) or
discarded because the leaderboard is full (outcome 2) or holds its
`eth_address` (outcome 3); on an empty queue both lists stay as they are.
The front record is the oldest: `ap_enqueue` puts a record behind all
others. -/
theorem ap_dequeue_removes_front (queue leaderboard : twl_list_t ap_info_t)
    (max_list_size : Int) (hq : well_formed queue) (hlb : leaderboard_ok leaderboard) :
    ∃ move_result queue1 leaderboard1,
      ap_dequeue queue leaderboard max_list_size = .ok (move_result, queue1, leaderboard1) ∧
      (records queue = [] → move_result = 0 ∧ queue1 = queue ∧ leaderboard1 = leaderboard) ∧
      (∀ r rest, records queue = r :: rest →
        records queue1 = rest ∧ queue1.nodes = queue.nodes.tail ∧
        queue1.ll_count = queue.ll_count - 1 ∧
        queue1.ll_is_sorted = queue.ll_is_sorted ∧
        queue1.ll_comp_function = queue.ll_comp_function ∧
        (((records leaderboard).length : Int) ≥ max_list_size →
          move_result = 2 ∧ leaderboard1 = leaderboard) ∧
        (((records leaderboard).length : Int) < max_list_size →
          (∃ x ∈ records leaderboard, x.eth_address = r.eth_address) →
          move_result = 3 ∧ leaderboard1 = leaderboard) ∧
        (((records leaderboard).length : Int) < max_list_size →
          (∀ x ∈ records leaderboard, x.eth_address ≠ r.eth_address) →
          move_result = 1 ∧ (records leaderboard1).Perm (r :: records leaderboard))) ∧
      (∀ ap_id input, ∃ queue2, ap_enqueue queue ap_id input = .ok queue2 ∧
        records queue2 = records queue ++ [ap_create_info ap_id input]) := by
  obtain ⟨res, q1, lb1, hcall, hq1, hempty, hfront⟩ :=
    ap_dequeue_lists queue leaderboard max_list_size hq hlb
  refine ⟨res, q1, lb1, hcall, hempty, ?_, ?_⟩
  · intro r rest h
    obtain ⟨qrecs, sq, cq, rfl⟩ := (well_formed_iff queue).mp hq
    rw [records_list_of_records] at h hq1
    subst h
    subst hq1
    refine ⟨records_list_of_records _ _ _, rfl, ?_, rfl, rfl,
      hfront r rest (records_list_of_records _ _ _)⟩
    simp only [list_of_records, List.tail_cons, List.length_cons]
    push_cast
    omega
  · intro ap_id input
    obtain ⟨qrecs, sq, cq, rfl⟩ := (well_formed_iff queue).mp hq
    exact ⟨_, ap_enqueue_spec qrecs sq cq ap_id input, by
      rw [records_list_of_records, records_list_of_records]⟩

/-- C34 on a queue of two records and a leaderboard with room that holds the
`eth_address` of neither. -/
theorem ap_dequeue_removes_front_witness :
    ∃ move_result queue1 leaderboard1,
      ap_dequeue ap_queue_two ap_leaderboard_one 2 = .ok (move_result, queue1, leaderboard1) ∧
      (records ap_queue_two = [] →
        move_result = 0 ∧ queue1 = ap_queue_two ∧ leaderboard1 = ap_leaderboard_one) ∧
      (∀ r rest, records ap_queue_two = r :: rest →
        records queue1 = rest ∧ queue1.nodes = ap_queue_two.nodes.tail ∧
        queue1.ll_count = ap_queue_two.ll_count - 1 ∧
        queue1.ll_is_sorted = ap_queue_two.ll_is_sorted ∧
        queue1.ll_comp_function = ap_queue_two.ll_comp_function ∧
        (((records ap_leaderboard_one).length : Int) ≥ 2 →
          move_result = 2 ∧ leaderboard1 = ap_leaderboard_one) ∧
        (((records ap_leaderboard_one).length : Int) < 2 →
          (∃ x ∈ records ap_leaderboard_one, x.eth_address = r.eth_address) →
          move_result = 3 ∧ leaderboard1 = ap_leaderboard_one) ∧
        (((records ap_leaderboard_one).length : Int) < 2 →
          (∀ x ∈ records ap_leaderboard_one, x.eth_address ≠ r.eth_address) →
          move_result = 1 ∧ (records leaderboard1).Perm (r :: records ap_leaderboard_one))) ∧
      (∀ ap_id input, ∃ queue2, ap_enqueue ap_queue_two ap_id input = .ok queue2 ∧
        records queue2 = records ap_queue_two ++ [ap_create_info ap_id input]) :=
  ap_dequeue_removes_front ap_queue_two ap_leaderboard_one 2 ⟨rfl, by decide⟩
    (leaderboard_ok_of _ (by simp) (by simp))
